import Mathlib

/-!
# Triangle-Backgrounds: the Delaunay triangulation engine

A shallow embedding of `src/delaunay.cpp` (class `Delaunay`) and theorems about it.

Coordinates are `double` in the source.  They are read here as exact rational numbers,
so that `+`, `-`, `*` and `/` by a non-zero divisor are exact.  The only operation of the
engine that can leave the finite numbers is the division in `get_intersection`; it
is modelled by `Option`: `none` stands for the non-finite point (both coordinates ±∞ or NaN)
that the source computes when the divisor is zero.
-/

namespace Delaunay

/-! ## Data model (`src/delaunay.h`) -/

/-- A 2D point, also used as a 2D vector (`struct point`). -/
structure point where
  x : ℚ
  y : ℚ
deriving DecidableEq

/-- A triangle, stored as an ordered triple of points (`struct triangle`). -/
structure triangle where
  a : point
  b : point
  c : point
deriving DecidableEq

/-! ## Static math helpers -/

/-- Source `Delaunay::cross_product`: `(a.x * b.y) - (b.x * a.y)`. -/
def cross_product (a b : point) : ℚ :=
  (a.x * b.y) - (b.x * a.y)

/-- Source `Delaunay::square_distance`. -/
def square_distance (a b : point) : ℚ :=
  let delta_x := b.x - a.x
  let delta_y := b.y - a.y
  (delta_x * delta_x) + (delta_y * delta_y)

/-- Source `Delaunay::get_midpoint`. -/
def get_midpoint (a b : point) : point :=
  { x := (a.x + b.x) / 2, y := (a.y + b.y) / 2 }

/-- Source `Delaunay::get_slope`. -/
def get_slope (a b : point) : point :=
  { x := b.x - a.x, y := b.y - a.y }

/-- Source `Delaunay::get_perpendicular_slope`. -/
def get_perpendicular_slope (slope : point) : point :=
  { x := slope.y, y := -1 * slope.x }

/-- Source `Delaunay::get_intersection`.  The source divides by
`cross_product(slope1, slope2)` without a guard.  When that divisor is zero the quotient `t`
is ±∞ or NaN, so both `t * slope1.x` and `t * slope1.y` are ±∞ or NaN and so are both
coordinates of the returned point: that point is `none` here. -/
def get_intersection (p1 p2 slope1 slope2 : point) : Option point :=
  let p2_minus_p1 : point := { x := p2.x - p1.x, y := p2.y - p1.y }
  if cross_product slope1 slope2 = 0 then none
  else
    let t := cross_product p2_minus_p1 slope2 / cross_product slope1 slope2
    some { x := p1.x + (t * slope1.x), y := p1.y + (t * slope1.y) }

/-- The circumcenter computed inside `Delaunay::is_in_circumcircle` (the local
variable `circumcenter`). -/
def circumcenter (t : triangle) : Option point :=
  let mid1 := get_midpoint t.a t.b
  let mid2 := get_midpoint t.b t.c
  let slope1 := get_perpendicular_slope (get_slope t.a t.b)
  let slope2 := get_perpendicular_slope (get_slope t.b t.c)
  get_intersection mid1 mid2 slope1 slope2

/-- Source `Delaunay::is_in_circumcircle`.  With a non-finite circumcenter, `radius` and
`distance` are both `+∞` or both NaN (the finite coordinates of `t.a` and `p` are subtracted
from the same non-finite coordinate), and `distance < radius` is false. -/
def is_in_circumcircle (p : point) (t : triangle) : Bool :=
  match circumcenter t with
  | none => false
  | some cc =>
    let radius := square_distance cc t.a
    let distance := square_distance cc p
    if distance < radius then true else false

/-- Source `Delaunay::are_points_equal`. -/
def are_points_equal (a b : point) : Bool :=
  decide (a.x = b.x) && decide (a.y = b.y)

/-- Source `Delaunay::is_triangle_vertex`. -/
def is_triangle_vertex (p : point) (t : triangle) : Bool :=
  are_points_equal p t.a || are_points_equal p t.b || are_points_equal p t.c

/-- Source `Delaunay::are_triangles_equal`. -/
def are_triangles_equal (t1 t2 : triangle) : Bool :=
  is_triangle_vertex t1.a t2 && is_triangle_vertex t1.b t2 && is_triangle_vertex t1.c t2

/-! ## The engine state -/

/-- The fields of `class Delaunay`. -/
structure State where
  width : Int
  height : Int
  points : List point
  triangles : List triangle
  super_triangle : triangle

/-- Source constructor `Delaunay::Delaunay`.  The vector `triangles` starts empty.  The
field `super_triangle` is not initialised by the constructor and is not read before
`create_super_triangle` assigns it; it holds a placeholder here. -/
def new (points_input : List point) : State :=
  { width := 1920
    height := 1080
    points := points_input
    triangles := []
    super_triangle := ⟨⟨0, 0⟩, ⟨0, 0⟩, ⟨0, 0⟩⟩ }

/-- Source `Delaunay::create_super_triangle`. -/
def create_super_triangle (d : State) : State :=
  let p1 : point := { x := ((-1 : ℚ) * d.width), y := ((-1 : ℚ) * d.height) }
  let p2 : point := { x := ((-1 : ℚ) * d.width), y := ((5 : ℚ) * d.height) }
  let p3 : point := { x := ((5 : ℚ) * d.width), y := ((-1 : ℚ) * d.height) }
  let st : triangle := ⟨p1, p2, p3⟩
  { d with super_triangle := st, triangles := d.triangles ++ [st] }

/-- The test of `Delaunay::remove_super_triangle`: the triangle has a corner of the
super-triangle as a vertex. -/
def touches_super (st t : triangle) : Bool :=
  is_triangle_vertex st.a t || is_triangle_vertex st.b t || is_triangle_vertex st.c t

/-- The loop of `Delaunay::remove_super_triangle`.  The iterator is its offset `itr` from
`triangles.begin()`, an integer because `itr--` on `begin()` leaves it one before the first
element until the `itr++` of the loop header.  `fuel` bounds the number of iterations;
`none` means it ran out. -/
def remove_super_loop (st : triangle) : Nat → Int → List triangle → Option (List triangle)
  | 0, _, _ => none
  | fuel + 1, itr, ts =>
    if itr = ts.length then some ts
    else
      match ts.get? itr.toNat with
      | none => none
      | some t =>
        if touches_super st t then
          -- itr--; triangles.erase(itr + 1); then itr++ of the loop header
          let itr1 := itr - 1
          remove_super_loop st fuel (itr1 + 1) (ts.eraseIdx (itr1 + 1).toNat)
        else
          remove_super_loop st fuel (itr + 1) ts

/-- Source `Delaunay::remove_super_triangle`, run with `fuel` loop iterations. -/
def remove_super_triangle (fuel : Nat) (d : State) : Option State :=
  (remove_super_loop d.super_triangle fuel 0 d.triangles).map
    (fun ts => { d with triangles := ts })

/-! ## Incremental insertion -/

/-- The bad-triangle scan of `triangulate`: the triangles whose circumcircle has `p`
inside, in list order. -/
def bad_triangles (p : point) (triangles : List triangle) : List triangle :=
  triangles.filter (fun t => is_in_circumcircle p t)

/-- The three edges `{t.a, t.b}, {t.b, t.c}, {t.c, t.a}` of a triangle, in the order of the
source. -/
def triangle_edges (t : triangle) : List (point × point) :=
  [(t.a, t.b), (t.b, t.c), (t.c, t.a)]

/-- The variable `count` of `triangulate`: how many bad triangles have both endpoints of
the edge as vertices. -/
def edge_count (bad : List triangle) (edge : point × point) : Nat :=
  bad.countP (fun t2 => is_triangle_vertex edge.1 t2 && is_triangle_vertex edge.2 t2)

/-- The list `polygon_edges` of `triangulate`: the edges of the bad triangles with
`count <= 1`, in the order they are found. -/
def polygon_edges (bad : List triangle) : List (point × point) :=
  bad.flatMap (fun t => (triangle_edges t).filter (fun edge => decide (edge_count bad edge ≤ 1)))

/-- The inner removal loop of `triangulate`: erase the first element that
`are_triangles_equal` to `t`, if any. -/
def erase_first_equal (t : triangle) : List triangle → List triangle
  | [] => []
  | u :: us => if are_triangles_equal t u then us else u :: erase_first_equal t us

/-- The removal loop of `triangulate` over all bad triangles. -/
def remove_bad (bad : List triangle) (triangles : List triangle) : List triangle :=
  bad.foldl (fun ts t => erase_first_equal t ts) triangles

/-- One iteration of the `for (point p : points)` loop of `triangulate`. -/
def insert_point (triangles : List triangle) (p : point) : List triangle :=
  let bad := bad_triangles p triangles
  let edges := polygon_edges bad
  remove_bad bad triangles ++ edges.map (fun edge => (⟨p, edge.1, edge.2⟩ : triangle))

/-- The state after `Delaunay::triangulate`. -/
def triangulate_state (d : State) : State :=
  let d1 := create_super_triangle d
  { d1 with triangles := d1.points.foldl insert_point d1.triangles }

/-- Source `Delaunay::triangulate`: the returned copy of `triangles`. -/
def triangulate (d : State) : List triangle :=
  (triangulate_state d).triangles

/-! ## Notions used to state the properties -/

/-- The three vertices of a triangle, in stored order. -/
def vertices (t : triangle) : List point := [t.a, t.b, t.c]

/-- Three points are collinear: the vectors `b - a` and `c - a` are parallel. -/
def collinear (a b c : point) : Prop :=
  (b.x - a.x) * (c.y - a.y) = (c.x - a.x) * (b.y - a.y)

instance (a b c : point) : Decidable (collinear a b c) := by
  unfold collinear; infer_instance

/-- Twice the signed area of the triangle `a b c`. -/
def area2 (a b c : point) : ℚ :=
  (b.x - a.x) * (c.y - a.y) - (c.x - a.x) * (b.y - a.y)

/-- The point `p + t * v` of the line through `p` with direction `v`. -/
def line_point (p v : point) (t : ℚ) : point :=
  { x := p.x + t * v.x, y := p.y + t * v.y }

/-- The divisor of `get_intersection` inside `is_in_circumcircle`. -/
def circum_denominator (t : triangle) : ℚ :=
  cross_product (get_perpendicular_slope (get_slope t.a t.b))
    (get_perpendicular_slope (get_slope t.b t.c))

/-- The circumcenter in closed form. -/
def circumcenter_formula (a b c : point) : point :=
  let d := 2 * area2 a b c
  let a2 := a.x * a.x + a.y * a.y
  let b2 := b.x * b.x + b.y * b.y
  let c2 := c.x * c.x + c.y * c.y
  { x := (a2 * (b.y - c.y) + b2 * (c.y - a.y) + c2 * (a.y - b.y)) / d
    y := (a2 * (c.x - b.x) + b2 * (a.x - c.x) + c2 * (b.x - a.x)) / d }

/-- The super-triangle of a freshly constructed engine (`width = 1920`, `height = 1080`). -/
def super0 : triangle := ⟨⟨-1920, -1080⟩, ⟨-1920, 5400⟩, ⟨9600, -1080⟩⟩

/-- The four corners of the unit square, in the order of the scenario. -/
def unit_square : List point := [⟨0, 0⟩, ⟨0, 1⟩, ⟨1, 0⟩, ⟨1, 1⟩]

/-- Two triangle lists are equal as sets under `are_triangles_equal`: every triangle of one
is `are_triangles_equal` to some triangle of the other, in both directions. -/
def same_triangle_set (l1 l2 : List triangle) : Bool :=
  l1.all (fun t => l2.any (fun u => are_triangles_equal t u)) &&
  l2.all (fun u => l1.any (fun t => are_triangles_equal u t))

/-- The dot product of the vectors `b - a` and `c - a`. -/
def dot_at (a b c : point) : ℚ :=
  (b.x - a.x) * (c.x - a.x) + (b.y - a.y) * (c.y - a.y)

/-- The in-circle determinant of `a, b, c` and `q`, with `q` taken as the origin. -/
def in_circle_det (a b c q : point) : ℚ :=
  let ax := a.x - q.x
  let ay := a.y - q.y
  let bx := b.x - q.x
  let bY := b.y - q.y
  let cx := c.x - q.x
  let cy := c.y - q.y
  (ax * ax + ay * ay) * (bx * cy - cx * bY)
    - (bx * bx + bY * bY) * (ax * cy - cx * ay)
    + (cx * cx + cy * cy) * (ax * bY - bx * ay)

/-- The value whose sign decides the circumcircle test: positive exactly when `q` is
strictly inside the circle through `a, b, c`. -/
def in_circle_num (a b c q : point) : ℚ := area2 a b c * in_circle_det a b c q

/-- The coordinate of `q` in the pencil of circles through `a` and `b`: two points off the
line `a b` lie on a common circle through `a` and `b` exactly when their coordinates agree. -/
def pencil (a b q : point) : ℚ := dot_at q a b / area2 a b q

/-! ## General position and the loop invariant -/

/-- No three distinct points of the list are collinear. -/
def no_three_collinear (V : List point) : Prop :=
  ∀ a ∈ V, ∀ b ∈ V, ∀ c ∈ V, a ≠ b → a ≠ c → b ≠ c → ¬ collinear a b c

/-- The four points lie on one circle (or one line): the in-circle determinant vanishes.
For non-collinear `a, b, c` this says that `d` is on the circle through them. -/
def cocircular (a b c d : point) : Prop := in_circle_det a b c d = 0

/-- No four distinct points of the list lie on one circle. -/
def no_four_cocircular (V : List point) : Prop :=
  ∀ a ∈ V, ∀ b ∈ V, ∀ c ∈ V, ∀ d ∈ V,
    a ≠ b → a ≠ c → a ≠ d → b ≠ c → b ≠ d → c ≠ d → ¬ cocircular a b c d

/-- The point `p` lies strictly inside the triangle `t`: for each edge it is strictly on the
side of the opposite vertex. -/
def strictly_inside (t : triangle) (p : point) : Prop :=
  0 < area2 t.a t.b p * area2 t.a t.b t.c
  ∧ 0 < area2 t.b t.c p * area2 t.b t.c t.a
  ∧ 0 < area2 t.c t.a p * area2 t.c t.a t.b

/-- The input points are in general position with respect to the super-triangle of a fresh
engine: among the three corners and the input points no three distinct points are collinear
and no four distinct points lie on one circle, and every input point lies strictly inside
the super-triangle.  The same point may occur several times in the input. -/
def general_position (pts : List point) : Prop :=
  no_three_collinear (vertices super0 ++ pts)
  ∧ no_four_cocircular (vertices super0 ++ pts)
  ∧ ∀ p ∈ pts, strictly_inside super0 p

instance (V : List point) : Decidable (no_three_collinear V) := by
  unfold no_three_collinear; infer_instance

instance (a b c d : point) : Decidable (cocircular a b c d) := by
  unfold cocircular; infer_instance

instance (V : List point) : Decidable (no_four_cocircular V) := by
  unfold no_four_cocircular; infer_instance

instance (t : triangle) (p : point) : Decidable (strictly_inside t p) := by
  unfold strictly_inside; infer_instance

instance (pts : List point) : Decidable (general_position pts) := by
  unfold general_position; infer_instance

/-- The invariant of the insertion loop for inputs in general position, with `V` the
super-triangle corners and the points inserted so far: the triangles have distinct vertices
in `V`, no two of them have the same vertices, no point of `V` is strictly inside a
circumcircle, and every triple of `V` with an empty circumcircle is in the list. -/
structure Inv (V : List point) (L : List triangle) : Prop where
  verts : ∀ T ∈ L, (vertices T).Nodup ∧ ∀ v ∈ vertices T, v ∈ V
  distinct : L.Pairwise (fun T U => are_triangles_equal T U = false)
  empty : ∀ T ∈ L, ∀ q ∈ V, is_in_circumcircle q T = false
  complete : ∀ a ∈ V, ∀ b ∈ V, ∀ c ∈ V, [a, b, c].Nodup →
    (∀ q ∈ V, is_in_circumcircle q ⟨a, b, c⟩ = false) → ∃ T ∈ L, (vertices T).Perm [a, b, c]

/-- The situation of one insertion step for inputs in general position: the invariant holds
for the triangle list `L` and the vertex set `V`, and the new point `p` is not in `V`, lies
strictly inside the super-triangle, and is in general position with respect to `V`. -/
structure StepCtx (V : List point) (L : List triangle) (p : point) : Prop where
  inv : Inv V L
  fresh : p ∉ V
  corners : ∀ s ∈ vertices super0, s ∈ V
  inside : strictly_inside super0 p
  g3 : no_three_collinear (p :: V)
  g4 : no_four_cocircular (p :: V)

/-- The point `q` lies strictly inside a circle through the three vertices of `t`: some
centre is equidistant from the vertices and strictly nearer to `q`. -/
def strictly_inside_circumcircle (q : point) (t : triangle) : Prop :=
  ∃ o : point, square_distance o t.a = square_distance o t.b
    ∧ square_distance o t.b = square_distance o t.c
    ∧ square_distance o q < square_distance o t.a
/-- The point `A + s * (B - A)` of the line through `A` and `B`. -/
def lerp (A B : point) (s : ℚ) : point :=
  { x := A.x + s * (B.x - A.x), y := A.y + s * (B.y - A.y) }

/-- The point `x` lies in the closed triangle `t` (given by barycentric signs). -/
def inside_closed (t : triangle) (x : point) : Prop :=
  0 ≤ area2 t.a t.b x * area2 t.a t.b t.c
  ∧ 0 ≤ area2 t.b t.c x * area2 t.a t.b t.c
  ∧ 0 ≤ area2 t.c t.a x * area2 t.a t.b t.c

instance (t : triangle) (x : point) : Decidable (inside_closed t x) := by
  unfold inside_closed; infer_instance

/-- The squared norm of a point. -/
def norm2 (q : point) : ℚ := q.x * q.x + q.y * q.y

/-- The in-circle determinant plus `area2 * |q|^2`: an affine function of `q`. -/
def lift_num (a b c q : point) : ℚ := in_circle_det a b c q + area2 a b c * norm2 q

/-- The height over `q` of the plane through the lifted vertices of `t` (the lifting map
is `q ↦ |q|^2`). -/
def lift (t : triangle) (q : point) : ℚ := lift_num t.a t.b t.c q / area2 t.a t.b t.c

/-- The point `x` is on no line through two distinct points of `W`. -/
def generic (W : List point) (x : point) : Prop :=
  ∀ a ∈ W, ∀ b ∈ W, a ≠ b → area2 a b x ≠ 0

instance (W : List point) (x : point) : Decidable (generic W x) := by
  unfold generic; infer_instance
/-- The parameter at which the line through `A` and `B` meets the line through `a` and
`b` (when it meets it in one point). -/
def cross_param (a b A B : point) : ℚ := area2 a b A / (area2 a b A - area2 a b B)

/-- The parameters at which the line through `A` and `B` meets the lines through two points
of `W`. -/
def crossings (W : List point) (A B : point) : List ℚ :=
  W.flatMap (fun a => W.map (fun b => cross_param a b A B))

/-- No line through two distinct points of `W` passes through `x1` or `x2` or between
them. -/
def same_cell (W : List point) (x1 x2 : point) : Prop :=
  ∀ a ∈ W, ∀ b ∈ W, a ≠ b → 0 < area2 a b x1 * area2 a b x2
/-- The invariant of the insertion loop for input points strictly inside the
super-triangle, with `V` the super-triangle corners and the points inserted so far: the
triangles are non-degenerate with vertices in `V`, no point of `V` is strictly inside a
circumcircle, and every point strictly inside the super-triangle that is on no line through
two points of `V` is strictly inside exactly one triangle of the list. -/
structure GInv (V : List point) (L : List triangle) : Prop where
  corners : ∀ s ∈ vertices super0, s ∈ V
  inside : ∀ v ∈ V, v ∈ vertices super0 ∨ strictly_inside super0 v
  nondeg : ∀ T ∈ L, area2 T.a T.b T.c ≠ 0 ∧ ∀ v ∈ vertices T, v ∈ V
  empty : ∀ T ∈ L, ∀ q ∈ V, is_in_circumcircle q T = false
  cover : ∀ x, strictly_inside super0 x → generic V x →
    L.countP (fun T => decide (strictly_inside T x)) = 1
/-- The point `X2` is weakly on the same side as `X1` of every line of `W`. -/
def weak_cell (W : List point) (X1 X2 : point) : Prop :=
  ∀ a ∈ W, ∀ b ∈ W, 0 ≤ area2 a b X1 * area2 a b X2

/-- The situation of one insertion step for input points strictly inside the
super-triangle: the invariant holds for `V` and `L`, and the new point `p` is not in `V` and
lies strictly inside the super-triangle. -/
structure GStep (V : List point) (L : List triangle) (p : point) : Prop where
  inv : GInv V L
  fresh : p ∉ V
  inside : strictly_inside super0 p
/-- The list `triangles` after the first `k` iterations of the loop `for (point p : points)`
of `triangulate`. -/
def triangles_after (d : State) (k : Nat) : List triangle :=
  let d1 := create_super_triangle d
  (d1.points.take k).foldl insert_point d1.triangles

/-- The triangles on which `triangulate` evaluates `is_in_circumcircle`: iteration `k + 1`
scans the whole list left by the first `k` iterations. -/
def scanned_triangles (d : State) : List triangle :=
  (List.range d.points.length).flatMap (fun k => triangles_after d k)

/-- The point `x` is in the convex hull of the points of the list: it is the first point,
or on a segment from the first point to a point of the convex hull of the others. -/
def in_hull : List point → point → Prop
  | [], _ => False
  | p :: ps, x => x = p ∨ ∃ y s, in_hull ps y ∧ 0 ≤ s ∧ s ≤ 1 ∧ x = lerp p y s

/-! ## Basic facts -/

theorem point_ext {p q : point} (hx : p.x = q.x) (hy : p.y = q.y) : p = q := by
  cases p; cases q; simp_all

theorem are_points_equal_iff (a b : point) : are_points_equal a b = true ↔ a = b := by
  cases a; cases b; simp [are_points_equal]

theorem is_triangle_vertex_iff (p : point) (t : triangle) :
    is_triangle_vertex p t = true ↔ p ∈ vertices t := by
  simp [is_triangle_vertex, vertices, are_points_equal_iff, or_assoc]

theorem are_triangles_equal_iff_subset (t1 t2 : triangle) :
    are_triangles_equal t1 t2 = true ↔ ∀ v ∈ vertices t1, v ∈ vertices t2 := by
  simp only [are_triangles_equal, Bool.and_eq_true, is_triangle_vertex_iff]
  simp [vertices, and_assoc]

theorem are_triangles_equal_iff_perm (t1 t2 : triangle) (h : (vertices t1).Nodup) :
    are_triangles_equal t1 t2 = true ↔ (vertices t1).Perm (vertices t2) := by
  rw [are_triangles_equal_iff_subset]
  constructor
  · intro hs
    exact (List.subperm_of_subset h hs).perm_of_length_le (by simp [vertices])
  · intro hp v hv
    exact hp.subset hv

theorem collinear_iff_area2 (a b c : point) : collinear a b c ↔ area2 a b c = 0 := by
  unfold collinear area2; constructor <;> intro h <;> linarith

theorem circum_denominator_eq (t : triangle) : circum_denominator t = area2 t.a t.b t.c := by
  simp only [circum_denominator, cross_product, get_perpendicular_slope, get_slope, area2]
  ring

theorem get_intersection_some (p1 p2 s1 s2 : point) (h : cross_product s1 s2 ≠ 0) :
    get_intersection p1 p2 s1 s2 =
      some (line_point p1 s1
        (cross_product ⟨p2.x - p1.x, p2.y - p1.y⟩ s2 / cross_product s1 s2)) := by
  simp [get_intersection, h, line_point]

theorem circumcenter_eq (t : triangle) (h : ¬ collinear t.a t.b t.c) :
    circumcenter t = some (circumcenter_formula t.a t.b t.c) := by
  have hd : area2 t.a t.b t.c ≠ 0 := fun h0 => h ((collinear_iff_area2 _ _ _).2 h0)
  have hc : circum_denominator t ≠ 0 := by rw [circum_denominator_eq]; exact hd
  unfold circumcenter
  simp only []
  unfold get_intersection
  simp only []
  unfold circum_denominator at hc
  rw [if_neg hc]
  simp only [cross_product, get_perpendicular_slope, get_slope, area2] at hc hd
  simp only [cross_product, get_perpendicular_slope, get_slope, get_midpoint,
    circumcenter_formula, area2, Option.some.injEq]
  have e : (t.b.y - t.a.y) * (-1 * (t.c.x - t.b.x)) - (t.c.y - t.b.y) * (-1 * (t.b.x - t.a.x))
      = (t.b.x - t.a.x) * (t.c.y - t.a.y) - (t.c.x - t.a.x) * (t.b.y - t.a.y) := by ring
  rw [e]
  apply point_ext
  · simp only []; field_simp; ring
  · simp only []; field_simp; ring

theorem circumcenter_none (t : triangle) (h : collinear t.a t.b t.c) :
    circumcenter t = none := by
  have hc : circum_denominator t = 0 := by
    rw [circum_denominator_eq]; exact (collinear_iff_area2 _ _ _).1 h
  unfold circumcenter
  simp only []
  unfold get_intersection
  simp only []
  unfold circum_denominator at hc
  rw [if_pos hc]

theorem is_in_circumcircle_iff (p : point) (t : triangle) (h : ¬ collinear t.a t.b t.c) :
    is_in_circumcircle p t = true ↔
      square_distance (circumcenter_formula t.a t.b t.c) p
        < square_distance (circumcenter_formula t.a t.b t.c) t.a := by
  unfold is_in_circumcircle
  rw [circumcenter_eq t h]
  simp

theorem is_in_circumcircle_collinear (p : point) (t : triangle) (h : collinear t.a t.b t.c) :
    is_in_circumcircle p t = false := by
  unfold is_in_circumcircle
  rw [circumcenter_none t h]

theorem circumcenter_formula_equidistant (a b c : point) (h : ¬ collinear a b c) :
    square_distance (circumcenter_formula a b c) a = square_distance (circumcenter_formula a b c) b
    ∧ square_distance (circumcenter_formula a b c) b
        = square_distance (circumcenter_formula a b c) c := by
  have hd : area2 a b c ≠ 0 := fun h0 => h ((collinear_iff_area2 _ _ _).2 h0)
  simp only [area2] at hd
  constructor
  · simp only [square_distance, circumcenter_formula, area2]; field_simp; ring
  · simp only [square_distance, circumcenter_formula, area2]; field_simp; ring

theorem equidistant_unique (a b c o : point) (h : ¬ collinear a b c)
    (h1 : square_distance o a = square_distance o b)
    (h2 : square_distance o b = square_distance o c) :
    o = circumcenter_formula a b c := by
  have hd : area2 a b c ≠ 0 := fun h0 => h ((collinear_iff_area2 _ _ _).2 h0)
  simp only [area2] at hd
  simp only [square_distance] at h1 h2
  apply point_ext
  · simp only [circumcenter_formula, area2]
    rw [eq_div_iff (mul_ne_zero two_ne_zero hd)]
    linear_combination (c.y - b.y) * h1 + (a.y - b.y) * h2
  · simp only [circumcenter_formula, area2]
    rw [eq_div_iff (mul_ne_zero two_ne_zero hd)]
    linear_combination (b.x - c.x) * h1 + (b.x - a.x) * h2

theorem remove_super_loop_spec (st : triangle) :
    ∀ (fuel : Nat) (pre post : List triangle), post.length < fuel →
      remove_super_loop st fuel pre.length (pre ++ post)
        = some (pre ++ post.filter (fun t => !touches_super st t)) := by
  intro fuel
  induction fuel with
  | zero => intro pre post h; exact absurd h (Nat.not_lt_zero _)
  | succ n ih =>
    intro pre post h
    cases post with
    | nil => simp [remove_super_loop]
    | cons t post =>
      have hlen : ¬ ((pre.length : Int) = ((pre ++ t :: post).length : Nat)) := by
        simp only [List.length_append, List.length_cons]; omega
      have hget : (pre ++ t :: post).get? (pre.length : Int).toNat = some t := by
        rw [Int.toNat_ofNat, List.get?_eq_getElem?,
          List.getElem?_append_right (le_refl _)]
        simp
      have hlt : post.length < n := by simpa using h
      unfold remove_super_loop
      rw [if_neg hlen]
      simp only [hget]
      by_cases ht : touches_super st t = true
      · rw [if_pos ht]
        have he : (pre ++ t :: post).eraseIdx ((pre.length : Int) - 1 + 1).toNat
            = pre ++ post := by
          have : ((pre.length : Int) - 1 + 1).toNat = pre.length := by simp
          rw [this, List.eraseIdx_append_of_length_le (le_refl _)]
          simp
        rw [he, show (pre.length : Int) - 1 + 1 = pre.length from by ring, ih pre post hlt]
        simp [ht]
      · rw [if_neg ht]
        have := ih (pre ++ [t]) post hlt
        simp only [List.length_append, List.length_singleton, List.append_assoc,
          List.singleton_append, Nat.cast_add, Nat.cast_one] at this
        rw [this]
        simp [ht]

/-! ## The circumcircle test as a polynomial sign -/

theorem square_distance_diff (a b c q : point) (h : area2 a b c ≠ 0) :
    square_distance (circumcenter_formula a b c) a - square_distance (circumcenter_formula a b c) q
      = in_circle_det a b c q / area2 a b c := by
  simp only [area2] at h
  simp only [square_distance, circumcenter_formula, area2, in_circle_det]
  field_simp
  ring

theorem is_in_circumcircle_iff_num (q : point) (t : triangle) :
    is_in_circumcircle q t = true ↔ 0 < in_circle_num t.a t.b t.c q := by
  by_cases h : collinear t.a t.b t.c
  · rw [is_in_circumcircle_collinear q t h]
    have h0 : area2 t.a t.b t.c = 0 := (collinear_iff_area2 _ _ _).1 h
    simp [in_circle_num, h0]
  · have h0 : area2 t.a t.b t.c ≠ 0 := fun h0 => h ((collinear_iff_area2 _ _ _).2 h0)
    rw [is_in_circumcircle_iff q t h, ← sub_pos, square_distance_diff _ _ _ _ h0, in_circle_num]
    rw [div_pos_iff, mul_pos_iff]
    tauto

/-- For non-collinear `a, b, c` the point `d` is cocircular with them exactly when it is
as far from their circumcenter as `a` is. -/
theorem cocircular_iff (a b c d : point) (h : ¬ collinear a b c) :
    cocircular a b c d ↔
      square_distance (circumcenter_formula a b c) d
        = square_distance (circumcenter_formula a b c) a := by
  have h0 : area2 a b c ≠ 0 := fun h0 => h ((collinear_iff_area2 _ _ _).2 h0)
  have hd := square_distance_diff a b c d h0
  unfold cocircular
  constructor
  · intro hz
    rw [hz, zero_div] at hd
    linarith
  · intro he
    rw [he, sub_self] at hd
    exact (div_eq_zero_iff.1 hd.symm).resolve_right h0

theorem in_circle_num_swap (a b c q : point) : in_circle_num b a c q = in_circle_num a b c q := by
  simp only [in_circle_num, area2, in_circle_det]; ring

theorem in_circle_num_rot (a b c q : point) : in_circle_num b c a q = in_circle_num a b c q := by
  simp only [in_circle_num, area2, in_circle_det]; ring

theorem in_circle_num_vertex (a b c : point) :
    in_circle_num a b c a = 0 ∧ in_circle_num a b c b = 0 ∧ in_circle_num a b c c = 0 := by
  refine ⟨?_, ?_, ?_⟩ <;> simp only [in_circle_num, area2, in_circle_det] <;> ring

theorem in_circle_det_pencil (a b w q : point) :
    in_circle_det a b w q = dot_at w a b * area2 a b q - dot_at q a b * area2 a b w := by
  simp only [dot_at, area2, in_circle_det]
  ring

theorem pencil_identity (a b w q : point) (hw : area2 a b w ≠ 0) (hq : area2 a b q ≠ 0) :
    area2 a b q * (pencil a b q - pencil a b w)
      = - in_circle_num a b w q / (area2 a b w * area2 a b w) := by
  rw [in_circle_num, in_circle_det_pencil, pencil, pencil]
  generalize area2 a b q = y at hq ⊢
  generalize area2 a b w = v at hw ⊢
  generalize dot_at q a b = x
  generalize dot_at w a b = u
  field_simp
  ring

theorem in_circle_num_pos_iff (a b w q : point) (hw : area2 a b w ≠ 0) (hq : area2 a b q ≠ 0) :
    0 < in_circle_num a b w q ↔ area2 a b q * (pencil a b q - pencil a b w) < 0 := by
  rw [pencil_identity a b w q hw hq]
  have h2 : 0 < area2 a b w * area2 a b w := mul_self_pos.2 hw
  rw [div_neg_iff]
  constructor
  · intro h; right; exact ⟨by linarith, h2⟩
  · rintro (⟨_, h⟩ | ⟨h, _⟩)
    · exact absurd h2 (not_lt.2 h.le)
    · linarith

theorem in_circle_num_zero_iff (a b w q : point) (hw : area2 a b w ≠ 0) (hq : area2 a b q ≠ 0) :
    in_circle_num a b w q = 0 ↔ pencil a b q = pencil a b w := by
  have h := pencil_identity a b w q hw hq
  have h2 : area2 a b w * area2 a b w ≠ 0 := mul_ne_zero hw hw
  constructor
  · intro h0
    rw [h0, neg_zero, zero_div] at h
    rcases mul_eq_zero.1 h with h | h
    · exact absurd h hq
    · linarith
  · intro he
    rw [he, sub_self, mul_zero] at h
    have := (div_eq_zero_iff.1 h.symm).resolve_right h2
    linarith

/-! ## Order independence of the circumcircle test and the removal loop -/

theorem erase_first_equal_eq_eraseP (t : triangle) (l : List triangle) :
    erase_first_equal t l = l.eraseP (fun u => are_triangles_equal t u) := by
  induction l with
  | nil => rfl
  | cons u us ih =>
    by_cases h : are_triangles_equal t u = true
    · simp [erase_first_equal, h]
    · simp [erase_first_equal, h, ih]

/-- Erasing, for each element of `bs` in turn, the first element related to it removes
exactly the elements satisfying `B`, when `bs` and the `B`-elements of `l` have the same
number of elements in every class of the relation. -/
theorem foldl_eraseP_eq_filter {α : Type} (E : α → α → Bool) (B : α → Bool)
    (hrefl : ∀ t, B t = true → E t t = true)
    (hB : ∀ t u, B t = true → E t u = true → B u = true)
    (hsymm : ∀ t u, B t = true → E t u = true → E u t = true)
    (htrans : ∀ t u v, E t u = true → E u v = true → E t v = true) :
    ∀ (bs l : List α), (∀ t ∈ bs, B t = true) →
      (∀ c, B c = true → bs.countP (E c) = (l.filter B).countP (E c)) →
      bs.foldl (fun ts t => ts.eraseP (E t)) l = l.filter (fun t => !B t) := by
  intro bs
  induction bs with
  | nil =>
    intro l _ hc
    have hno : ∀ x ∈ l, B x = false := by
      intro x hx
      by_contra hb
      have hb' : B x = true := by simpa using hb
      have h0 := hc x hb'
      simp only [List.countP_nil] at h0
      have hpos : 0 < (l.filter B).countP (E x) :=
        List.countP_pos_iff.2 ⟨x, List.mem_filter.2 ⟨hx, hb'⟩, hrefl x hb'⟩
      omega
    simp only [List.foldl_nil]
    symm
    rw [List.filter_eq_self]
    intro x hx
    simp [hno x hx]
  | cons t bs ih =>
    intro l hbs hc
    have ht : B t = true := hbs t (List.mem_cons_self _ _)
    have hpos : 0 < (l.filter B).countP (E t) := by
      rw [← hc t ht]
      exact List.countP_pos_iff.2 ⟨t, List.mem_cons_self _ _, hrefl t ht⟩
    obtain ⟨u, hu, htu⟩ := List.countP_pos_iff.1 hpos
    have hul : u ∈ l := (List.mem_filter.1 hu).1
    obtain ⟨u0, l1, l2, hl1, hu0, hl, he⟩ := List.exists_of_eraseP hul htu
    have hBu0 : B u0 = true := hB t u0 ht hu0
    simp only [List.foldl_cons]
    rw [he, ih (l1 ++ l2) (fun x hx => hbs x (List.mem_cons_of_mem _ hx))]
    · rw [hl]
      simp [List.filter_append, List.filter_cons, hBu0]
    · intro c hcB
      have h1 := hc c hcB
      rw [hl] at h1
      simp only [List.filter_append, List.filter_cons, hBu0, if_true, List.countP_append,
        List.countP_cons] at h1
      have hiff : E c t = E c u0 := by
        rw [Bool.eq_iff_iff]
        constructor
        · intro h; exact htrans c t u0 h hu0
        · intro h; exact htrans c u0 t h (hsymm t u0 ht hu0)
      rw [hiff] at h1
      simp only [List.filter_append, List.countP_append]
      omega
theorem perm2_cases {y z b c : point} (h : [y, z].Perm [b, c]) :
    (y = b ∧ z = c) ∨ (y = c ∧ z = b) := by
  have hy : y ∈ [b, c] := h.subset (List.mem_cons_self _ _)
  simp only [List.mem_cons, List.mem_singleton, List.not_mem_nil, or_false] at hy
  rcases hy with rfl | rfl
  · left
    have := List.Perm.cons_inv h
    exact ⟨rfl, by simpa using this⟩
  · right
    have h' : [y, z].Perm [y, b] := h.trans (List.Perm.swap _ _ _)
    have := List.Perm.cons_inv h'
    exact ⟨rfl, by simpa using this⟩

theorem perm3_cases {x y z a b c : point} (h : [x, y, z].Perm [a, b, c]) :
    (x = a ∧ y = b ∧ z = c) ∨ (x = a ∧ y = c ∧ z = b) ∨ (x = b ∧ y = a ∧ z = c)
    ∨ (x = b ∧ y = c ∧ z = a) ∨ (x = c ∧ y = a ∧ z = b) ∨ (x = c ∧ y = b ∧ z = a) := by
  have hx : x ∈ [a, b, c] := h.subset (List.mem_cons_self _ _)
  simp only [List.mem_cons, List.mem_singleton, List.not_mem_nil, or_false] at hx
  rcases hx with rfl | rfl | rfl
  · rcases perm2_cases (List.Perm.cons_inv h) with ⟨h1, h2⟩ | ⟨h1, h2⟩
    · exact Or.inl ⟨rfl, h1, h2⟩
    · exact Or.inr (Or.inl ⟨rfl, h1, h2⟩)
  · have h' : [x, y, z].Perm [x, a, c] := h.trans (List.Perm.swap _ _ _)
    rcases perm2_cases (List.Perm.cons_inv h') with ⟨h1, h2⟩ | ⟨h1, h2⟩
    · exact Or.inr (Or.inr (Or.inl ⟨rfl, h1, h2⟩))
    · exact Or.inr (Or.inr (Or.inr (Or.inl ⟨rfl, h1, h2⟩)))
  · have h' : [x, y, z].Perm [x, a, b] :=
      h.trans ((List.Perm.cons a (List.Perm.swap x b [])).trans (List.Perm.swap _ _ _))
    rcases perm2_cases (List.Perm.cons_inv h') with ⟨h1, h2⟩ | ⟨h1, h2⟩
    · exact Or.inr (Or.inr (Or.inr (Or.inr (Or.inl ⟨rfl, h1, h2⟩))))
    · exact Or.inr (Or.inr (Or.inr (Or.inr (Or.inr ⟨rfl, h1, h2⟩))))

theorem in_circle_num_perm {x y z a b c : point} (h : [x, y, z].Perm [a, b, c]) (q : point) :
    in_circle_num x y z q = in_circle_num a b c q := by
  rcases perm3_cases h with e | e | e | e | e | e
  all_goals
    obtain ⟨rfl, rfl, rfl⟩ := e
    first | rfl | (simp only [in_circle_num, area2, in_circle_det]; ring)

/-- The circumcircle test does not depend on the stored order of the vertices. -/
theorem is_in_circumcircle_perm (q : point) (t u : triangle)
    (h : (vertices t).Perm (vertices u)) :
    is_in_circumcircle q t = is_in_circumcircle q u := by
  rw [Bool.eq_iff_iff, is_in_circumcircle_iff_num, is_in_circumcircle_iff_num,
    in_circle_num_perm (x := t.a) (y := t.b) (z := t.c) h]

theorem area2_ne_zero_nodup {a b c : point} (h : area2 a b c ≠ 0) : [a, b, c].Nodup := by
  have hab : a ≠ b := by
    rintro rfl; apply h; simp only [area2]; ring
  have hac : a ≠ c := by
    rintro rfl; apply h; simp only [area2]; ring
  have hbc : b ≠ c := by
    rintro rfl; apply h; simp only [area2]; ring
  simp [hab, hac, hbc]

theorem is_in_circumcircle_nodup {q : point} {t : triangle}
    (h : is_in_circumcircle q t = true) : (vertices t).Nodup := by
  rw [is_in_circumcircle_iff_num, in_circle_num] at h
  apply area2_ne_zero_nodup
  intro h0
  rw [h0, zero_mul] at h
  exact lt_irrefl _ h

theorem is_in_circumcircle_vertex (t : triangle) (v : point) (hv : v ∈ vertices t) :
    is_in_circumcircle v t = false := by
  rw [← Bool.not_eq_true, is_in_circumcircle_iff_num]
  have h := in_circle_num_vertex t.a t.b t.c
  simp only [vertices, List.mem_cons, List.mem_singleton, List.not_mem_nil, or_false] at hv
  rcases hv with rfl | rfl | rfl
  · rw [h.1]; exact lt_irrefl _
  · rw [h.2.1]; exact lt_irrefl _
  · rw [h.2.2]; exact lt_irrefl _

/-- The removal loop deletes exactly the bad triangles and keeps the others in order. -/
theorem remove_bad_eq_filter (p : point) (l : List triangle) :
    remove_bad (bad_triangles p l) l = l.filter (fun t => !is_in_circumcircle p t) := by
  have hfold : ∀ (bs ts : List triangle),
      bs.foldl (fun ts t => erase_first_equal t ts) ts
        = bs.foldl (fun ts t => ts.eraseP (fun u => are_triangles_equal t u)) ts := by
    intro bs
    induction bs with
    | nil => intro ts; rfl
    | cons b bs ih => intro ts; simp only [List.foldl_cons, erase_first_equal_eq_eraseP, ih]
  unfold remove_bad bad_triangles
  rw [hfold]
  have hperm : ∀ t u, is_in_circumcircle p t = true → are_triangles_equal t u = true →
      (vertices t).Perm (vertices u) := fun t u hb he =>
    (are_triangles_equal_iff_perm t u (is_in_circumcircle_nodup hb)).1 he
  refine foldl_eraseP_eq_filter (fun t u => are_triangles_equal t u)
    (fun t => is_in_circumcircle p t) ?_ ?_ ?_ ?_ _ l ?_ ?_
  · intro t _
    exact (are_triangles_equal_iff_subset t t).2 (fun v hv => hv)
  · intro t u hb he
    show is_in_circumcircle p u = true
    rw [← is_in_circumcircle_perm p t u (hperm t u hb he)]; exact hb
  · intro t u hb he
    exact (are_triangles_equal_iff_subset u t).2 (fun v hv => (hperm t u hb he).symm.subset hv)
  · intro t u v h1 h2
    rw [are_triangles_equal_iff_subset] at h1 h2 ⊢
    exact fun x hx => h2 x (h1 x hx)
  · intro t ht
    exact (List.mem_filter.1 ht).2
  · intro c _
    simp

/-! ## One insertion step: lists and counts -/

theorem insert_point_eq (l : List triangle) (p : point) :
    insert_point l p = l.filter (fun t => !is_in_circumcircle p t)
      ++ (polygon_edges (bad_triangles p l)).map (fun edge => (⟨p, edge.1, edge.2⟩ : triangle)) := by
  unfold insert_point
  simp only [remove_bad_eq_filter]

theorem mem_polygon_edges (bad : List triangle) (e : point × point) :
    e ∈ polygon_edges bad ↔ ∃ t ∈ bad, e ∈ triangle_edges t ∧ edge_count bad e ≤ 1 := by
  simp [polygon_edges, List.mem_flatMap, List.mem_filter]

theorem mem_triangle_edges (t : triangle) (e : point × point) :
    e ∈ triangle_edges t ↔ e = (t.a, t.b) ∨ e = (t.b, t.c) ∨ e = (t.c, t.a) := by
  simp [triangle_edges]

theorem edge_count_symm (bad : List triangle) (u v : point) :
    edge_count bad (u, v) = edge_count bad (v, u) := by
  unfold edge_count
  congr 1
  funext t
  exact Bool.and_comm _ _

theorem two_le_countP {α : Type} (P : α → Bool) (l : List α) (x y : α) (hx : x ∈ l)
    (hy : y ∈ l) (hxy : x ≠ y) (hPx : P x = true) (hPy : P y = true) : 2 ≤ l.countP P := by
  induction l with
  | nil => exact absurd hx (List.not_mem_nil _)
  | cons z zs ih =>
    rw [List.countP_cons]
    rcases List.mem_cons.1 hx with rfl | hx'
    · rcases List.mem_cons.1 hy with rfl | hy'
      · exact absurd rfl hxy
      · have : 0 < zs.countP P := List.countP_pos_iff.2 ⟨y, hy', hPy⟩
        simp only [hPx, if_true]; omega
    · rcases List.mem_cons.1 hy with rfl | hy'
      · have : 0 < zs.countP P := List.countP_pos_iff.2 ⟨x, hx', hPx⟩
        simp only [hPy, if_true]; omega
      · have := ih hx' hy'
        omega

theorem countP_le_one_of_pairwise {α : Type} (P : α → Bool) (l : List α)
    (h : l.Pairwise (fun x y => ¬ (P x = true ∧ P y = true))) : l.countP P ≤ 1 := by
  induction l with
  | nil => simp
  | cons z zs ih =>
    rw [List.pairwise_cons] at h
    rw [List.countP_cons]
    by_cases hz : P z = true
    · have h0 : zs.countP P = 0 := by
        rw [List.countP_eq_zero]
        intro y hy hPy
        exact h.1 y hy ⟨hz, hPy⟩
      simp [h0, hz]
    · have := ih h.2
      simp only [hz]
      simpa using this

/-- The third vertex of a triangle with distinct vertices, two of which are given. -/
theorem third_vertex {t : triangle} {a b : point} (hn : (vertices t).Nodup)
    (ha : a ∈ vertices t) (hb : b ∈ vertices t) (hab : a ≠ b) :
    ∃ w, (vertices t).Perm [a, b, w] ∧ w ≠ a ∧ w ≠ b := by
  obtain ⟨x, y, z⟩ := t
  simp only [vertices, List.nodup_cons, List.mem_cons, List.mem_singleton, List.not_mem_nil,
    or_false, not_or, List.nodup_nil, and_true, not_false_eq_true] at hn ha hb
  obtain ⟨⟨hxy, hxz⟩, hyz⟩ := hn
  simp only [vertices]
  rcases ha with rfl | rfl | rfl <;> rcases hb with rfl | rfl | rfl
  · exact absurd rfl hab
  · exact ⟨z, List.Perm.refl _, fun h => hxz h.symm, fun h => hyz h.symm⟩
  · refine ⟨y, ?_, fun h => hxy h.symm, hyz⟩
    rw [List.perm_iff_count]; intro v; simp [List.count_cons]; omega
  · refine ⟨z, ?_, fun h => hyz h.symm, fun h => hxz h.symm⟩
    rw [List.perm_iff_count]; intro v; simp [List.count_cons]; omega
  · exact absurd rfl hab
  · refine ⟨x, ?_, hxy, hxz⟩
    rw [List.perm_iff_count]; intro v; simp [List.count_cons]; omega
  · refine ⟨y, ?_, hyz, fun h => hxy h.symm⟩
    rw [List.perm_iff_count]; intro v; simp [List.count_cons]; omega
  · refine ⟨x, ?_, hxz, hxy⟩
    rw [List.perm_iff_count]; intro v; simp [List.count_cons]; omega
  · exact absurd rfl hab

/-! ## One insertion step: geometry in the pencil of circles through an edge -/

theorem area2_swap (a b q : point) : area2 b a q = - area2 a b q := by
  simp only [area2]; ring

theorem area2_rot (a b c : point) : area2 b c a = area2 a b c := by
  simp only [area2]; ring

theorem pencil_swap (a b q : point) : pencil b a q = - pencil a b q := by
  have hd : dot_at q b a = dot_at q a b := by simp only [dot_at]; ring
  rw [pencil, pencil, area2_swap, hd, div_neg]

theorem area2_barycentric (s1 s2 s3 a b p : point) :
    area2 s1 s2 s3 * area2 a b p
      = area2 s2 s3 p * area2 a b s1 + area2 s3 s1 p * area2 a b s2
        + area2 s1 s2 p * area2 a b s3 := by
  simp only [area2]; ring

/-- A point strictly inside a triangle is strictly on one side of a line only if a
corner of the triangle is. -/
theorem exists_corner_neg {t : triangle} {p : point} (hin : strictly_inside t p)
    (a b : point) (h : area2 a b p < 0) : ∃ s ∈ vertices t, area2 a b s < 0 := by
  by_contra hno
  have hall : ∀ s ∈ vertices t, 0 ≤ area2 a b s := by
    intro s hs
    by_contra hlt
    exact hno ⟨s, hs, not_le.1 hlt⟩
  have ha := hall t.a (by simp [vertices])
  have hb := hall t.b (by simp [vertices])
  have hc := hall t.c (by simp [vertices])
  obtain ⟨h1, h2, h3⟩ := hin
  have e2 : area2 t.b t.c t.a = area2 t.a t.b t.c := by simp only [area2]; ring
  have e3 : area2 t.c t.a t.b = area2 t.a t.b t.c := by simp only [area2]; ring
  rw [e2] at h2
  rw [e3] at h3
  have hid := area2_barycentric t.a t.b t.c a b p
  have hD : 0 < area2 t.a t.b t.c * area2 t.a t.b t.c := by
    apply mul_self_pos.2
    intro h0; rw [h0, mul_zero] at h1; exact lt_irrefl _ h1
  have e : area2 t.a t.b t.c * area2 t.a t.b t.c * area2 a b p
      = (area2 t.b t.c p * area2 t.a t.b t.c) * area2 a b t.a
        + (area2 t.c t.a p * area2 t.a t.b t.c) * area2 a b t.b
        + (area2 t.a t.b p * area2 t.a t.b t.c) * area2 a b t.c := by
    linear_combination area2 t.a t.b t.c * hid
  have hneg : area2 t.a t.b t.c * area2 t.a t.b t.c * area2 a b p < 0 :=
    mul_neg_of_pos_of_neg hD h
  have hnn : 0 ≤ (area2 t.b t.c p * area2 t.a t.b t.c) * area2 a b t.a
        + (area2 t.c t.a p * area2 t.a t.b t.c) * area2 a b t.b
        + (area2 t.a t.b p * area2 t.a t.b t.c) * area2 a b t.c :=
    add_nonneg (add_nonneg (mul_nonneg h2.le ha) (mul_nonneg h3.le hb)) (mul_nonneg h1.le hc)
  linarith

theorem exists_corner_pos {t : triangle} {p : point} (hin : strictly_inside t p)
    (a b : point) (h : 0 < area2 a b p) : ∃ s ∈ vertices t, 0 < area2 a b s := by
  have h' : area2 b a p < 0 := by rw [area2_swap]; linarith
  obtain ⟨s, hs, hlt⟩ := exists_corner_neg hin b a h'
  refine ⟨s, hs, ?_⟩
  rw [area2_swap] at hlt; linarith

/-- The circumcircle test in the pencil of circles through two vertices `a, b` of the
triangle, `w` being the third vertex. -/
theorem is_in_circumcircle_pencil {t : triangle} {a b w : point} (q : point)
    (ht : (vertices t).Perm [a, b, w]) (hw : area2 a b w ≠ 0) (hq : area2 a b q ≠ 0) :
    is_in_circumcircle q t = true ↔ area2 a b q * (pencil a b q - pencil a b w) < 0 := by
  rw [is_in_circumcircle_perm q t ⟨a, b, w⟩ ht, is_in_circumcircle_iff_num]
  exact in_circle_num_pos_iff a b w q hw hq

theorem exists_min_pencil (V : List point) (f : point → ℚ) (P : point → Prop)
    [DecidablePred P] (h : ∃ x ∈ V, P x) :
    ∃ w ∈ V, P w ∧ ∀ y ∈ V, P y → f w ≤ f y := by
  obtain ⟨x, hx, hPx⟩ := h
  have hne : (V.filter (fun v => decide (P v))).toFinset.Nonempty :=
    ⟨x, by simp [hx, hPx]⟩
  obtain ⟨w, hw, hmin⟩ := Finset.exists_min_image _ f hne
  simp only [List.mem_toFinset, List.mem_filter, decide_eq_true_eq] at hw hmin
  exact ⟨w, hw.1, hw.2, fun y hy hPy => hmin y ⟨hy, hPy⟩⟩

theorem exists_max_pencil (V : List point) (f : point → ℚ) (P : point → Prop)
    [DecidablePred P] (h : ∃ x ∈ V, P x) :
    ∃ w ∈ V, P w ∧ ∀ y ∈ V, P y → f y ≤ f w := by
  obtain ⟨w, hw, hP, hmin⟩ := exists_min_pencil V (fun v => - f v) P h
  exact ⟨w, hw, hP, fun y hy hPy => by have := hmin y hy hPy; linarith⟩
theorem mul_neg_iff_of_pos_left {l x : ℚ} (h : 0 < l) : l * x < 0 ↔ x < 0 := by
  constructor
  · intro hx
    by_contra hn
    have := mul_nonneg h.le (not_lt.1 hn)
    linarith
  · intro hx; exact mul_neg_of_pos_of_neg h hx

theorem mul_neg_iff_of_neg_left {l x : ℚ} (h : l < 0) : l * x < 0 ↔ 0 < x := by
  constructor
  · intro hx
    by_contra hn
    have := mul_nonneg_of_nonpos_of_nonpos h.le (not_lt.1 hn)
    linarith
  · intro hx; exact mul_neg_of_neg_of_pos h hx

/-- Among the points of `V` on the negative side of the line `a b` there is one whose circle
through `a, b` is empty of `V`, when the circle through `a, b` and a point `w` of the positive
side is empty of `V`. -/
theorem neighbor_neg (V : List point) (a b w q0 : point)
    (hempty : ∀ q ∈ V, area2 a b q ≠ 0 →
      ¬ (area2 a b q * (pencil a b q - pencil a b w) < 0))
    (hq0 : q0 ∈ V) (hq0n : area2 a b q0 < 0) :
    ∃ w' ∈ V, area2 a b w' < 0 ∧ pencil a b w' ≤ pencil a b w
      ∧ pencil a b q0 ≤ pencil a b w'
      ∧ (∀ q ∈ V, area2 a b q ≠ 0 →
          ¬ (area2 a b q * (pencil a b q - pencil a b w') < 0)) := by
  obtain ⟨w', hw'V, hw'n, hmax⟩ :=
    exists_max_pencil V (pencil a b) (fun q => area2 a b q < 0) ⟨q0, hq0, hq0n⟩
  have hle : pencil a b w' ≤ pencil a b w := by
    have := hempty w' hw'V hw'n.ne
    rw [mul_neg_iff_of_neg_left hw'n] at this
    linarith
  refine ⟨w', hw'V, hw'n, hle, hmax q0 hq0 hq0n, ?_⟩
  intro q hq hq0'
  rcases lt_or_gt_of_ne hq0' with hneg | hpos
  · rw [mul_neg_iff_of_neg_left hneg]
    have := hmax q hq hneg
    linarith
  · rw [mul_neg_iff_of_pos_left hpos]
    have := hempty q hq hq0'
    rw [mul_neg_iff_of_pos_left hpos] at this
    linarith

/-- A circle through `a, b, w` that is empty in the pencil is an empty circumcircle. -/
theorem empty_of_pencil (V : List point) (a b w : point)
    (hoff : ∀ q ∈ V, q ≠ a → q ≠ b → area2 a b q ≠ 0)
    (hw : area2 a b w ≠ 0)
    (hempty : ∀ q ∈ V, area2 a b q ≠ 0 →
      ¬ (area2 a b q * (pencil a b q - pencil a b w) < 0)) :
    ∀ q ∈ V, is_in_circumcircle q ⟨a, b, w⟩ = false := by
  intro q hq
  by_cases hqa : q = a
  · subst hqa; exact is_in_circumcircle_vertex _ _ (by simp [vertices])
  by_cases hqb : q = b
  · subst hqb; exact is_in_circumcircle_vertex _ _ (by simp [vertices])
  have hl := hoff q hq hqa hqb
  rw [← Bool.not_eq_true,
    is_in_circumcircle_pencil (t := ⟨a, b, w⟩) q (List.Perm.refl _) hw hl]
  exact hempty q hq hl

namespace StepCtx

variable {V : List point} {L : List triangle} {p : point}

theorem off_line (ctx : StepCtx V L p) {a b q : point} (ha : a ∈ V) (hb : b ∈ V)
    (hq : q ∈ p :: V) (hab : a ≠ b) (hqa : q ≠ a) (hqb : q ≠ b) : area2 a b q ≠ 0 := by
  intro h0
  exact ctx.g3 a (List.mem_cons_of_mem _ ha) b (List.mem_cons_of_mem _ hb) q hq hab
    (Ne.symm hqa) (Ne.symm hqb) ((collinear_iff_area2 _ _ _).2 h0)

theorem pencil_ne (ctx : StepCtx V L p) {a b x y : point} (ha : a ∈ V) (hb : b ∈ V)
    (hx : x ∈ p :: V) (hy : y ∈ p :: V) (hab : a ≠ b) (hxa : x ≠ a) (hxb : x ≠ b)
    (hya : y ≠ a) (hyb : y ≠ b) (hxy : x ≠ y) : pencil a b x ≠ pencil a b y := by
  intro he
  have hlx := ctx.off_line ha hb hx hab hxa hxb
  have hly := ctx.off_line ha hb hy hab hya hyb
  have h0 := (in_circle_num_zero_iff a b y x hly hlx).2 he
  rw [in_circle_num] at h0
  rcases mul_eq_zero.1 h0 with h | h
  · exact hly h
  · exact ctx.g4 a (List.mem_cons_of_mem _ ha) b (List.mem_cons_of_mem _ hb) y hy x hx hab
      (Ne.symm hya) (Ne.symm hxa) (Ne.symm hyb) (Ne.symm hxb) (Ne.symm hxy) h

theorem fresh_ne (ctx : StepCtx V L p) {a : point} (ha : a ∈ V) : p ≠ a := by
  rintro rfl; exact ctx.fresh ha

/-- The circle of a listed triangle is empty in the pencil of any two of its vertices. -/
theorem pencil_empty (ctx : StepCtx V L p) {T : triangle} (hT : T ∈ L) {u v w : point}
    (hperm : (vertices T).Perm [u, v, w]) (hw : area2 u v w ≠ 0) :
    ∀ q ∈ V, area2 u v q ≠ 0 →
      ¬ (area2 u v q * (pencil u v q - pencil u v w) < 0) := by
  intro q hq hl
  rw [← is_in_circumcircle_pencil q hperm hw hl, ctx.inv.empty T hT q hq]
  simp

end StepCtx
namespace StepCtx

variable {V : List point} {L : List triangle} {p : point}

theorem perm3_third {u v w w' : point} (h : [u, v, w'].Perm [u, v, w]) : w' = w := by
  have := List.Perm.cons_inv (List.Perm.cons_inv h)
  simpa using this

/-- When `T` is the only bad triangle with the edge `u v`, no point of the other side of
the edge has an empty circle through `u, v` that contains `p`. -/
theorem no_bad_opposite (ctx : StepCtx V L p) {T : triangle} {u v w w' : point}
    (hperm : (vertices T).Perm [u, v, w]) (hpos : 0 < area2 u v w)
    (huV : u ∈ V) (hvV : v ∈ V) (huv : u ≠ v)
    (hlp : area2 u v p ≠ 0)
    (honly : ∀ T2 ∈ L, is_in_circumcircle p T2 = true → u ∈ vertices T2 → v ∈ vertices T2 →
      (vertices T2).Perm (vertices T))
    (hw'V : w' ∈ V) (hw'n : area2 u v w' < 0)
    (hemp : ∀ q ∈ V, area2 u v q ≠ 0 →
      ¬ (area2 u v q * (pencil u v q - pencil u v w') < 0)) :
    ¬ (area2 u v p * (pencil u v p - pencil u v w') < 0) := by
  intro hbad
  have hoff : ∀ q ∈ V, q ≠ u → q ≠ v → area2 u v q ≠ 0 := fun q hq hqu hqv =>
    ctx.off_line huV hvV (List.mem_cons_of_mem _ hq) huv hqu hqv
  have hdel := empty_of_pencil V u v w' hoff hw'n.ne hemp
  have hnd : [u, v, w'].Nodup := area2_ne_zero_nodup hw'n.ne
  obtain ⟨T', hT'L, hT'p⟩ := ctx.inv.complete u huV v hvV w' hw'V hnd hdel
  have hT'bad : is_in_circumcircle p T' = true :=
    (is_in_circumcircle_pencil p hT'p hw'n.ne hlp).2 hbad
  have h1 := honly T' hT'L hT'bad (hT'p.symm.subset (by simp)) (hT'p.symm.subset (by simp))
  have h2 : [u, v, w'].Perm [u, v, w] := hT'p.symm.trans (h1.trans hperm)
  have := perm3_third h2
  rw [this] at hw'n
  linarith

/-- The new triangle on an edge `u v` of a bad triangle that is the only bad triangle with
that edge has no point of `V` strictly inside its circumcircle (positive orientation). -/
theorem fan_empty_pos (ctx : StepCtx V L p) {T : triangle} (hT : T ∈ L)
    (hbad : is_in_circumcircle p T = true) {u v w : point}
    (hperm : (vertices T).Perm [u, v, w]) (hpos : 0 < area2 u v w)
    (honly : ∀ T2 ∈ L, is_in_circumcircle p T2 = true → u ∈ vertices T2 → v ∈ vertices T2 →
      (vertices T2).Perm (vertices T)) :
    ∀ q ∈ V, is_in_circumcircle q ⟨p, u, v⟩ = false := by
  have hTv := ctx.inv.verts T hT
  have huV : u ∈ V := hTv.2 u (hperm.symm.subset (by simp))
  have hvV : v ∈ V := hTv.2 v (hperm.symm.subset (by simp))
  have hnd : [u, v, w].Nodup := (hperm.nodup_iff).1 hTv.1
  have huv : u ≠ v := by
    intro h; rw [h] at hnd; simp at hnd
  have hlp : area2 u v p ≠ 0 :=
    ctx.off_line huV hvV (List.mem_cons_self _ _) huv (ctx.fresh_ne huV) (ctx.fresh_ne hvV)
  have hemp := ctx.pencil_empty hT hperm hpos.ne'
  have hbadp : area2 u v p * (pencil u v p - pencil u v w) < 0 :=
    (is_in_circumcircle_pencil p hperm hpos.ne' hlp).1 hbad
  have hpp : 0 < area2 u v p := by
    by_contra hn
    have hneg : area2 u v p < 0 := lt_of_le_of_ne (not_lt.1 hn) hlp
    obtain ⟨s, hs, hsn⟩ := exists_corner_neg ctx.inside u v hneg
    obtain ⟨w', hw'V, hw'n, hle, _, hemp'⟩ :=
      neighbor_neg V u v w s hemp (ctx.corners s hs) hsn
    apply ctx.no_bad_opposite hperm hpos huV hvV huv hlp honly hw'V hw'n hemp'
    rw [mul_neg_iff_of_neg_left hneg] at hbadp ⊢
    linarith
  rw [mul_neg_iff_of_pos_left hpp] at hbadp
  intro q hq
  by_cases hqu : q = u
  · subst hqu; exact is_in_circumcircle_vertex _ _ (by simp [vertices])
  by_cases hqv : q = v
  · subst hqv; exact is_in_circumcircle_vertex _ _ (by simp [vertices])
  have hlq : area2 u v q ≠ 0 :=
    ctx.off_line huV hvV (List.mem_cons_of_mem _ hq) huv hqu hqv
  have hpermN : (vertices (⟨p, u, v⟩ : triangle)).Perm [u, v, p] := by
    simp only [vertices]
    rw [List.perm_iff_count]; intro x; simp [List.count_cons]; omega
  rw [← Bool.not_eq_true, is_in_circumcircle_pencil q hpermN hlp hlq]
  rcases lt_or_gt_of_ne hlq with hneg | hposq
  · intro hin
    rw [mul_neg_iff_of_neg_left hneg] at hin
    obtain ⟨w', hw'V, hw'n, _, hge, hemp'⟩ := neighbor_neg V u v w q hemp hq hneg
    apply ctx.no_bad_opposite hperm hpos huV hvV huv hlp honly hw'V hw'n hemp'
    rw [mul_neg_iff_of_pos_left hpp]
    linarith
  · rw [mul_neg_iff_of_pos_left hposq]
    have := hemp q hq hlq
    rw [mul_neg_iff_of_pos_left hposq] at this
    linarith

end StepCtx
namespace StepCtx

variable {V : List point} {L : List triangle} {p : point}

theorem perm_swap12 {t : triangle} {u v w : point} (h : (vertices t).Perm [u, v, w]) :
    (vertices t).Perm [v, u, w] :=
  h.trans (List.Perm.swap _ _ _)

/-- The new triangle on an edge `u v` of a bad triangle that is the only bad triangle with
that edge has no point of `V` strictly inside its circumcircle. -/
theorem fan_empty (ctx : StepCtx V L p) {T : triangle} (hT : T ∈ L)
    (hbad : is_in_circumcircle p T = true) {u v w : point}
    (hperm : (vertices T).Perm [u, v, w])
    (honly : ∀ T2 ∈ L, is_in_circumcircle p T2 = true → u ∈ vertices T2 → v ∈ vertices T2 →
      (vertices T2).Perm (vertices T)) :
    ∀ q ∈ V, is_in_circumcircle q ⟨p, u, v⟩ = false := by
  have hTv := ctx.inv.verts T hT
  have huV : u ∈ V := hTv.2 u (hperm.symm.subset (by simp))
  have hvV : v ∈ V := hTv.2 v (hperm.symm.subset (by simp))
  have hwV : w ∈ V := hTv.2 w (hperm.symm.subset (by simp))
  have hnd : [u, v, w].Nodup := (hperm.nodup_iff).1 hTv.1
  simp only [List.nodup_cons, List.mem_cons, List.mem_singleton, List.not_mem_nil, or_false,
    not_or, List.nodup_nil, and_true, not_false_eq_true] at hnd
  have hlw : area2 u v w ≠ 0 :=
    ctx.off_line huV hvV (List.mem_cons_of_mem _ hwV) hnd.1.1 (Ne.symm hnd.1.2) (Ne.symm hnd.2)
  rcases lt_or_gt_of_ne hlw with hneg | hpos
  · have hpos' : 0 < area2 v u w := by rw [area2_swap]; linarith
    intro q hq
    have := ctx.fan_empty_pos hT hbad (perm_swap12 hperm) hpos'
      (fun T2 h2 hb hv hu => honly T2 h2 hb hu hv) q hq
    rw [← this]
    apply is_in_circumcircle_perm
    simp only [vertices]
    exact List.Perm.cons _ (List.Perm.swap _ _ _)
  · exact ctx.fan_empty_pos hT hbad hperm hpos honly

/-- A triple `p, u, v` with an empty circumcircle comes from a bad triangle with the edge
`u v`, and that triangle is the only bad one with this edge (positive orientation). -/
theorem bad_of_empty_pos (ctx : StepCtx V L p) {u v : point} (huV : u ∈ V) (hvV : v ∈ V)
    (huv : u ≠ v) (hpp : 0 < area2 u v p)
    (hdel : ∀ q ∈ V, is_in_circumcircle q ⟨p, u, v⟩ = false) :
    ∃ T ∈ L, is_in_circumcircle p T = true ∧ u ∈ vertices T ∧ v ∈ vertices T
      ∧ ∀ T2 ∈ L, is_in_circumcircle p T2 = true → u ∈ vertices T2 → v ∈ vertices T2 →
          (vertices T2).Perm (vertices T) := by
  have hoff : ∀ q ∈ V, q ≠ u → q ≠ v → area2 u v q ≠ 0 := fun q hq hqu hqv =>
    ctx.off_line huV hvV (List.mem_cons_of_mem _ hq) huv hqu hqv
  have hpermN : (vertices (⟨p, u, v⟩ : triangle)).Perm [u, v, p] := by
    simp only [vertices]
    rw [List.perm_iff_count]; intro x; simp [List.count_cons]; omega
  have hdelp : ∀ q ∈ V, area2 u v q ≠ 0 →
      ¬ (area2 u v q * (pencil u v q - pencil u v p) < 0) := by
    intro q hq hl
    rw [← is_in_circumcircle_pencil q hpermN hpp.ne' hl, hdel q hq]
    simp
  obtain ⟨s, hs, hsp⟩ := exists_corner_pos ctx.inside u v hpp
  obtain ⟨w, hwV, hwp, hmin⟩ :=
    exists_min_pencil V (pencil u v) (fun q => 0 < area2 u v q) ⟨s, ctx.corners s hs, hsp⟩
  have hwu : w ≠ u := by
    rintro rfl; simp [area2] at hwp
  have hwv : w ≠ v := by
    rintro rfl
    have : area2 u w w = 0 := by simp only [area2]; ring
    linarith
  have hle : pencil u v p ≤ pencil u v w := by
    have := hdelp w hwV hwp.ne'
    rw [mul_neg_iff_of_pos_left hwp] at this
    linarith
  have hne : pencil u v p ≠ pencil u v w :=
    ctx.pencil_ne huV hvV (List.mem_cons_self _ _) (List.mem_cons_of_mem _ hwV) huv
      (ctx.fresh_ne huV) (ctx.fresh_ne hvV) hwu hwv (ctx.fresh_ne hwV)
  have hlt : pencil u v p < pencil u v w := lt_of_le_of_ne hle hne
  have hempw : ∀ q ∈ V, area2 u v q ≠ 0 →
      ¬ (area2 u v q * (pencil u v q - pencil u v w) < 0) := by
    intro q hq hl
    rcases lt_or_gt_of_ne hl with hneg | hpos
    · rw [mul_neg_iff_of_neg_left hneg]
      have := hdelp q hq hl
      rw [mul_neg_iff_of_neg_left hneg] at this
      linarith
    · rw [mul_neg_iff_of_pos_left hpos]
      have := hmin q hq hpos
      linarith
  have hdelw := empty_of_pencil V u v w hoff hwp.ne' hempw
  obtain ⟨T, hTL, hTp⟩ :=
    ctx.inv.complete u huV v hvV w hwV (area2_ne_zero_nodup hwp.ne') hdelw
  refine ⟨T, hTL, ?_, hTp.symm.subset (by simp), hTp.symm.subset (by simp), ?_⟩
  · rw [is_in_circumcircle_pencil p hTp hwp.ne' hpp.ne', mul_neg_iff_of_pos_left hpp]
    linarith
  · intro T2 hT2 hbad2 hu2 hv2
    have hT2v := ctx.inv.verts T2 hT2
    obtain ⟨w2, hp2, hw2u, hw2v⟩ := third_vertex hT2v.1 hu2 hv2 huv
    have hw2V : w2 ∈ V := hT2v.2 w2 (hp2.symm.subset (by simp))
    have hl2 := hoff w2 hw2V hw2u hw2v
    by_cases heq : w2 = w
    · rw [heq] at hp2
      exact hp2.trans hTp.symm
    · exfalso
      rcases lt_or_gt_of_ne hl2 with hneg | hpos
      · have hb := (is_in_circumcircle_pencil p hp2 hl2 hpp.ne').1 hbad2
        rw [mul_neg_iff_of_pos_left hpp] at hb
        have := hdelp w2 hw2V hl2
        rw [mul_neg_iff_of_neg_left hneg] at this
        linarith
      · have h1 := ctx.pencil_empty hT2 hp2 hl2 w hwV hwp.ne'
        rw [mul_neg_iff_of_pos_left hwp] at h1
        have h2 := hmin w2 hw2V hpos
        have hne2 : pencil u v w2 ≠ pencil u v w :=
          ctx.pencil_ne huV hvV (List.mem_cons_of_mem _ hw2V) (List.mem_cons_of_mem _ hwV)
            huv hw2u hw2v hwu hwv heq
        apply hne2
        linarith

theorem bad_of_empty (ctx : StepCtx V L p) {u v : point} (huV : u ∈ V) (hvV : v ∈ V)
    (huv : u ≠ v)
    (hdel : ∀ q ∈ V, is_in_circumcircle q ⟨p, u, v⟩ = false) :
    ∃ T ∈ L, is_in_circumcircle p T = true ∧ u ∈ vertices T ∧ v ∈ vertices T
      ∧ ∀ T2 ∈ L, is_in_circumcircle p T2 = true → u ∈ vertices T2 → v ∈ vertices T2 →
          (vertices T2).Perm (vertices T) := by
  have hlp : area2 u v p ≠ 0 :=
    ctx.off_line huV hvV (List.mem_cons_self _ _) huv (ctx.fresh_ne huV) (ctx.fresh_ne hvV)
  rcases lt_or_gt_of_ne hlp with hneg | hpos
  · have hpos' : 0 < area2 v u p := by rw [area2_swap]; linarith
    have hdel' : ∀ q ∈ V, is_in_circumcircle q ⟨p, v, u⟩ = false := by
      intro q hq
      rw [← hdel q hq]
      apply is_in_circumcircle_perm
      simp only [vertices]
      exact List.Perm.cons _ (List.Perm.swap _ _ _)
    obtain ⟨T, hT, hb, hv, hu, hon⟩ := ctx.bad_of_empty_pos hvV huV (Ne.symm huv) hpos' hdel'
    exact ⟨T, hT, hb, hu, hv, fun T2 h2 hb2 hu2 hv2 => hon T2 h2 hb2 hv2 hu2⟩
  · exact ctx.bad_of_empty_pos huV hvV huv hpos hdel

end StepCtx
theorem triangle_edges_vertices {t : triangle} {e : point × point} (he : e ∈ triangle_edges t) :
    e.1 ∈ vertices t ∧ e.2 ∈ vertices t := by
  rw [mem_triangle_edges] at he
  rcases he with rfl | rfl | rfl <;> simp [vertices]

theorem triangle_edges_ne {t : triangle} (hn : (vertices t).Nodup) {e : point × point}
    (he : e ∈ triangle_edges t) : e.1 ≠ e.2 := by
  simp only [vertices, List.nodup_cons, List.mem_cons, List.mem_singleton, List.not_mem_nil,
    or_false, not_or, List.nodup_nil, and_true, not_false_eq_true] at hn
  rw [mem_triangle_edges] at he
  rcases he with rfl | rfl | rfl
  · exact hn.1.1
  · exact hn.2
  · exact fun h => hn.1.2 h.symm

theorem edge_of_vertices {t : triangle} {u v : point} (hu : u ∈ vertices t)
    (hv : v ∈ vertices t) (huv : u ≠ v) :
    (u, v) ∈ triangle_edges t ∨ (v, u) ∈ triangle_edges t := by
  simp only [vertices, List.mem_cons, List.mem_singleton, List.not_mem_nil, or_false] at hu hv
  simp only [mem_triangle_edges, Prod.mk.injEq]
  rcases hu with rfl | rfl | rfl <;> rcases hv with rfl | rfl | rfl <;>
    first
    | exact absurd rfl huv
    | (left; left; exact ⟨rfl, rfl⟩)
    | (left; right; left; exact ⟨rfl, rfl⟩)
    | (left; right; right; exact ⟨rfl, rfl⟩)
    | (right; left; exact ⟨rfl, rfl⟩)
    | (right; right; left; exact ⟨rfl, rfl⟩)
    | (right; right; right; exact ⟨rfl, rfl⟩)

theorem mem_bad_triangles {p : point} {l : List triangle} {t : triangle} :
    t ∈ bad_triangles p l ↔ t ∈ l ∧ is_in_circumcircle p t = true := by
  simp [bad_triangles]

theorem are_triangles_equal_self (t : triangle) : are_triangles_equal t t = true :=
  (are_triangles_equal_iff_subset t t).2 (fun _ hv => hv)

namespace StepCtx

variable {V : List point} {L : List triangle} {p : point}

/-- What membership in `polygon_edges` gives in a step. -/
theorem polygon_edge (ctx : StepCtx V L p) {e : point × point}
    (he : e ∈ polygon_edges (bad_triangles p L)) :
    ∃ T ∈ L, is_in_circumcircle p T = true ∧ e ∈ triangle_edges T
      ∧ e.1 ∈ V ∧ e.2 ∈ V ∧ e.1 ≠ e.2
      ∧ (∃ w, (vertices T).Perm [e.1, e.2, w])
      ∧ ∀ T2 ∈ L, is_in_circumcircle p T2 = true → e.1 ∈ vertices T2 → e.2 ∈ vertices T2 →
          T2 = T := by
  obtain ⟨T, hTb, heT, hcount⟩ := (mem_polygon_edges _ _).1 he
  obtain ⟨hTL, hTbad⟩ := mem_bad_triangles.1 hTb
  have hTv := ctx.inv.verts T hTL
  obtain ⟨h1, h2⟩ := triangle_edges_vertices heT
  have hne := triangle_edges_ne hTv.1 heT
  obtain ⟨w, hw, _, _⟩ := third_vertex hTv.1 h1 h2 hne
  refine ⟨T, hTL, hTbad, heT, hTv.2 _ h1, hTv.2 _ h2, hne, ⟨w, hw⟩, ?_⟩
  intro T2 hT2 hbad2 hu2 hv2
  by_contra hneq
  have := two_le_countP
    (fun t2 => is_triangle_vertex e.1 t2 && is_triangle_vertex e.2 t2)
    (bad_triangles p L) T T2 hTb (mem_bad_triangles.2 ⟨hT2, hbad2⟩) (Ne.symm hneq)
    (by simp [is_triangle_vertex_iff, h1, h2]) (by simp [is_triangle_vertex_iff, hu2, hv2])
  unfold edge_count at hcount
  omega

theorem not_equal_fan (ctx : StepCtx V L p) {U : triangle} (hU : U ∈ L) (u v : point) :
    are_triangles_equal U ⟨p, u, v⟩ = false := by
  rw [← Bool.not_eq_true, are_triangles_equal_iff_subset]
  intro h
  obtain ⟨hn, hV⟩ := ctx.inv.verts U hU
  have hmem : ∀ x ∈ vertices U, x = u ∨ x = v := by
    intro x hx
    have := h x hx
    simp only [vertices, List.mem_cons, List.mem_singleton, List.not_mem_nil, or_false] at this
    rcases this with rfl | h | h
    · exact absurd (hV _ hx) ctx.fresh
    · exact Or.inl h
    · exact Or.inr h
  have ha := hmem U.a (by simp [vertices])
  have hb := hmem U.b (by simp [vertices])
  have hc := hmem U.c (by simp [vertices])
  simp only [vertices, List.nodup_cons, List.mem_cons, List.mem_singleton, List.not_mem_nil,
    or_false, not_or, List.nodup_nil, and_true, not_false_eq_true] at hn
  obtain ⟨⟨hab, hac⟩, hbc⟩ := hn
  rcases ha with ha | ha <;> rcases hb with hb | hb <;> rcases hc with hc | hc <;>
    first
    | exact hab (ha.trans hb.symm)
    | exact hac (ha.trans hc.symm)
    | exact hbc (hb.trans hc.symm)

/-- Two new triangles on polygon edges with the same vertices are on the same edge. -/
theorem fan_equal_edge (ctx : StepCtx V L p) {e1 e2 : point × point}
    (h1V : e1.1 ∈ V) (h2V : e1.2 ∈ V)
    (h : are_triangles_equal ⟨p, e1.1, e1.2⟩ ⟨p, e2.1, e2.2⟩ = true)
    {T2 : triangle} (heT2 : e2 ∈ triangle_edges T2) :
    e1.1 ∈ vertices T2 ∧ e1.2 ∈ vertices T2 := by
  rw [are_triangles_equal_iff_subset] at h
  obtain ⟨hv1, hv2⟩ := triangle_edges_vertices heT2
  have hmem : ∀ x ∈ V, x ∈ vertices (⟨p, e2.1, e2.2⟩ : triangle) → x ∈ vertices T2 := by
    intro x hxV hx
    simp only [vertices, List.mem_cons, List.mem_singleton, List.not_mem_nil, or_false] at hx
    rcases hx with rfl | rfl | rfl
    · exact absurd hxV ctx.fresh
    · exact hv1
    · exact hv2
  exact ⟨hmem _ h1V (h _ (by simp [vertices])), hmem _ h2V (h _ (by simp [vertices]))⟩

theorem fan_pairwise (ctx : StepCtx V L p) :
    ((polygon_edges (bad_triangles p L)).map
      (fun edge => (⟨p, edge.1, edge.2⟩ : triangle))).Pairwise
      (fun T U => are_triangles_equal T U = false) := by
  rw [List.pairwise_map]
  unfold polygon_edges
  rw [List.pairwise_flatMap]
  constructor
  · intro T hTb
    obtain ⟨hTL, _⟩ := mem_bad_triangles.1 hTb
    have hn := (ctx.inv.verts T hTL).1
    have hV := (ctx.inv.verts T hTL).2
    apply List.Pairwise.filter
    have hpa : p ≠ T.a := ctx.fresh_ne (hV _ (by simp [vertices]))
    have hpb : p ≠ T.b := ctx.fresh_ne (hV _ (by simp [vertices]))
    have hpc : p ≠ T.c := ctx.fresh_ne (hV _ (by simp [vertices]))
    simp only [vertices, List.nodup_cons, List.mem_cons, List.mem_singleton, List.not_mem_nil,
      or_false, not_or, List.nodup_nil, and_true, not_false_eq_true] at hn
    obtain ⟨⟨hab, hac⟩, hbc⟩ := hn
    simp only [triangle_edges, List.pairwise_cons, List.mem_cons, List.mem_singleton,
      List.not_mem_nil, or_false, forall_eq_or_imp, forall_eq, IsEmpty.forall_iff,
      implies_true, List.Pairwise.nil, and_true]
    have e : ∀ x y z w : point, x ≠ p → x ≠ z → x ≠ w →
        are_triangles_equal ⟨p, x, y⟩ ⟨p, z, w⟩ = false := by
      intro x y z w h1 h2 h3
      rw [← Bool.not_eq_true, are_triangles_equal_iff_subset]
      intro h
      have := h x (by simp [vertices])
      simp only [vertices, List.mem_cons, List.mem_singleton, List.not_mem_nil, or_false] at this
      rcases this with h | h | h
      · exact h1 h
      · exact h2 h
      · exact h3 h
    have e' : ∀ x y z w : point, y ≠ p → y ≠ z → y ≠ w →
        are_triangles_equal ⟨p, x, y⟩ ⟨p, z, w⟩ = false := by
      intro x y z w h1 h2 h3
      rw [← Bool.not_eq_true, are_triangles_equal_iff_subset]
      intro h
      have := h y (by simp [vertices])
      simp only [vertices, List.mem_cons, List.mem_singleton, List.not_mem_nil, or_false] at this
      rcases this with h | h | h
      · exact h1 h
      · exact h2 h
      · exact h3 h
    refine ⟨⟨e _ _ _ _ (Ne.symm hpa) hab hac, e' _ _ _ _ (Ne.symm hpb) hbc (Ne.symm hab)⟩,
      e _ _ _ _ (Ne.symm hpb) hbc (Ne.symm hab)⟩
  · have hpw : (bad_triangles p L).Pairwise (fun T U => are_triangles_equal T U = false) :=
      List.Pairwise.filter _ ctx.inv.distinct
    refine List.Pairwise.imp_of_mem ?_ hpw
    intro T1 T2 hT1 hT2 hne e1 he1 e2 he2
    rw [List.mem_filter] at he1 he2
    obtain ⟨hT1L, hbad1⟩ := mem_bad_triangles.1 hT1
    obtain ⟨hT2L, hbad2⟩ := mem_bad_triangles.1 hT2
    by_contra heq
    have heq' : are_triangles_equal ⟨p, e1.1, e1.2⟩ ⟨p, e2.1, e2.2⟩ = true := by
      simpa using heq
    obtain ⟨h11, h12⟩ := triangle_edges_vertices he1.1
    have hV1 := (ctx.inv.verts T1 hT1L).2
    obtain ⟨h21, h22⟩ := ctx.fan_equal_edge (hV1 _ h11) (hV1 _ h12) heq' he2.1
    have hT12 : T1 ≠ T2 := by
      rintro rfl
      rw [are_triangles_equal_self] at hne
      exact Bool.noConfusion hne
    have := two_le_countP
      (fun t2 => is_triangle_vertex e1.1 t2 && is_triangle_vertex e1.2 t2)
      (bad_triangles p L) T1 T2 hT1 hT2 hT12
      (by simp [is_triangle_vertex_iff, h11, h12]) (by simp [is_triangle_vertex_iff, h21, h22])
    have hc := he1.2
    simp only [decide_eq_true_eq] at hc
    unfold edge_count at hc
    omega

end StepCtx
theorem perm_of_mem3 {p a b c : point} (h : p ∈ [a, b, c]) :
    ∃ u v, [a, b, c].Perm [p, u, v] := by
  simp only [List.mem_cons, List.mem_singleton, List.not_mem_nil, or_false] at h
  rcases h with rfl | rfl | rfl
  · exact ⟨b, c, List.Perm.refl _⟩
  · exact ⟨a, c, List.Perm.swap _ _ _⟩
  · refine ⟨a, b, ?_⟩
    rw [List.perm_iff_count]; intro x; simp [List.count_cons]; omega

namespace StepCtx

variable {V : List point} {L : List triangle} {p : point}

/-- One insertion step keeps the invariant. -/
theorem step (ctx : StepCtx V L p) : Inv (p :: V) (insert_point L p) := by
  rw [insert_point_eq]
  constructor
  · -- vertices
    intro T hT
    rcases List.mem_append.1 hT with hT | hT
    · have hTL := (List.mem_filter.1 hT).1
      obtain ⟨hn, hV⟩ := ctx.inv.verts T hTL
      exact ⟨hn, fun v hv => List.mem_cons_of_mem _ (hV v hv)⟩
    · obtain ⟨e, he, rfl⟩ := List.mem_map.1 hT
      obtain ⟨T0, _, _, _, h1V, h2V, hne, _, _⟩ := ctx.polygon_edge he
      constructor
      · simp only [vertices, List.nodup_cons, List.mem_cons, List.mem_singleton,
          List.not_mem_nil, or_false, not_or, List.nodup_nil, and_true, not_false_eq_true]
        exact ⟨⟨ctx.fresh_ne h1V, ctx.fresh_ne h2V⟩, hne⟩
      · intro v hv
        simp only [vertices, List.mem_cons, List.mem_singleton, List.not_mem_nil,
          or_false] at hv
        rcases hv with rfl | rfl | rfl
        · exact List.mem_cons_self _ _
        · exact List.mem_cons_of_mem _ h1V
        · exact List.mem_cons_of_mem _ h2V
  · -- pairwise distinct
    rw [List.pairwise_append]
    refine ⟨List.Pairwise.filter _ ctx.inv.distinct, ctx.fan_pairwise, ?_⟩
    intro U hU N hN
    obtain ⟨e, _, rfl⟩ := List.mem_map.1 hN
    exact ctx.not_equal_fan (List.mem_filter.1 hU).1 _ _
  · -- empty circumcircles
    intro T hT q hq
    rcases List.mem_append.1 hT with hT | hT
    · obtain ⟨hTL, hnb⟩ := List.mem_filter.1 hT
      rcases List.mem_cons.1 hq with rfl | hqV
      · simpa using hnb
      · exact ctx.inv.empty T hTL q hqV
    · obtain ⟨e, he, rfl⟩ := List.mem_map.1 hT
      rcases List.mem_cons.1 hq with rfl | hqV
      · exact is_in_circumcircle_vertex _ _ (by simp [vertices])
      · obtain ⟨T0, hT0, hbad, _, _, _, _, ⟨w, hw⟩, honly⟩ := ctx.polygon_edge he
        exact ctx.fan_empty hT0 hbad hw
          (fun T2 h2 hb hu hv => by rw [honly T2 h2 hb hu hv]) q hqV
  · -- completeness
    intro a ha b hb c hc hnd hdel
    by_cases hp : p ∈ [a, b, c]
    · obtain ⟨u, v, hperm⟩ := perm_of_mem3 hp
      have hnd' : [p, u, v].Nodup := (hperm.nodup_iff).1 hnd
      simp only [List.nodup_cons, List.mem_cons, List.mem_singleton, List.not_mem_nil,
        or_false, not_or, List.nodup_nil, and_true, not_false_eq_true] at hnd'
      obtain ⟨⟨hpu, hpv⟩, huv⟩ := hnd'
      have hmemV : ∀ x ∈ [a, b, c], x ≠ p → x ∈ V := by
        intro x hx hxp
        simp only [List.mem_cons, List.mem_singleton, List.not_mem_nil, or_false] at hx
        have : x ∈ p :: V := by
          rcases hx with rfl | rfl | rfl
          · exact ha
          · exact hb
          · exact hc
        rcases List.mem_cons.1 this with h | h
        · exact absurd h hxp
        · exact h
      have huV : u ∈ V := hmemV u (hperm.symm.subset (by simp)) (Ne.symm hpu)
      have hvV : v ∈ V := hmemV v (hperm.symm.subset (by simp)) (Ne.symm hpv)
      have hdel' : ∀ q ∈ V, is_in_circumcircle q ⟨p, u, v⟩ = false := by
        intro q hq
        rw [← hdel q (List.mem_cons_of_mem _ hq)]
        exact is_in_circumcircle_perm q ⟨p, u, v⟩ ⟨a, b, c⟩ hperm.symm
      obtain ⟨T, hTL, hbad, huT, hvT, honly⟩ := ctx.bad_of_empty huV hvV huv hdel'
      have hTb : T ∈ bad_triangles p L := mem_bad_triangles.2 ⟨hTL, hbad⟩
      have hcount : edge_count (bad_triangles p L) (u, v) ≤ 1 := by
        unfold edge_count
        apply countP_le_one_of_pairwise
        have hpw : (bad_triangles p L).Pairwise (fun T U => are_triangles_equal T U = false) :=
          List.Pairwise.filter _ ctx.inv.distinct
        refine List.Pairwise.imp_of_mem ?_ hpw
        intro x y hx hy hxy hboth
        obtain ⟨hxL, hxb⟩ := mem_bad_triangles.1 hx
        obtain ⟨hyL, hyb⟩ := mem_bad_triangles.1 hy
        simp only [Bool.and_eq_true, is_triangle_vertex_iff] at hboth
        have h1 := honly x hxL hxb hboth.1.1 hboth.1.2
        have h2 := honly y hyL hyb hboth.2.1 hboth.2.2
        have : are_triangles_equal x y = true :=
          (are_triangles_equal_iff_subset x y).2
            (fun z hz => (h1.trans h2.symm).subset hz)
        rw [this] at hxy
        exact Bool.noConfusion hxy
      rcases edge_of_vertices huT hvT huv with he | he
      · refine ⟨⟨p, u, v⟩, List.mem_append_right _ (List.mem_map.2 ⟨(u, v), ?_, rfl⟩), ?_⟩
        · exact (mem_polygon_edges _ _).2 ⟨T, hTb, he, hcount⟩
        · exact hperm.symm
      · refine ⟨⟨p, v, u⟩, List.mem_append_right _ (List.mem_map.2 ⟨(v, u), ?_, rfl⟩), ?_⟩
        · refine (mem_polygon_edges _ _).2 ⟨T, hTb, he, ?_⟩
          rw [edge_count_symm]; exact hcount
        · simp only [vertices]
          exact (List.Perm.cons _ (List.Perm.swap _ _ _)).trans hperm.symm
    · have hmemV : ∀ x ∈ [a, b, c], x ∈ p :: V → x ∈ V := by
        intro x hx hxV
        rcases List.mem_cons.1 hxV with h | h
        · rw [h] at hx; exact absurd hx hp
        · exact h
      have haV := hmemV a (by simp) ha
      have hbV := hmemV b (by simp) hb
      have hcV := hmemV c (by simp) hc
      obtain ⟨T, hTL, hTp⟩ := ctx.inv.complete a haV b hbV c hcV hnd
        (fun q hq => hdel q (List.mem_cons_of_mem _ hq))
      refine ⟨T, List.mem_append_left _ (List.mem_filter.2 ⟨hTL, ?_⟩), hTp⟩
      have := hdel p (List.mem_cons_self _ _)
      rw [← is_in_circumcircle_perm p T ⟨a, b, c⟩ hTp] at this
      simp [this]

end StepCtx
/-! ## The invariant along `triangulate` -/

theorem Inv.congr {V V' : List point} {L : List triangle} (h : ∀ x, x ∈ V ↔ x ∈ V')
    (inv : Inv V L) : Inv V' L where
  verts := fun T hT => ⟨(inv.verts T hT).1, fun v hv => (h v).1 ((inv.verts T hT).2 v hv)⟩
  distinct := inv.distinct
  empty := fun T hT q hq => inv.empty T hT q ((h q).2 hq)
  complete := fun a ha b hb c hc hnd hdel =>
    inv.complete a ((h a).2 ha) b ((h b).2 hb) c ((h c).2 hc) hnd
      (fun q hq => hdel q ((h q).1 hq))

theorem no_three_collinear_subset {V W : List point} (h : ∀ x ∈ V, x ∈ W)
    (hW : no_three_collinear W) : no_three_collinear V :=
  fun a ha b hb c hc => hW a (h a ha) b (h b hb) c (h c hc)

theorem no_four_cocircular_subset {V W : List point} (h : ∀ x ∈ V, x ∈ W)
    (hW : no_four_cocircular W) : no_four_cocircular V :=
  fun a ha b hb c hc d hd => hW a (h a ha) b (h b hb) c (h c hc) d (h d hd)

theorem inv_super : Inv (vertices super0) [super0] where
  verts := by
    intro T hT
    rw [List.mem_singleton] at hT
    subst hT
    exact ⟨by decide!, fun v hv => hv⟩
  distinct := List.pairwise_singleton _ _
  empty := by
    intro T hT q hq
    rw [List.mem_singleton] at hT
    subst hT
    exact is_in_circumcircle_vertex _ _ hq
  complete := by
    intro a ha b hb c hc hnd _
    refine ⟨super0, List.mem_singleton_self _, ?_⟩
    have hsub : [a, b, c] ⊆ vertices super0 := by
      intro x hx
      simp only [List.mem_cons, List.mem_singleton, List.not_mem_nil, or_false] at hx
      rcases hx with rfl | rfl | rfl
      · exact ha
      · exact hb
      · exact hc
    exact ((List.subperm_of_subset hnd hsub).perm_of_length_le (by simp [vertices])).symm

/-- A point that was already inserted, or a corner of the super-triangle, changes nothing:
no triangle is bad. -/
theorem Inv.insert_known {V : List point} {L : List triangle} (inv : Inv V L) {p : point}
    (hp : p ∈ V) : insert_point L p = L := by
  have hbad : bad_triangles p L = [] := by
    unfold bad_triangles
    rw [List.filter_eq_nil_iff]
    intro T hT
    rw [inv.empty T hT p hp]
    exact Bool.false_ne_true
  rw [insert_point_eq, hbad]
  simp only [polygon_edges, List.flatMap_nil, List.map_nil, List.append_nil]
  rw [List.filter_eq_self]
  intro T hT
  rw [inv.empty T hT p hp]
  rfl

/-- The invariant holds after inserting, one after the other, points in general position. -/
theorem inv_foldl : ∀ (pts : List point) (V : List point) (L : List triangle),
    Inv V L → (∀ s ∈ vertices super0, s ∈ V) →
    no_three_collinear (V ++ pts) → no_four_cocircular (V ++ pts) →
    (∀ p ∈ pts, strictly_inside super0 p) →
    ∃ V', (∀ x, x ∈ V' ↔ x ∈ V ++ pts) ∧ Inv V' (pts.foldl insert_point L) := by
  intro pts
  induction pts with
  | nil =>
    intro V L inv _ _ _ _
    exact ⟨V, fun x => by simp, inv⟩
  | cons p rest ih =>
    intro V L inv hS h3 h4 hin
    by_cases hpV : p ∈ V
    · have hsub : ∀ x ∈ V ++ rest, x ∈ V ++ p :: rest := by
        intro x hx
        rcases List.mem_append.1 hx with h | h
        · exact List.mem_append_left _ h
        · exact List.mem_append_right _ (List.mem_cons_of_mem _ h)
      obtain ⟨V', hV', inv'⟩ := ih V L inv hS (no_three_collinear_subset hsub h3)
        (no_four_cocircular_subset hsub h4) (fun q hq => hin q (List.mem_cons_of_mem _ hq))
      refine ⟨V', fun x => (hV' x).trans ⟨hsub x, fun hx => ?_⟩, ?_⟩
      · rcases List.mem_append.1 hx with h | h
        · exact List.mem_append_left _ h
        · rcases List.mem_cons.1 h with rfl | h
          · exact List.mem_append_left _ hpV
          · exact List.mem_append_right _ h
      · rw [List.foldl_cons, inv.insert_known hpV]
        exact inv'
    · have hsub : ∀ x ∈ p :: V, x ∈ V ++ p :: rest := by
        intro x hx
        rcases List.mem_cons.1 hx with rfl | h
        · simp
        · exact List.mem_append_left _ h
      have ctx : StepCtx V L p :=
        { inv := inv
          fresh := hpV
          corners := hS
          inside := hin p (List.mem_cons_self _ _)
          g3 := no_three_collinear_subset hsub h3
          g4 := no_four_cocircular_subset hsub h4 }
      have hperm : ((p :: V) ++ rest).Perm (V ++ p :: rest) := by
        simpa using (@List.perm_middle _ p V rest).symm
      have hmem : ∀ x, x ∈ (p :: V) ++ rest ↔ x ∈ V ++ p :: rest := fun x => hperm.mem_iff
      obtain ⟨V', hV', inv'⟩ := ih (p :: V) (insert_point L p) ctx.step
        (fun s hs => List.mem_cons_of_mem _ (hS s hs))
        (no_three_collinear_subset (fun x hx => (hmem x).1 hx) h3)
        (no_four_cocircular_subset (fun x hx => (hmem x).1 hx) h4)
        (fun q hq => hin q (List.mem_cons_of_mem _ hq))
      exact ⟨V', fun x => (hV' x).trans (hmem x), inv'⟩

theorem triangulate_eq_foldl (pts : List point) :
    triangulate (new pts) = pts.foldl insert_point [super0] := by
  simp only [triangulate, triangulate_state, create_super_triangle, new, List.nil_append,
    super0]
  norm_num

/-- For inputs in general position the returned list satisfies the invariant with respect
to the super-triangle corners and the input points. -/
theorem inv_triangulate (pts : List point) (h : general_position pts) :
    Inv (vertices super0 ++ pts) (triangulate (new pts)) := by
  rw [triangulate_eq_foldl]
  obtain ⟨h3, h4, hin⟩ := h
  obtain ⟨V', hV', inv'⟩ := inv_foldl pts (vertices super0) [super0] inv_super
    (fun s hs => hs) h3 h4 hin
  exact inv'.congr hV'
/-! ## Every point in general position is a vertex of a triangle with empty circumcircle -/

theorem dot_at_nonneg_of_nearest {p a x : point}
    (h : square_distance p a ≤ square_distance p x) : 0 ≤ dot_at x p a := by
  have e : 2 * dot_at x p a
      = square_distance p x + square_distance a x - square_distance p a := by
    simp only [dot_at, square_distance]; ring
  have h2 : 0 ≤ square_distance a x := by
    simp only [square_distance]
    exact add_nonneg (mul_self_nonneg _) (mul_self_nonneg _)
  linarith

theorem dot_at_symm (x u v : point) : dot_at x v u = dot_at x u v := by
  simp only [dot_at]; ring

/-- On the positive side of an edge `u v` whose diametral circle is empty there is a point
`w` such that the circle through `u, v, w` is empty. -/
theorem empty_triple_pos (V : List point) (u v : point)
    (hoff : ∀ q ∈ V, q ≠ u → q ≠ v → area2 u v q ≠ 0)
    (hdot : ∀ q ∈ V, 0 ≤ dot_at q u v)
    (hx : ∃ x ∈ V, 0 < area2 u v x) :
    ∃ w ∈ V, 0 < area2 u v w ∧ ∀ q ∈ V, is_in_circumcircle q ⟨u, v, w⟩ = false := by
  obtain ⟨w, hwV, hwp, hmin⟩ := exists_min_pencil V (pencil u v) (fun q => 0 < area2 u v q) hx
  refine ⟨w, hwV, hwp, empty_of_pencil V u v w hoff hwp.ne' ?_⟩
  intro q hq hl
  rcases lt_or_gt_of_ne hl with hneg | hpos
  · rw [mul_neg_iff_of_neg_left hneg]
    have h1 : pencil u v q ≤ 0 := div_nonpos_of_nonneg_of_nonpos (hdot q hq) hneg.le
    have h2 : 0 ≤ pencil u v w := div_nonneg (hdot w hwV) hwp.le
    linarith
  · rw [mul_neg_iff_of_pos_left hpos]
    have := hmin q hq hpos
    linarith

/-- In a point set without three collinear points that has at least two further points,
every point is a vertex of a triple with an empty circumcircle. -/
theorem exists_empty_triple (V : List point) (h3 : no_three_collinear V) (p : point)
    (hp : p ∈ V) (s1 s2 : point) (hs1 : s1 ∈ V) (hs2 : s2 ∈ V) (h1p : s1 ≠ p) (h2p : s2 ≠ p)
    (h12 : s1 ≠ s2) :
    ∃ a ∈ V, ∃ b ∈ V, [p, a, b].Nodup ∧ ∀ q ∈ V, is_in_circumcircle q ⟨p, a, b⟩ = false := by
  obtain ⟨a, haV, hap, hmin⟩ :=
    exists_min_pencil V (square_distance p) (fun q => q ≠ p) ⟨s1, hs1, h1p⟩
  have hoff : ∀ q ∈ V, q ≠ p → q ≠ a → area2 p a q ≠ 0 := fun q hq hqp hqa h0 =>
    h3 p hp a haV q hq (Ne.symm hap) (Ne.symm hqp) (Ne.symm hqa)
      ((collinear_iff_area2 _ _ _).2 h0)
  have hdot : ∀ q ∈ V, 0 ≤ dot_at q p a := by
    intro q hq
    by_cases hqp : q = p
    · subst hqp; simp [dot_at]
    · exact dot_at_nonneg_of_nearest (hmin q hq hqp)
  obtain ⟨x, hxV, hxp, hxa⟩ : ∃ x ∈ V, x ≠ p ∧ x ≠ a := by
    by_cases h : s1 = a
    · exact ⟨s2, hs2, h2p, fun h' => h12 (h.trans h'.symm)⟩
    · exact ⟨s1, hs1, h1p, h⟩
  rcases lt_or_gt_of_ne (hoff x hxV hxp hxa) with hneg | hpos
  · have hoff' : ∀ q ∈ V, q ≠ a → q ≠ p → area2 a p q ≠ 0 := fun q hq hqa hqp => by
      rw [area2_swap]; exact neg_ne_zero.2 (hoff q hq hqp hqa)
    have hdot' : ∀ q ∈ V, 0 ≤ dot_at q a p := fun q hq => by
      rw [dot_at_symm]; exact hdot q hq
    obtain ⟨w, hwV, hwp, hemp⟩ := empty_triple_pos V a p hoff' hdot'
      ⟨x, hxV, by rw [area2_swap]; linarith⟩
    have hnd : [a, p, w].Nodup := area2_ne_zero_nodup hwp.ne'
    refine ⟨a, haV, w, hwV, ?_, ?_⟩
    · exact ((List.Perm.swap a p [w]).nodup_iff).2 hnd
    · intro q hq
      rw [← hemp q hq]
      apply is_in_circumcircle_perm
      simp only [vertices]
      exact List.Perm.swap _ _ _
  · obtain ⟨w, hwV, hwp, hemp⟩ := empty_triple_pos V p a hoff hdot ⟨x, hxV, hpos⟩
    exact ⟨a, haV, w, hwV, area2_ne_zero_nodup hwp.ne', hemp⟩

/-! ## Consequences of the invariant -/

theorem general_position_perm {pts pts' : List point} (hperm : pts'.Perm pts)
    (h : general_position pts) : general_position pts' := by
  obtain ⟨h3, h4, hin⟩ := h
  have hp : (vertices super0 ++ pts').Perm (vertices super0 ++ pts) :=
    List.Perm.append_left _ hperm
  exact ⟨no_three_collinear_subset (fun x hx => hp.subset hx) h3,
    no_four_cocircular_subset (fun x hx => hp.subset hx) h4,
    fun p hpm => hin p (hperm.subset hpm)⟩

theorem strictly_inside_not_vertex {t : triangle} {p : point} (h : strictly_inside t p) :
    p ∉ vertices t := by
  intro hp
  obtain ⟨h1, h2, h3⟩ := h
  simp only [vertices, List.mem_cons, List.mem_singleton, List.not_mem_nil, or_false] at hp
  rcases hp with rfl | rfl | rfl
  · have : area2 t.c t.a t.a = 0 := by simp only [area2]; ring
    rw [this, zero_mul] at h3; exact lt_irrefl _ h3
  · have : area2 t.a t.b t.b = 0 := by simp only [area2]; ring
    rw [this, zero_mul] at h1; exact lt_irrefl _ h1
  · have : area2 t.b t.c t.c = 0 := by simp only [area2]; ring
    rw [this, zero_mul] at h2; exact lt_irrefl _ h2

theorem not_strictly_inside_of_test {q : point} {t : triangle}
    (hnc : ¬ collinear t.a t.b t.c) (h : is_in_circumcircle q t = false) :
    ¬ strictly_inside_circumcircle q t := by
  rintro ⟨o, h1, h2, hlt⟩
  have ho := equidistant_unique t.a t.b t.c o hnc h1 h2
  rw [ho] at hlt
  rw [← Bool.not_eq_true, is_in_circumcircle_iff q t hnc] at h
  exact h hlt

theorem Inv.not_collinear {V : List point} {L : List triangle} (inv : Inv V L)
    (h3 : no_three_collinear V) {T : triangle} (hT : T ∈ L) : ¬ collinear T.a T.b T.c := by
  obtain ⟨hn, hV⟩ := inv.verts T hT
  simp only [vertices, List.nodup_cons, List.mem_cons, List.mem_singleton, List.not_mem_nil,
    or_false, not_or, List.nodup_nil, and_true, not_false_eq_true] at hn
  exact h3 T.a (hV _ (by simp [vertices])) T.b (hV _ (by simp [vertices])) T.c
    (hV _ (by simp [vertices])) hn.1.1 hn.1.2 hn.2

theorem same_triangle_set_of_inv {V : List point} {L1 L2 : List triangle}
    (inv1 : Inv V L1) (inv2 : Inv V L2) :
    L1.all (fun t => L2.any (fun u => are_triangles_equal t u)) = true := by
  rw [List.all_eq_true]
  intro T hT
  rw [List.any_eq_true]
  obtain ⟨hn, hV⟩ := inv1.verts T hT
  obtain ⟨U, hU, hperm⟩ := inv2.complete T.a (hV _ (by simp [vertices]))
    T.b (hV _ (by simp [vertices])) T.c (hV _ (by simp [vertices])) hn
    (fun q hq => inv1.empty T hT q hq)
  exact ⟨U, hU, (are_triangles_equal_iff_subset T U).2 (fun v hv => hperm.symm.subset hv)⟩
/-! ## Affine geometry of triangles -/

theorem area2_lerp (a b A B : point) (s : ℚ) :
    area2 a b (lerp A B s) = (1 - s) * area2 a b A + s * area2 a b B := by
  simp only [area2, lerp]; ring

theorem lerp_zero (A B : point) : lerp A B 0 = A := by
  apply point_ext <;> simp [lerp]

theorem lerp_one (A B : point) : lerp A B 1 = B := by
  apply point_ext <;> simp [lerp]

theorem lerp_lerp (A B : point) (s t : ℚ) : lerp A (lerp A B s) t = lerp A B (t * s) := by
  apply point_ext <;> simp only [lerp] <;> ring

theorem area2_sum (a b c x : point) :
    area2 a b x + area2 b c x + area2 c a x = area2 a b c := by
  simp only [area2]; ring

theorem strictly_inside_iff (t : triangle) (x : point) :
    strictly_inside t x ↔
      0 < area2 t.a t.b x * area2 t.a t.b t.c
      ∧ 0 < area2 t.b t.c x * area2 t.a t.b t.c
      ∧ 0 < area2 t.c t.a x * area2 t.a t.b t.c := by
  have e2 : area2 t.b t.c t.a = area2 t.a t.b t.c := by simp only [area2]; ring
  have e3 : area2 t.c t.a t.b = area2 t.a t.b t.c := by simp only [area2]; ring
  unfold strictly_inside
  rw [e2, e3]

theorem strictly_inside_closed {t : triangle} {x : point} (h : strictly_inside t x) :
    inside_closed t x := by
  rw [strictly_inside_iff] at h
  exact ⟨h.1.le, h.2.1.le, h.2.2.le⟩

theorem strictly_inside_nondeg {t : triangle} {x : point} (h : strictly_inside t x) :
    area2 t.a t.b t.c ≠ 0 := by
  intro h0
  rw [strictly_inside_iff, h0] at h
  simp at h

/-- Along a segment from a point of the closed triangle to a point strictly inside, all
points except possibly the first are strictly inside. -/
theorem strictly_inside_lerp {t : triangle} {A B : point} (hA : inside_closed t A)
    (hB : strictly_inside t B) {s : ℚ} (h0 : 0 < s) (h1 : s ≤ 1) :
    strictly_inside t (lerp A B s) := by
  rw [strictly_inside_iff] at hB ⊢
  obtain ⟨a1, a2, a3⟩ := hA
  obtain ⟨b1, b2, b3⟩ := hB
  have key : ∀ fA fB D : ℚ, 0 ≤ fA * D → 0 < fB * D → 0 < ((1 - s) * fA + s * fB) * D := by
    intro fA fB D hfA hfB
    have e : ((1 - s) * fA + s * fB) * D = (1 - s) * (fA * D) + s * (fB * D) := by ring
    rw [e]
    have : 0 ≤ (1 - s) * (fA * D) := mul_nonneg (by linarith) hfA
    have : 0 < s * (fB * D) := mul_pos h0 hfB
    linarith
  simp only [area2_lerp]
  exact ⟨key _ _ _ a1 b1, key _ _ _ a2 b2, key _ _ _ a3 b3⟩

theorem inside_closed_lerp {t : triangle} {A B : point} (hA : inside_closed t A)
    (hB : inside_closed t B) {s : ℚ} (h0 : 0 ≤ s) (h1 : s ≤ 1) :
    inside_closed t (lerp A B s) := by
  obtain ⟨a1, a2, a3⟩ := hA
  obtain ⟨b1, b2, b3⟩ := hB
  have key : ∀ fA fB D : ℚ, 0 ≤ fA * D → 0 ≤ fB * D → 0 ≤ ((1 - s) * fA + s * fB) * D := by
    intro fA fB D hfA hfB
    have e : ((1 - s) * fA + s * fB) * D = (1 - s) * (fA * D) + s * (fB * D) := by ring
    rw [e]
    exact add_nonneg (mul_nonneg (by linarith) hfA) (mul_nonneg h0 hfB)
  unfold inside_closed
  simp only [area2_lerp]
  exact ⟨key _ _ _ a1 b1, key _ _ _ a2 b2, key _ _ _ a3 b3⟩

/-! ## The lifting map -/

theorem lift_num_affine (a b c q : point) :
    lift_num a b c q = lift_num a b c ⟨0, 0⟩
      + q.x * (lift_num a b c ⟨1, 0⟩ - lift_num a b c ⟨0, 0⟩)
      + q.y * (lift_num a b c ⟨0, 1⟩ - lift_num a b c ⟨0, 0⟩) := by
  simp only [lift_num, in_circle_det, area2, norm2]
  ring

theorem lift_num_lerp (a b c A B : point) (s : ℚ) :
    lift_num a b c (lerp A B s) = (1 - s) * lift_num a b c A + s * lift_num a b c B := by
  rw [lift_num_affine a b c (lerp A B s), lift_num_affine a b c A, lift_num_affine a b c B]
  simp only [lerp]
  ring

theorem lift_num_bary (a b c u v w y : point) :
    area2 u v w * lift_num a b c y
      = area2 v w y * lift_num a b c u + area2 w u y * lift_num a b c v
        + area2 u v y * lift_num a b c w := by
  rw [lift_num_affine a b c y, lift_num_affine a b c u, lift_num_affine a b c v,
    lift_num_affine a b c w]
  simp only [area2]
  ring

theorem lift_lerp (t : triangle) (A B : point) (s : ℚ) :
    lift t (lerp A B s) = (1 - s) * lift t A + s * lift t B := by
  simp only [lift, lift_num_lerp]
  ring

theorem lift_bary (t : triangle) (u v w y : point) :
    area2 u v w * lift t y
      = area2 v w y * lift t u + area2 w u y * lift t v + area2 u v y * lift t w := by
  simp only [lift]
  have := lift_num_bary t.a t.b t.c u v w y
  rw [mul_div_assoc', mul_div_assoc', mul_div_assoc', mul_div_assoc', this]
  ring

/-- The circumcircle test compares the lifted point with the plane of the triangle. -/
theorem is_in_circumcircle_iff_lift (q : point) (t : triangle) (h : area2 t.a t.b t.c ≠ 0) :
    is_in_circumcircle q t = true ↔ norm2 q < lift t q := by
  rw [is_in_circumcircle_iff_num, in_circle_num, lift, lift_num]
  have e : (in_circle_det t.a t.b t.c q + area2 t.a t.b t.c * norm2 q) / area2 t.a t.b t.c
      - norm2 q = in_circle_det t.a t.b t.c q / area2 t.a t.b t.c := by
    field_simp
  rw [← sub_pos (a := (in_circle_det t.a t.b t.c q + area2 t.a t.b t.c * norm2 q)
    / area2 t.a t.b t.c), e, div_pos_iff, mul_pos_iff]
  tauto

theorem lift_vertex (t : triangle) (h : area2 t.a t.b t.c ≠ 0) (v : point)
    (hv : v ∈ vertices t) : lift t v = norm2 v := by
  have h0 := in_circle_num_vertex t.a t.b t.c
  have hz : in_circle_det t.a t.b t.c v = 0 := by
    simp only [vertices, List.mem_cons, List.mem_singleton, List.not_mem_nil, or_false] at hv
    simp only [in_circle_num] at h0
    rcases hv with rfl | rfl | rfl
    · exact (mul_eq_zero.1 h0.1).resolve_left h
    · exact (mul_eq_zero.1 h0.2.1).resolve_left h
    · exact (mul_eq_zero.1 h0.2.2).resolve_left h
  rw [lift, lift_num, hz, zero_add, mul_div_cancel_left₀ _ h]
/-- In a triangle `T1`, the plane of `T1` lies above the plane of any triangle `T2` whose
circumcircle has no vertex of `T1` strictly inside. -/
theorem lift_le_of_inside (T1 T2 : triangle) (h1 : area2 T1.a T1.b T1.c ≠ 0)
    (h2 : area2 T2.a T2.b T2.c ≠ 0) (y : point) (hy : inside_closed T1 y)
    (hD : ∀ v ∈ vertices T1, is_in_circumcircle v T2 = false) :
    lift T2 y ≤ lift T1 y := by
  have hv : ∀ v ∈ vertices T1, lift T2 v ≤ lift T1 v := by
    intro v hv
    have := hD v hv
    rw [← Bool.not_eq_true, is_in_circumcircle_iff_lift v T2 h2] at this
    rw [lift_vertex T1 h1 v hv]
    exact not_lt.1 this
  have ha := hv T1.a (by simp [vertices])
  have hb := hv T1.b (by simp [vertices])
  have hc := hv T1.c (by simp [vertices])
  obtain ⟨y1, y2, y3⟩ := hy
  have e1 := lift_bary T1 T1.a T1.b T1.c y
  have e2 := lift_bary T2 T1.a T1.b T1.c y
  have hD2 : 0 < area2 T1.a T1.b T1.c * area2 T1.a T1.b T1.c := mul_self_pos.2 h1
  have key : area2 T1.a T1.b T1.c * area2 T1.a T1.b T1.c * (lift T1 y - lift T2 y)
      = (area2 T1.b T1.c y * area2 T1.a T1.b T1.c) * (lift T1 T1.a - lift T2 T1.a)
        + (area2 T1.c T1.a y * area2 T1.a T1.b T1.c) * (lift T1 T1.b - lift T2 T1.b)
        + (area2 T1.a T1.b y * area2 T1.a T1.b T1.c) * (lift T1 T1.c - lift T2 T1.c) := by
    linear_combination area2 T1.a T1.b T1.c * e1 - area2 T1.a T1.b T1.c * e2
  have hnn : 0 ≤ area2 T1.a T1.b T1.c * area2 T1.a T1.b T1.c * (lift T1 y - lift T2 y) := by
    rw [key]
    exact add_nonneg (add_nonneg (mul_nonneg y2 (by linarith)) (mul_nonneg y3 (by linarith)))
      (mul_nonneg y1 (by linarith))
  have := nonneg_of_mul_nonneg_right hnn hD2
  linarith

/-- The cavity is star-shaped: if `T1` is bad for `p` and contains `z`, then every triangle
containing a point of the segment from `p` to `z` other than `z` is bad for `p`. -/
theorem bad_of_segment (T1 T2 : triangle) (h1 : area2 T1.a T1.b T1.c ≠ 0)
    (h2 : area2 T2.a T2.b T2.c ≠ 0)
    (hD12 : ∀ v ∈ vertices T1, is_in_circumcircle v T2 = false)
    (hD21 : ∀ v ∈ vertices T2, is_in_circumcircle v T1 = false)
    (p z : point) (s : ℚ) (hs0 : 0 ≤ s) (hs1 : s < 1)
    (hz : inside_closed T1 z) (hx : inside_closed T2 (lerp p z s))
    (hbad : is_in_circumcircle p T1 = true) : is_in_circumcircle p T2 = true := by
  rw [is_in_circumcircle_iff_lift p T1 h1] at hbad
  rw [is_in_circumcircle_iff_lift p T2 h2]
  have hzle := lift_le_of_inside T1 T2 h1 h2 z hz hD12
  have hxle := lift_le_of_inside T2 T1 h2 h1 (lerp p z s) hx hD21
  rw [lift_lerp, lift_lerp] at hxle
  have h3 : 0 ≤ (1 - s) * (lift T2 p - lift T1 p) := by
    have : 0 ≤ s * (lift T1 z - lift T2 z) := mul_nonneg hs0 (by linarith)
    linarith
  have h4 : 0 ≤ lift T2 p - lift T1 p := nonneg_of_mul_nonneg_right h3 (by linarith)
  linarith
/-! ## Points in general position with respect to the lines of a point set -/

theorem mem_crossings {W : List point} {A B a b : point} (ha : a ∈ W) (hb : b ∈ W) :
    cross_param a b A B ∈ crossings W A B := by
  unfold crossings
  rw [List.mem_flatMap]
  exact ⟨a, ha, List.mem_map.2 ⟨b, hb, rfl⟩⟩

theorem eq_cross_param {a b A B : point} {s : ℚ} (h0 : area2 a b (lerp A B s) = 0)
    (hne : area2 a b A ≠ area2 a b B) : s = cross_param a b A B := by
  rw [area2_lerp] at h0
  unfold cross_param
  rw [eq_div_iff (sub_ne_zero.2 hne)]
  linarith

theorem generic_lerp {W : List point} {A B : point}
    (hne : ∀ a ∈ W, ∀ b ∈ W, a ≠ b → area2 a b A ≠ 0 ∨ area2 a b B ≠ 0) {s : ℚ}
    (hs : s ∉ crossings W A B) : generic W (lerp A B s) := by
  intro a ha b hb hab h0
  by_cases he : area2 a b A = area2 a b B
  · rw [area2_lerp, he] at h0
    have : area2 a b B = 0 := by linarith
    rcases hne a ha b hb hab with h | h
    · exact h (he.trans this)
    · exact h this
  · exact hs (eq_cross_param h0 he ▸ mem_crossings ha hb)

/-- Two points of a line between which the line meets no line of `W` are in the same cell. -/
theorem same_cell_lerp {W : List point} {A B : point} {s s' : ℚ} (hss : s ≤ s')
    (hg : generic W (lerp A B s)) (hg' : generic W (lerp A B s'))
    (hno : ∀ c ∈ crossings W A B, ¬ (s < c ∧ c < s')) :
    same_cell W (lerp A B s) (lerp A B s') := by
  intro a ha b hb hab
  have h1 := hg a ha b hb hab
  have h2 := hg' a ha b hb hab
  by_contra hneg
  have hle : area2 a b (lerp A B s) * area2 a b (lerp A B s') ≤ 0 := not_lt.1 hneg
  have hlt : area2 a b (lerp A B s) * area2 a b (lerp A B s') < 0 :=
    lt_of_le_of_ne hle (mul_ne_zero h1 h2)
  rw [area2_lerp] at h1 h2
  rw [area2_lerp, area2_lerp] at hlt
  have hne : area2 a b A ≠ area2 a b B := by
    intro he
    rw [he] at hlt
    have e : ((1 - s) * area2 a b B + s * area2 a b B)
        * ((1 - s') * area2 a b B + s' * area2 a b B) = area2 a b B * area2 a b B := by ring
    rw [e] at hlt
    exact absurd (mul_self_nonneg (area2 a b B)) (not_le.2 hlt)
  apply hno _ (mem_crossings (A := A) (B := B) ha hb)
  set fA := area2 a b A
  set fB := area2 a b B
  have hd : fA - fB ≠ 0 := sub_ne_zero.2 hne
  have e1 : (1 - s) * fA + s * fB = (fA - fB) * (cross_param a b A B - s) := by
    unfold cross_param; field_simp; ring
  have e2 : (1 - s') * fA + s' * fB = (fA - fB) * (cross_param a b A B - s') := by
    unfold cross_param; field_simp; ring
  rw [e1, e2] at hlt
  have e3 : (fA - fB) * (cross_param a b A B - s) * ((fA - fB) * (cross_param a b A B - s'))
      = ((fA - fB) * (fA - fB))
        * ((cross_param a b A B - s) * (cross_param a b A B - s')) := by ring
  rw [e3] at hlt
  have hpos : 0 < (fA - fB) * (fA - fB) := mul_self_pos.2 hd
  have hprod : (cross_param a b A B - s) * (cross_param a b A B - s') < 0 := by
    by_contra hnn
    have := mul_nonneg hpos.le (not_lt.1 hnn)
    linarith
  rcases mul_neg_iff.1 hprod with ⟨h3, h4⟩ | ⟨h3, h4⟩
  · exact ⟨by linarith, by linarith⟩
  · exfalso; linarith

/-- Below any bound there is a gap free of the given finitely many values. -/
theorem exists_gap_below (C : List ℚ) (lo hi : ℚ) (h : lo < hi) :
    ∃ m, lo ≤ m ∧ m < hi ∧ ∀ c ∈ C, c < hi → c ≤ m := by
  induction C with
  | nil => exact ⟨lo, le_refl _, h, fun c hc => absurd hc (List.not_mem_nil _)⟩
  | cons c0 C ih =>
    obtain ⟨m, h1, h2, h3⟩ := ih
    by_cases hc0 : c0 < hi
    · refine ⟨max m c0, le_trans h1 (le_max_left _ _), max_lt h2 hc0, ?_⟩
      intro c hc hlt
      rcases List.mem_cons.1 hc with rfl | hc'
      · exact le_max_right _ _
      · exact le_trans (h3 c hc' hlt) (le_max_left _ _)
    · refine ⟨m, h1, h2, ?_⟩
      intro c hc hlt
      rcases List.mem_cons.1 hc with rfl | hc'
      · exact absurd hlt hc0
      · exact h3 c hc' hlt

theorem exists_gap_above (C : List ℚ) (lo hi : ℚ) (h : lo < hi) :
    ∃ m, lo < m ∧ m ≤ hi ∧ ∀ c ∈ C, lo < c → m ≤ c := by
  obtain ⟨m, h1, h2, h3⟩ := exists_gap_below (C.map (fun c => -c)) (-hi) (-lo) (by linarith)
  refine ⟨-m, by linarith, by linarith, ?_⟩
  intro c hc hlt
  have := h3 (-c) (List.mem_map.2 ⟨c, hc, rfl⟩) (by linarith)
  linarith

/-- A triangle with vertices in `W` contains both or none of two points of the same cell. -/
theorem strictly_inside_same_cell {W : List point} {x1 x2 : point} (h : same_cell W x1 x2)
    {t : triangle} (hv : ∀ v ∈ vertices t, v ∈ W) (hnd : area2 t.a t.b t.c ≠ 0)
    (h1 : strictly_inside t x1) : strictly_inside t x2 := by
  have hnodup := area2_ne_zero_nodup hnd
  simp only [List.nodup_cons, List.mem_cons, List.mem_singleton, List.not_mem_nil, or_false,
    not_or, List.nodup_nil, and_true, not_false_eq_true] at hnodup
  obtain ⟨⟨hab, hac⟩, hbc⟩ := hnodup
  have ha := hv t.a (by simp [vertices])
  have hb := hv t.b (by simp [vertices])
  have hc := hv t.c (by simp [vertices])
  rw [strictly_inside_iff] at h1 ⊢
  have key : ∀ f1 f2 D : ℚ, 0 < f1 * f2 → 0 < f1 * D → 0 < f2 * D := by
    intro f1 f2 D h12 h1D
    have h3 : 0 < (f1 * f2) * (f1 * D) := mul_pos h12 h1D
    have e : (f1 * f2) * (f1 * D) = (f1 * f1) * (f2 * D) := by ring
    rw [e] at h3
    by_contra hn
    have := mul_nonpos_iff.2 (Or.inl ⟨mul_self_nonneg f1, not_lt.1 hn⟩)
    linarith
  exact ⟨key _ _ _ (h t.a ha t.b hb hab) h1.1, key _ _ _ (h t.b hb t.c hc hbc) h1.2.1,
    key _ _ _ (h t.c hc t.a ha (Ne.symm hac)) h1.2.2⟩
/-! ## Collinear points -/

theorem area2_pluecker (a b c u v q : point) :
    area2 a b c * area2 u v q
      = area2 a b u * area2 c v q - area2 a b v * area2 c u q + area2 a b q * area2 c u v := by
  simp only [area2]; ring

/-- For distinct `a, b` some point is off the line through them. -/
theorem exists_off_line {a b : point} (hab : a ≠ b) : ∃ c, area2 a b c ≠ 0 := by
  refine ⟨⟨a.x - (b.y - a.y), a.y + (b.x - a.x)⟩, ?_⟩
  simp only [area2]
  intro h
  have h2 : (b.x - a.x) * (b.x - a.x) + (b.y - a.y) * (b.y - a.y) = 0 := by linarith
  have hx : b.x - a.x = 0 := by nlinarith [mul_self_nonneg (b.x - a.x), mul_self_nonneg (b.y - a.y)]
  have hy : b.y - a.y = 0 := by nlinarith [mul_self_nonneg (b.x - a.x), mul_self_nonneg (b.y - a.y)]
  exact hab (point_ext (by linarith) (by linarith))

/-- Three points of a line through two distinct points are collinear. -/
theorem area2_eq_zero_of_line {a b u v q : point} (hab : a ≠ b) (hu : area2 a b u = 0)
    (hv : area2 a b v = 0) (hq : area2 a b q = 0) : area2 u v q = 0 := by
  obtain ⟨c, hc⟩ := exists_off_line hab
  have := area2_pluecker a b c u v q
  rw [hu, hv, hq] at this
  simp only [zero_mul, sub_self, add_zero] at this
  exact (mul_eq_zero.1 this).resolve_left hc

/-- Points of the line through `u` and `v` are of the form `lerp u v τ`. -/
theorem exists_param_of_collinear {u v x : point} (huv : u ≠ v) (h : area2 u v x = 0) :
    ∃ τ : ℚ, x = lerp u v τ := by
  have hd : (v.x - u.x) * (v.x - u.x) + (v.y - u.y) * (v.y - u.y) ≠ 0 := by
    intro h2
    have hx : v.x - u.x = 0 := by
      nlinarith [mul_self_nonneg (v.x - u.x), mul_self_nonneg (v.y - u.y)]
    have hy : v.y - u.y = 0 := by
      nlinarith [mul_self_nonneg (v.x - u.x), mul_self_nonneg (v.y - u.y)]
    exact huv (point_ext (by linarith) (by linarith))
  refine ⟨((x.x - u.x) * (v.x - u.x) + (x.y - u.y) * (v.y - u.y))
    / ((v.x - u.x) * (v.x - u.x) + (v.y - u.y) * (v.y - u.y)), ?_⟩
  simp only [area2] at h
  apply point_ext
  · simp only [lerp]
    field_simp
    linear_combination (-(v.y - u.y)) * h
  · simp only [lerp]
    field_simp
    linear_combination (v.x - u.x) * h

theorem dot_at_lerp (u v : point) (τ : ℚ) :
    dot_at (lerp u v τ) u v = - (τ * (1 - τ)) * square_distance u v := by
  simp only [dot_at, lerp, square_distance]; ring

theorem dot_at_of_lerp (u v : point) (α β τ : ℚ) :
    dot_at (lerp u v τ) (lerp u v α) (lerp u v β)
      = (α - τ) * (β - τ) * square_distance u v := by
  simp only [dot_at, lerp, square_distance]; ring

theorem square_distance_pos {u v : point} (huv : u ≠ v) : 0 < square_distance u v := by
  have hnn : 0 ≤ square_distance u v := by
    simp only [square_distance]
    exact add_nonneg (mul_self_nonneg _) (mul_self_nonneg _)
  rcases hnn.lt_or_eq with h | h
  · exact h
  · exfalso
    simp only [square_distance] at h
    have hx : v.x - u.x = 0 := by
      nlinarith [mul_self_nonneg (v.x - u.x), mul_self_nonneg (v.y - u.y)]
    have hy : v.y - u.y = 0 := by
      nlinarith [mul_self_nonneg (v.x - u.x), mul_self_nonneg (v.y - u.y)]
    exact huv (point_ext (by linarith) (by linarith))

/-- A point of the line `u v` is strictly inside the circle through `u, v, w` exactly when
it is strictly between `u` and `v`. -/
theorem in_circle_num_on_line (u v w q : point) (hq : area2 u v q = 0) :
    in_circle_num u v w q = - dot_at q u v * (area2 u v w * area2 u v w) := by
  rw [in_circle_num, in_circle_det_pencil, hq]
  ring

theorem is_in_circumcircle_on_line {t : triangle} {u v w : point} (q : point)
    (ht : (vertices t).Perm [u, v, w]) (hw : area2 u v w ≠ 0) (hq : area2 u v q = 0) :
    is_in_circumcircle q t = true ↔ dot_at q u v < 0 := by
  rw [is_in_circumcircle_perm q t ⟨u, v, w⟩ ht, is_in_circumcircle_iff_num,
    in_circle_num_on_line u v w q hq]
  have h2 : 0 < area2 u v w * area2 u v w := mul_self_pos.2 hw
  constructor
  · intro h
    by_contra hn
    have := mul_nonneg (not_lt.1 hn) h2.le
    linarith
  · intro h
    have := mul_pos (neg_pos.2 h) h2
    linarith
/-! ## Containment in triangles and the cover -/

theorem side_product_swap (a b c x : point) :
    area2 b a x * area2 b a c = area2 a b x * area2 a b c := by
  simp only [area2]; ring

theorem strictly_inside_swap12 (a b c x : point) :
    strictly_inside ⟨b, a, c⟩ x ↔ strictly_inside ⟨a, b, c⟩ x := by
  unfold strictly_inside
  simp only []
  rw [side_product_swap b a c x, side_product_swap c b a x, side_product_swap a c b x]
  tauto

theorem strictly_inside_rot (a b c x : point) :
    strictly_inside ⟨b, c, a⟩ x ↔ strictly_inside ⟨a, b, c⟩ x := by
  unfold strictly_inside
  simp only []
  tauto

theorem strictly_inside_six (a b c x : point) :
    (strictly_inside ⟨a, c, b⟩ x ↔ strictly_inside ⟨a, b, c⟩ x)
    ∧ (strictly_inside ⟨b, a, c⟩ x ↔ strictly_inside ⟨a, b, c⟩ x)
    ∧ (strictly_inside ⟨b, c, a⟩ x ↔ strictly_inside ⟨a, b, c⟩ x)
    ∧ (strictly_inside ⟨c, a, b⟩ x ↔ strictly_inside ⟨a, b, c⟩ x)
    ∧ (strictly_inside ⟨c, b, a⟩ x ↔ strictly_inside ⟨a, b, c⟩ x) := by
  have h4 : strictly_inside ⟨c, a, b⟩ x ↔ strictly_inside ⟨a, b, c⟩ x :=
    (strictly_inside_rot c a b x).symm
  exact ⟨(strictly_inside_swap12 c a b x).trans h4, strictly_inside_swap12 a b c x,
    strictly_inside_rot a b c x, h4,
    (strictly_inside_swap12 b c a x).trans (strictly_inside_rot a b c x)⟩

theorem strictly_inside_perm {t : triangle} {u v w : point}
    (h : (vertices t).Perm [u, v, w]) (x : point) :
    strictly_inside t x ↔ strictly_inside ⟨u, v, w⟩ x := by
  obtain ⟨a, b, c⟩ := t
  simp only [vertices] at h
  rcases perm3_cases h with e | e | e | e | e | e
  all_goals
    obtain ⟨rfl, rfl, rfl⟩ := e
    first
    | exact Iff.rfl
    | exact (strictly_inside_six _ _ _ x).1
    | exact (strictly_inside_six _ _ _ x).2.1
    | exact (strictly_inside_six _ _ _ x).2.2.1
    | exact (strictly_inside_six _ _ _ x).2.2.2.1
    | exact (strictly_inside_six _ _ _ x).2.2.2.2

theorem inside_closed_iff (t : triangle) (x : point) :
    inside_closed t x ↔
      0 ≤ area2 t.a t.b x * area2 t.a t.b t.c
      ∧ 0 ≤ area2 t.b t.c x * area2 t.b t.c t.a
      ∧ 0 ≤ area2 t.c t.a x * area2 t.c t.a t.b := by
  have e2 : area2 t.b t.c t.a = area2 t.a t.b t.c := by simp only [area2]; ring
  have e3 : area2 t.c t.a t.b = area2 t.a t.b t.c := by simp only [area2]; ring
  unfold inside_closed
  rw [e2, e3]

theorem inside_closed_perm {t : triangle} {u v w : point}
    (h : (vertices t).Perm [u, v, w]) (x : point) :
    inside_closed t x ↔ inside_closed ⟨u, v, w⟩ x := by
  obtain ⟨a, b, c⟩ := t
  simp only [vertices] at h
  have sw : ∀ a b c : point, inside_closed ⟨b, a, c⟩ x ↔ inside_closed ⟨a, b, c⟩ x := by
    intro a b c
    rw [inside_closed_iff, inside_closed_iff]
    simp only []
    rw [side_product_swap b a c x, side_product_swap c b a x, side_product_swap a c b x]
    tauto
  have rot : ∀ a b c : point, inside_closed ⟨b, c, a⟩ x ↔ inside_closed ⟨a, b, c⟩ x := by
    intro a b c
    rw [inside_closed_iff, inside_closed_iff]
    simp only []
    tauto
  have h4 : ∀ a b c : point, inside_closed ⟨c, a, b⟩ x ↔ inside_closed ⟨a, b, c⟩ x :=
    fun a b c => (rot c a b).symm
  rcases perm3_cases h with e | e | e | e | e | e
  all_goals
    obtain ⟨rfl, rfl, rfl⟩ := e
    first
    | exact Iff.rfl
    | exact sw _ _ _
    | exact rot _ _ _
    | exact h4 _ _ _
    | exact (sw _ _ _).trans (h4 _ _ _)
    | exact (sw _ _ _).trans (rot _ _ _)

theorem lerp_symm (A B : point) (s : ℚ) : lerp A B s = lerp B A (1 - s) := by
  apply point_ext <;> simp only [lerp] <;> ring

/-- A point of a triangle whose vertices are in the closed triangle `S` is in `S`. -/
theorem inside_closed_trans {S t : triangle} (hnd : area2 t.a t.b t.c ≠ 0)
    (hv : ∀ v ∈ vertices t, inside_closed S v) {z : point} (hz : inside_closed t z) :
    inside_closed S z := by
  have ha := hv t.a (by simp [vertices])
  have hb := hv t.b (by simp [vertices])
  have hc := hv t.c (by simp [vertices])
  obtain ⟨z1, z2, z3⟩ := hz
  have hD : 0 < area2 t.a t.b t.c * area2 t.a t.b t.c := mul_self_pos.2 hnd
  have key : ∀ e1 e2 : point, 0 ≤ area2 e1 e2 t.a * area2 S.a S.b S.c →
      0 ≤ area2 e1 e2 t.b * area2 S.a S.b S.c → 0 ≤ area2 e1 e2 t.c * area2 S.a S.b S.c →
      0 ≤ area2 e1 e2 z * area2 S.a S.b S.c := by
    intro e1 e2 h1 h2 h3
    have hid := area2_barycentric t.a t.b t.c e1 e2 z
    have e : area2 t.a t.b t.c * area2 t.a t.b t.c * (area2 e1 e2 z * area2 S.a S.b S.c)
        = (area2 t.b t.c z * area2 t.a t.b t.c) * (area2 e1 e2 t.a * area2 S.a S.b S.c)
          + (area2 t.c t.a z * area2 t.a t.b t.c) * (area2 e1 e2 t.b * area2 S.a S.b S.c)
          + (area2 t.a t.b z * area2 t.a t.b t.c) * (area2 e1 e2 t.c * area2 S.a S.b S.c) := by
      linear_combination area2 t.a t.b t.c * area2 S.a S.b S.c * hid
    have hnn : 0 ≤ area2 t.a t.b t.c * area2 t.a t.b t.c
        * (area2 e1 e2 z * area2 S.a S.b S.c) := by
      rw [e]
      exact add_nonneg (add_nonneg (mul_nonneg z2 h1) (mul_nonneg z3 h2)) (mul_nonneg z1 h3)
    exact nonneg_of_mul_nonneg_right hnn hD
  exact ⟨key _ _ ha.1 hb.1 hc.1, key _ _ ha.2.1 hb.2.1 hc.2.1, key _ _ ha.2.2 hb.2.2 hc.2.2⟩

theorem corner_inside_closed : ∀ s ∈ vertices super0, inside_closed super0 s := by
  decide!

namespace GInv

variable {V : List point} {L : List triangle}

theorem mem_closed (inv : GInv V L) {v : point} (hv : v ∈ V) : inside_closed super0 v := by
  rcases inv.inside v hv with h | h
  · exact corner_inside_closed v h
  · exact strictly_inside_closed h

theorem triangle_closed (inv : GInv V L) {T : triangle} (hT : T ∈ L) {z : point}
    (hz : inside_closed T z) : inside_closed super0 z :=
  inside_closed_trans (inv.nondeg T hT).1
    (fun v hv => inv.mem_closed ((inv.nondeg T hT).2 v hv)) hz

/-- A point of the closed super-triangle on no line of `V` is strictly inside it. -/
theorem strict_of_generic (inv : GInv V L) {x : point} (hg : generic V x)
    (hc : inside_closed super0 x) : strictly_inside super0 x := by
  rw [strictly_inside_iff]
  obtain ⟨h1, h2, h3⟩ := hc
  have ha := inv.corners super0.a (by simp [vertices])
  have hb := inv.corners super0.b (by simp [vertices])
  have hcc := inv.corners super0.c (by simp [vertices])
  have hD : area2 super0.a super0.b super0.c ≠ 0 := by decide!
  have n1 := hg super0.a ha super0.b hb (by decide!)
  have n2 := hg super0.b hb super0.c hcc (by decide!)
  have n3 := hg super0.c hcc super0.a ha (by decide!)
  exact ⟨lt_of_le_of_ne h1 (Ne.symm (mul_ne_zero n1 hD)),
    lt_of_le_of_ne h2 (Ne.symm (mul_ne_zero n2 hD)),
    lt_of_le_of_ne h3 (Ne.symm (mul_ne_zero n3 hD))⟩

theorem cover_exists (inv : GInv V L) {x : point} (hx : strictly_inside super0 x)
    (hg : generic V x) : ∃ T ∈ L, strictly_inside T x := by
  have h := inv.cover x hx hg
  have hpos : 0 < L.countP (fun T => decide (strictly_inside T x)) := by omega
  obtain ⟨T, hT, hP⟩ := List.countP_pos_iff.1 hpos
  exact ⟨T, hT, by simpa using hP⟩

theorem cover_unique (inv : GInv V L) {x : point} (hx : strictly_inside super0 x)
    (hg : generic V x) {T1 T2 : triangle} (h1 : T1 ∈ L) (h2 : T2 ∈ L)
    (hx1 : strictly_inside T1 x) (hx2 : strictly_inside T2 x) : T1 = T2 := by
  by_contra hne
  have := two_le_countP (fun T => decide (strictly_inside T x)) L T1 T2 h1 h2 hne
    (by simpa using hx1) (by simpa using hx2)
  have h := inv.cover x hx hg
  omega

end GInv
/-! ## The circumcircle test in barycentric form -/

theorem in_circle_num_bary (a b c q : point) :
    in_circle_num a b c q
      = area2 b c q * area2 c a q * square_distance a b
        + area2 c a q * area2 a b q * square_distance b c
        + area2 a b q * area2 b c q * square_distance c a := by
  simp only [in_circle_num, in_circle_det, area2, square_distance]; ring

theorem bary_x (a b c q : point) :
    area2 a b c * q.x = area2 b c q * a.x + area2 c a q * b.x + area2 a b q * c.x := by
  simp only [area2]; ring

theorem bary_y (a b c q : point) :
    area2 a b c * q.y = area2 b c q * a.y + area2 c a q * b.y + area2 a b q * c.y := by
  simp only [area2]; ring

/-- A point of a closed non-degenerate triangle that is not strictly inside its
circumcircle is one of its vertices. -/
theorem mem_vertices_of_closed {t : triangle} {q : point} (hnd : area2 t.a t.b t.c ≠ 0)
    (hq : inside_closed t q) (hc : is_in_circumcircle q t = false) : q ∈ vertices t := by
  obtain ⟨a, b, c⟩ := t
  simp only [inside_closed] at hq
  simp only at hnd
  obtain ⟨h1, h2, h3⟩ := hq
  have hnum : ¬ 0 < in_circle_num a b c q := by
    rw [← is_in_circumcircle_iff_num q ⟨a, b, c⟩, hc]; simp
  rw [in_circle_num_bary] at hnum
  have hnodup := area2_ne_zero_nodup hnd
  simp only [List.nodup_cons, List.mem_cons, List.mem_singleton, List.not_mem_nil, or_false,
    not_or, List.nodup_nil, and_true, not_false_eq_true] at hnodup
  obtain ⟨⟨hab, hac⟩, hbc⟩ := hnodup
  have dab := square_distance_pos hab
  have dbc := square_distance_pos hbc
  have dca := square_distance_pos (Ne.symm hac)
  have hD2 : 0 < area2 a b c * area2 a b c := mul_self_pos.2 hnd
  have key : ∀ f g : ℚ, 0 ≤ f * area2 a b c → 0 ≤ g * area2 a b c → 0 ≤ f * g := by
    intro f g hf hg
    have h := mul_nonneg hf hg
    have e : f * area2 a b c * (g * area2 a b c) = (area2 a b c * area2 a b c) * (f * g) := by
      ring
    rw [e] at h
    by_contra hn
    have := mul_neg_of_pos_of_neg hD2 (not_le.1 hn)
    linarith
  have p1 := key _ _ h2 h3
  have p2 := key _ _ h3 h1
  have p3 := key _ _ h1 h2
  have t1 := mul_nonneg p1 dab.le
  have t2 := mul_nonneg p2 dbc.le
  have t3 := mul_nonneg p3 dca.le
  have z1 : area2 b c q * area2 c a q * square_distance a b = 0 := by linarith
  have z2 : area2 c a q * area2 a b q * square_distance b c = 0 := by linarith
  have z3 : area2 a b q * area2 b c q * square_distance c a = 0 := by linarith
  have y1 : area2 b c q * area2 c a q = 0 := by
    rcases mul_eq_zero.1 z1 with h | h
    · exact h
    · exact absurd h dab.ne'
  have y2 : area2 c a q * area2 a b q = 0 := by
    rcases mul_eq_zero.1 z2 with h | h
    · exact h
    · exact absurd h dbc.ne'
  have y3 : area2 a b q * area2 b c q = 0 := by
    rcases mul_eq_zero.1 z3 with h | h
    · exact h
    · exact absurd h dca.ne'
  have hsum := area2_sum a b c q
  have hx := bary_x a b c q
  have hy := bary_y a b c q
  simp only [vertices, List.mem_cons, List.mem_singleton, List.not_mem_nil, or_false]
  rcases mul_eq_zero.1 y1 with ha0 | hb0
  · rcases mul_eq_zero.1 y2 with hb0 | hc0
    · -- only the coordinate of `c` is left
      right; right
      have hg : area2 a b q = area2 a b c := by linarith
      rw [ha0, hb0, hg] at hx hy
      apply point_ext
      · exact mul_left_cancel₀ hnd (by linarith)
      · exact mul_left_cancel₀ hnd (by linarith)
    · right; left
      have hg : area2 c a q = area2 a b c := by linarith
      rw [ha0, hc0, hg] at hx hy
      apply point_ext
      · exact mul_left_cancel₀ hnd (by linarith)
      · exact mul_left_cancel₀ hnd (by linarith)
  · rcases mul_eq_zero.1 y3 with hc0 | ha0
    · left
      have hg : area2 b c q = area2 a b c := by linarith
      rw [hb0, hc0, hg] at hx hy
      apply point_ext
      · exact mul_left_cancel₀ hnd (by linarith)
      · exact mul_left_cancel₀ hnd (by linarith)
    · right; right
      have hg : area2 a b q = area2 a b c := by linarith
      rw [ha0, hb0, hg] at hx hy
      apply point_ext
      · exact mul_left_cancel₀ hnd (by linarith)
      · exact mul_left_cancel₀ hnd (by linarith)

/-! ## Signs along a segment -/

/-- Along a line, between two parameters with no crossing strictly between them, the side
of a line of `W` does not change. -/
theorem seg_sign {W : List point} {A B a b : point} {s1 s2 : ℚ} (ha : a ∈ W) (hb : b ∈ W)
    (h12 : s1 ≤ s2) (hno : ∀ c ∈ crossings W A B, ¬ (s1 < c ∧ c < s2)) :
    0 ≤ area2 a b (lerp A B s1) * area2 a b (lerp A B s2) := by
  by_contra hneg
  have hlt : area2 a b (lerp A B s1) * area2 a b (lerp A B s2) < 0 := not_le.1 hneg
  rw [area2_lerp, area2_lerp] at hlt
  have hne : area2 a b A ≠ area2 a b B := by
    intro he
    rw [he] at hlt
    have e : ((1 - s1) * area2 a b B + s1 * area2 a b B)
        * ((1 - s2) * area2 a b B + s2 * area2 a b B) = area2 a b B * area2 a b B := by ring
    rw [e] at hlt
    exact absurd (mul_self_nonneg (area2 a b B)) (not_le.2 hlt)
  apply hno _ (mem_crossings (A := A) (B := B) ha hb)
  set fA := area2 a b A
  set fB := area2 a b B
  have hd : fA - fB ≠ 0 := sub_ne_zero.2 hne
  have e1 : (1 - s1) * fA + s1 * fB = (fA - fB) * (cross_param a b A B - s1) := by
    unfold cross_param; field_simp; ring
  have e2 : (1 - s2) * fA + s2 * fB = (fA - fB) * (cross_param a b A B - s2) := by
    unfold cross_param; field_simp; ring
  rw [e1, e2] at hlt
  have e3 : (fA - fB) * (cross_param a b A B - s1) * ((fA - fB) * (cross_param a b A B - s2))
      = ((fA - fB) * (fA - fB))
        * ((cross_param a b A B - s1) * (cross_param a b A B - s2)) := by ring
  rw [e3] at hlt
  have hpos : 0 < (fA - fB) * (fA - fB) := mul_self_pos.2 hd
  have hprod : (cross_param a b A B - s1) * (cross_param a b A B - s2) < 0 := by
    by_contra hnn
    have := mul_nonneg hpos.le (not_lt.1 hnn)
    linarith
  rcases mul_neg_iff.1 hprod with ⟨h3, h4⟩ | ⟨h3, h4⟩
  · exact ⟨by linarith, by linarith⟩
  · exfalso; linarith

theorem weak_cell_symm {W : List point} {X1 X2 : point} (h : weak_cell W X1 X2) :
    weak_cell W X2 X1 := fun a ha b hb => by
  rw [mul_comm]; exact h a ha b hb

theorem weak_cell_lerp {W : List point} {A B : point} {s1 s2 : ℚ} (h12 : s1 ≤ s2)
    (hno : ∀ c ∈ crossings W A B, ¬ (s1 < c ∧ c < s2)) :
    weak_cell W (lerp A B s1) (lerp A B s2) := fun _ ha _ hb => seg_sign ha hb h12 hno

theorem sign_transfer {f1 f2 D : ℚ} (h12 : 0 ≤ f1 * f2) (h1 : 0 < f1 * D) : 0 ≤ f2 * D := by
  have h3 : 0 ≤ (f1 * f2) * (f1 * D) := mul_nonneg h12 h1.le
  have e : (f1 * f2) * (f1 * D) = (f1 * f1) * (f2 * D) := by ring
  rw [e] at h3
  have hf1 : f1 ≠ 0 := by
    rintro rfl
    simp at h1
  have hp : 0 < f1 * f1 := mul_self_pos.2 hf1
  by_contra hn
  have := mul_neg_of_pos_of_neg hp (not_le.1 hn)
  linarith

/-- A triangle with vertices in `W` that contains `X1` strictly contains the points weakly
in the same cell in its closure. -/
theorem closed_of_weak_cell {W : List point} {X1 X2 : point} (h : weak_cell W X1 X2)
    {t : triangle} (hv : ∀ v ∈ vertices t, v ∈ W) (h1 : strictly_inside t X1) :
    inside_closed t X2 := by
  have ha := hv t.a (by simp [vertices])
  have hb := hv t.b (by simp [vertices])
  have hc := hv t.c (by simp [vertices])
  rw [strictly_inside_iff] at h1
  exact ⟨sign_transfer (h t.a ha t.b hb) h1.1, sign_transfer (h t.b hb t.c hc) h1.2.1,
    sign_transfer (h t.c hc t.a ha) h1.2.2⟩

/-- A point of a closed triangle with vertices in `W` that is on no line of `W` is strictly
inside the triangle. -/
theorem strict_of_closed_generic {W : List point} {x : point} (hg : generic W x)
    {t : triangle} (hv : ∀ v ∈ vertices t, v ∈ W) (hnd : area2 t.a t.b t.c ≠ 0)
    (hc : inside_closed t x) : strictly_inside t x := by
  have hnodup := area2_ne_zero_nodup hnd
  simp only [List.nodup_cons, List.mem_cons, List.mem_singleton, List.not_mem_nil, or_false,
    not_or, List.nodup_nil, and_true, not_false_eq_true] at hnodup
  obtain ⟨⟨hab, hac⟩, hbc⟩ := hnodup
  have ha := hv t.a (by simp [vertices])
  have hb := hv t.b (by simp [vertices])
  have hcc := hv t.c (by simp [vertices])
  rw [strictly_inside_iff]
  obtain ⟨h1, h2, h3⟩ := hc
  exact ⟨lt_of_le_of_ne h1 (Ne.symm (mul_ne_zero (hg _ ha _ hb hab) hnd)),
    lt_of_le_of_ne h2 (Ne.symm (mul_ne_zero (hg _ hb _ hcc hbc) hnd)),
    lt_of_le_of_ne h3 (Ne.symm (mul_ne_zero (hg _ hcc _ ha (Ne.symm hac)) hnd))⟩

theorem strict_of_weak_cell {W : List point} {X1 X2 : point} (h : weak_cell W X1 X2)
    (hg : generic W X2) {t : triangle} (hv : ∀ v ∈ vertices t, v ∈ W)
    (h1 : strictly_inside t X1) : strictly_inside t X2 :=
  strict_of_closed_generic hg hv (strictly_inside_nondeg h1) (closed_of_weak_cell h hv h1)

/-! ## Choosing points off the lines -/

/-- Just after the parameter `lo` there is a point of the line `A B` on no line of `W`,
with no crossing between `lo` and it. -/
theorem exists_generic_after (W : List point) (A B : point)
    (hne : ∀ a ∈ W, ∀ b ∈ W, a ≠ b → area2 a b A ≠ 0 ∨ area2 a b B ≠ 0) (lo hi : ℚ)
    (h : lo < hi) :
    ∃ ε, lo < ε ∧ ε < hi ∧ generic W (lerp A B ε)
      ∧ ∀ s, lo ≤ s → s ≤ ε → weak_cell W (lerp A B s) (lerp A B ε) := by
  obtain ⟨m, h1, h2, h3⟩ := exists_gap_above (crossings W A B) lo hi h
  have hno : ∀ c ∈ crossings W A B, ¬ (lo < c ∧ c ≤ (lo + m) / 2) := by
    rintro c hc ⟨hc1, hc2⟩
    have := h3 c hc hc1
    linarith
  refine ⟨(lo + m) / 2, by linarith, by linarith, generic_lerp hne ?_, ?_⟩
  · intro hmem
    exact hno _ hmem ⟨by linarith, le_refl _⟩
  · intro s hs1 hs2
    apply weak_cell_lerp hs2
    rintro c hc ⟨hc1, hc2⟩
    exact hno c hc ⟨by linarith, by linarith⟩

/-- Just before the parameter `hi` there is a point of the line `A B` on no line of `W`,
with no crossing between it and `hi`. -/
theorem exists_generic_before (W : List point) (A B : point)
    (hne : ∀ a ∈ W, ∀ b ∈ W, a ≠ b → area2 a b A ≠ 0 ∨ area2 a b B ≠ 0) (lo hi : ℚ)
    (h : lo < hi) :
    ∃ ε, lo < ε ∧ ε < hi ∧ generic W (lerp A B ε)
      ∧ ∀ s, ε ≤ s → s ≤ hi → weak_cell W (lerp A B s) (lerp A B ε) := by
  obtain ⟨m, h1, h2, h3⟩ := exists_gap_below (crossings W A B) lo hi h
  have hno : ∀ c ∈ crossings W A B, ¬ ((m + hi) / 2 ≤ c ∧ c < hi) := by
    rintro c hc ⟨hc1, hc2⟩
    have := h3 c hc hc2
    linarith
  refine ⟨(m + hi) / 2, by linarith, by linarith, generic_lerp hne ?_, ?_⟩
  · intro hmem
    exact hno _ hmem ⟨le_refl _, by linarith⟩
  · intro s hs1 hs2
    apply weak_cell_symm
    apply weak_cell_lerp hs1
    rintro c hc ⟨hc1, hc2⟩
    exact hno c hc ⟨by linarith, by linarith⟩

/-- On an edge there is a point that is on no line of `W` other than the line of the
edge. -/
theorem exists_edge_point (W : List point) (u v : point) (lo hi : ℚ) (h : lo < hi) :
    ∃ τ, lo < τ ∧ τ < hi ∧ ∀ a ∈ W, ∀ b ∈ W, area2 a b (lerp u v τ) = 0 →
      area2 a b u = 0 ∧ area2 a b v = 0 := by
  obtain ⟨m, h1, h2, h3⟩ := exists_gap_above (crossings W u v) lo hi h
  refine ⟨(lo + m) / 2, by linarith, by linarith, ?_⟩
  intro a ha b hb h0
  by_cases he : area2 a b u = area2 a b v
  · rw [area2_lerp, he] at h0
    have : area2 a b v = 0 := by linarith
    exact ⟨he.trans this, this⟩
  · exfalso
    have hmem : (lo + m) / 2 ∈ crossings W u v := eq_cross_param h0 he ▸ mem_crossings ha hb
    have := h3 _ hmem (by linarith)
    linarith

/-- Two lines with the same points measure sides proportionally. -/
theorem area2_transfer {a b u v : point} (hu : area2 a b u = 0) (hv : area2 a b v = 0)
    (c q : point) : area2 a b c * area2 u v q = area2 a b q * area2 u v c := by
  have h := area2_pluecker a b c u v q
  rw [hu, hv] at h
  have e : area2 c u v = area2 u v c := (area2_rot c u v).symm
  rw [e] at h
  linarith
/-! ## Points next to an edge -/

theorem area2_sq_perm {x y z a b c : point} (h : [x, y, z].Perm [a, b, c]) :
    area2 x y z * area2 x y z = area2 a b c * area2 a b c := by
  rcases perm3_cases h with e | e | e | e | e | e
  all_goals
    obtain ⟨rfl, rfl, rfl⟩ := e
    first
    | rfl
    | (simp only [area2]; ring)

theorem area2_ne_zero_perm {t : triangle} {u v w : point} (h : (vertices t).Perm [u, v, w])
    (hnd : area2 t.a t.b t.c ≠ 0) : area2 u v w ≠ 0 := by
  have e := area2_sq_perm h
  intro h0
  rw [h0, mul_zero] at e
  exact hnd (mul_self_eq_zero.1 e)

/-- Next to an interior point of an edge, on the side of the third vertex, the points off
the lines of `W` are strictly inside the triangle. -/
theorem near_edge {W : List point} {t : triangle} {u v w : point}
    (ht : (vertices t).Perm [u, v, w]) (hv : ∀ y ∈ vertices t, y ∈ W)
    (hnd : area2 u v w ≠ 0) {τ : ℚ} (h0 : 0 < τ) (h1 : τ < 1) {x : point}
    (hside : 0 < area2 u v x * area2 u v w) (hcell : weak_cell W (lerp u v τ) x)
    (hg : generic W x) : strictly_inside t x := by
  rw [strictly_inside_perm ht]
  have hu : u ∈ W := hv u (ht.symm.subset (by simp))
  have hvv : v ∈ W := hv v (ht.symm.subset (by simp))
  have hw : w ∈ W := hv w (ht.symm.subset (by simp))
  apply strict_of_closed_generic hg
  · intro y hy
    simp only [vertices, List.mem_cons, List.mem_singleton, List.not_mem_nil, or_false] at hy
    rcases hy with rfl | rfl | rfl <;> assumption
  · exact hnd
  · have c1 := hcell v hvv w hw
    have c2 := hcell w hw u hu
    rw [area2_lerp] at c1 c2
    have e1 : area2 v w u = area2 u v w := area2_rot u v w
    have e2 : area2 v w v = 0 := by simp only [area2]; ring
    have e3 : area2 w u u = 0 := by simp only [area2]; ring
    have e4 : area2 w u v = area2 u v w := (area2_rot w u v).symm
    rw [e1, e2] at c1
    rw [e3, e4] at c2
    refine ⟨hside.le, ?_, ?_⟩
    · show 0 ≤ area2 v w x * area2 u v w
      have : 0 ≤ (1 - τ) * (area2 v w x * area2 u v w) := by
        have e : (1 - τ) * (area2 v w x * area2 u v w)
            = ((1 - τ) * area2 u v w + τ * 0) * area2 v w x := by ring
        rw [e]; exact c1
      exact nonneg_of_mul_nonneg_right this (by linarith)
    · show 0 ≤ area2 w u x * area2 u v w
      have : 0 ≤ τ * (area2 w u x * area2 u v w) := by
        have e : τ * (area2 w u x * area2 u v w)
            = ((1 - τ) * 0 + τ * area2 u v w) * area2 w u x := by ring
        rw [e]; exact c2
      exact nonneg_of_mul_nonneg_right this h0

/-- A point of a line that lies in a closed triangle with an edge on that line is between
the endpoints of the edge. -/
theorem between_of_closed {u v a b c : point} {α β τ : ℚ} (ha : a = lerp u v α)
    (hb : b = lerp u v β) (hnd : area2 a b c ≠ 0)
    (hm : inside_closed ⟨a, b, c⟩ (lerp u v τ)) :
    0 ≤ (τ - β) * (α - β) ∧ 0 ≤ (τ - α) * (β - α) := by
  obtain ⟨-, h2, h3⟩ := hm
  simp only at h2 h3
  have fa : area2 b c (lerp u v α) = area2 a b c := by rw [← ha]; exact area2_rot a b c
  have fb : area2 b c (lerp u v β) = 0 := by rw [← hb]; simp only [area2]; ring
  have ga : area2 c a (lerp u v α) = 0 := by rw [← ha]; simp only [area2]; ring
  have gb : area2 c a (lerp u v β) = area2 a b c := by
    rw [← hb]; exact (area2_rot c a b).symm
  rw [area2_lerp] at fa fb ga gb h2 h3
  generalize area2 a b c = D at *
  generalize area2 b c u = k1 at *
  generalize area2 b c v = k2 at *
  generalize area2 c a u = l1 at *
  generalize area2 c a v = l2 at *
  have hD2 : 0 < D * D := mul_self_pos.2 hnd
  have eD1 : D = (α - β) * (k1 - k2) * (-1) := by linarith
  have eD2 : D = (β - α) * (l1 - l2) * (-1) := by linarith
  have hk : k1 - k2 ≠ 0 := by
    intro h0; rw [h0] at eD1; apply hnd; rw [eD1]; ring
  have hl : l1 - l2 ≠ 0 := by
    intro h0; rw [h0] at eD2; apply hnd; rw [eD2]; ring
  constructor
  · have e : ((1 - τ) * k1 + τ * k2) * D
        = ((k1 - k2) * (k1 - k2)) * ((τ - β) * (α - β)) := by
      have e1 : (1 - τ) * k1 + τ * k2 = (τ - β) * (k1 - k2) * (-1) := by linarith
      rw [e1]; nth_rewrite 1 [eD1]; ring
    rw [e] at h2
    exact nonneg_of_mul_nonneg_right h2 (mul_self_pos.2 hk)
  · have e : ((1 - τ) * l1 + τ * l2) * D
        = ((l1 - l2) * (l1 - l2)) * ((τ - α) * (β - α)) := by
      have e1 : (1 - τ) * l1 + τ * l2 = (τ - α) * (l1 - l2) * (-1) := by linarith
      rw [e1]; nth_rewrite 1 [eD2]; ring
    rw [e] at h3
    exact nonneg_of_mul_nonneg_right h3 (mul_self_pos.2 hl)

/-- On a line, two pairs of points of which neither has a point strictly between the
points of the other, and of which the second has a point of the open segment of the first
between its points, are the same pair. -/
theorem params_eq {α β τ : ℚ} (h0 : 0 < τ) (h1 : τ < 1) (hα : α * (1 - α) ≤ 0)
    (hβ : β * (1 - β) ≤ 0) (hu : 0 ≤ α * β) (hv : 0 ≤ (α - 1) * (β - 1))
    (hb1 : 0 ≤ (τ - β) * (α - β)) (hb2 : 0 ≤ (τ - α) * (β - α)) (hne : α ≠ β) :
    (α = 0 ∧ β = 1) ∨ (α = 1 ∧ β = 0) := by
  have key : ∀ a b : ℚ, a < b → a * (1 - a) ≤ 0 → b * (1 - b) ≤ 0 → 0 ≤ a * b →
      0 ≤ (a - 1) * (b - 1) → 0 ≤ (τ - b) * (a - b) → 0 ≤ (τ - a) * (b - a) →
      a = 0 ∧ b = 1 := by
    intro a b hab ha hb hu hv hb1 hb2
    have t1 : τ ≤ b := by
      by_contra hn
      have := mul_neg_of_pos_of_neg (sub_pos.2 (not_le.1 hn)) (sub_neg.2 hab)
      linarith
    have t2 : a ≤ τ := by
      by_contra hn
      have := mul_neg_of_neg_of_pos (sub_neg.2 (not_le.1 hn)) (sub_pos.2 hab)
      linarith
    have a0 : a ≤ 0 := by
      by_contra hn
      have := mul_pos (not_le.1 hn) (show 0 < 1 - a by linarith)
      linarith
    have b1 : 1 ≤ b := by
      by_contra hn
      have := mul_pos (show 0 < b by linarith) (show 0 < 1 - b by linarith)
      linarith
    have a0' : 0 ≤ a := by
      by_contra hn
      have := mul_neg_of_neg_of_pos (not_le.1 hn) (show 0 < b by linarith)
      linarith
    have b1' : b ≤ 1 := by
      by_contra hn
      have := mul_neg_of_neg_of_pos (show a - 1 < 0 by linarith) (show 0 < b - 1 by linarith)
      linarith
    exact ⟨le_antisymm a0 a0', le_antisymm b1' b1⟩
  rcases lt_or_gt_of_ne hne with h | h
  · exact Or.inl (key α β h hα hβ hu hv hb1 hb2)
  · have := key β α h hβ hα (by linarith) (by linarith) hb2 hb1
    exact Or.inr ⟨this.2, this.1⟩

/-- A point of `V` on the line of an edge of an empty triangle is not strictly between
the endpoints. -/
theorem param_outside {t : triangle} {u v w : point} (ht : (vertices t).Perm [u, v, w])
    (hnd : area2 u v w ≠ 0) {α : ℚ} (he : is_in_circumcircle (lerp u v α) t = false) :
    α * (1 - α) ≤ 0 := by
  have huv : u ≠ v := by
    have := area2_ne_zero_nodup hnd
    simp only [List.nodup_cons, List.mem_cons, List.mem_singleton, List.not_mem_nil, or_false,
      not_or, List.nodup_nil, and_true, not_false_eq_true] at this
    exact this.1.1
  have h0 : area2 u v (lerp u v α) = 0 := by simp only [area2, lerp]; ring
  have h := is_in_circumcircle_on_line (lerp u v α) ht hnd h0
  rw [he, dot_at_lerp] at h
  have hn : ¬ (-(α * (1 - α)) * square_distance u v < 0) := fun hh => by
    have := h.2 hh; simp at this
  have hd := square_distance_pos huv
  by_contra hc
  exact hn (mul_neg_of_neg_of_pos (by linarith) hd)
theorem params_not_between {t : triangle} {a b c u v : point} {α β γ : ℚ}
    (ht : (vertices t).Perm [a, b, c]) (hnd : area2 a b c ≠ 0) (ha : a = lerp u v α)
    (hb : b = lerp u v β) (he : is_in_circumcircle (lerp u v γ) t = false) :
    0 ≤ (α - γ) * (β - γ) := by
  have hab : a ≠ b := by
    have := area2_ne_zero_nodup hnd
    simp only [List.nodup_cons, List.mem_cons, List.mem_singleton, List.not_mem_nil, or_false,
      not_or, List.nodup_nil, and_true, not_false_eq_true] at this
    exact this.1.1
  have huv : u ≠ v := by
    rintro rfl
    apply hab
    rw [ha, hb]
    apply point_ext <;> simp only [lerp] <;> ring
  have h0 : area2 a b (lerp u v γ) = 0 := by
    rw [ha, hb]; simp only [area2, lerp]; ring
  have h := is_in_circumcircle_on_line (lerp u v γ) ht hnd h0
  rw [he, ha, hb, dot_at_of_lerp] at h
  have hn : ¬ ((α - γ) * (β - γ) * square_distance u v < 0) := fun hh => by
    have := h.2 hh; simp at this
  have hd := square_distance_pos huv
  by_contra hc
  exact hn (mul_neg_of_neg_of_pos (not_le.1 hc) hd)

theorem exists_boundary_edge {t : triangle} {m : point} (hD : area2 t.a t.b t.c ≠ 0)
    (hc : inside_closed t m) (hn : ¬ strictly_inside t m) :
    ∃ a b c, (vertices t).Perm [a, b, c] ∧ area2 a b m = 0 := by
  by_cases e1 : area2 t.a t.b m = 0
  · exact ⟨t.a, t.b, t.c, List.Perm.refl _, e1⟩
  by_cases e2 : area2 t.b t.c m = 0
  · refine ⟨t.b, t.c, t.a, ?_, e2⟩
    simp only [vertices]
    rw [List.perm_iff_count]; intro y; simp [List.count_cons]; omega
  by_cases e3 : area2 t.c t.a m = 0
  · refine ⟨t.c, t.a, t.b, ?_, e3⟩
    simp only [vertices]
    rw [List.perm_iff_count]; intro y; simp [List.count_cons]; omega
  exfalso
  apply hn
  rw [strictly_inside_iff]
  obtain ⟨h1, h2, h3⟩ := hc
  exact ⟨lt_of_le_of_ne h1 (Ne.symm (mul_ne_zero e1 hD)),
    lt_of_le_of_ne h2 (Ne.symm (mul_ne_zero e2 hD)),
    lt_of_le_of_ne h3 (Ne.symm (mul_ne_zero e3 hD))⟩

theorem mul_nonneg_of_common {X Y D : ℚ} (hD : D ≠ 0) (hX : 0 ≤ X * D) (hY : 0 ≤ Y * D) :
    0 ≤ X * Y := by
  have h := mul_nonneg hX hY
  have e : X * D * (Y * D) = (D * D) * (X * Y) := by ring
  rw [e] at h
  exact nonneg_of_mul_nonneg_right h (mul_self_pos.2 hD)

namespace GInv

variable {V : List point} {L : List triangle}

theorem mem_of_perm (inv : GInv V L) {T : triangle} (hT : T ∈ L) {u v w : point}
    (ht : (vertices T).Perm [u, v, w]) : u ∈ V ∧ v ∈ V ∧ w ∈ V :=
  ⟨(inv.nondeg T hT).2 u (ht.symm.subset (by simp)),
    (inv.nondeg T hT).2 v (ht.symm.subset (by simp)),
    (inv.nondeg T hT).2 w (ht.symm.subset (by simp))⟩

/-- A line of `V` that has a point of the closed super-triangle strictly on each side, or
a point strictly inside the super-triangle on it, is not the line of an edge of the
super-triangle. -/
theorem edge_point_strict (inv : GInv V L) {T : triangle} (hT : T ∈ L) {u v w : point}
    (ht : (vertices T).Perm [u, v, w])
    (H : ∃ q0, inside_closed super0 q0 ∧ (area2 u v q0 * area2 u v w < 0
      ∨ (area2 u v q0 = 0 ∧ strictly_inside super0 q0)))
    {τ : ℚ} (h0 : 0 < τ) (h1 : τ < 1)
    (hP : ∀ a ∈ V, ∀ b ∈ V, area2 a b (lerp u v τ) = 0 → area2 a b u = 0 ∧ area2 a b v = 0) :
    strictly_inside super0 (lerp u v τ) := by
  have hnd := area2_ne_zero_perm ht (inv.nondeg T hT).1
  obtain ⟨huV, hvV, hwV⟩ := inv.mem_of_perm hT ht
  have hcl : inside_closed super0 (lerp u v τ) :=
    inside_closed_lerp (inv.mem_closed huV) (inv.mem_closed hvV) h0.le h1.le
  have hD0 : area2 super0.a super0.b super0.c ≠ 0 := by decide!
  have key : ∀ a b, a ∈ V → b ∈ V → a ≠ b →
      (∀ z, inside_closed super0 z → 0 ≤ area2 a b z * area2 super0.a super0.b super0.c) →
      (∀ z, strictly_inside super0 z → 0 < area2 a b z * area2 super0.a super0.b super0.c) →
      area2 a b (lerp u v τ) ≠ 0 := by
    intro a b ha hb hab hc hs h0m
    obtain ⟨hu, hv⟩ := hP a ha b hb h0m
    obtain ⟨q0, hq0c, hq0⟩ := H
    have tr := area2_transfer hu hv w q0
    rcases hq0 with hlt | ⟨hz, hst⟩
    · have hXY := mul_nonneg_of_common hD0 (hc w (inv.mem_closed hwV)) (hc q0 hq0c)
      have hsq : (area2 a b q0 * area2 u v w) * (area2 a b q0 * area2 u v w)
          = (area2 a b w * area2 a b q0) * (area2 u v q0 * area2 u v w) := by
        nth_rewrite 1 [← tr]; ring
      have hle : (area2 a b w * area2 a b q0) * (area2 u v q0 * area2 u v w) ≤ 0 :=
        mul_nonpos_of_nonneg_of_nonpos hXY hlt.le
      have hz0 : area2 a b q0 * area2 u v w = 0 := by
        have := mul_self_nonneg (area2 a b q0 * area2 u v w)
        exact mul_self_eq_zero.1 (le_antisymm (hsq ▸ hle) this)
      have hY : area2 a b q0 = 0 := (mul_eq_zero.1 hz0).resolve_right hnd
      rw [hY, zero_mul] at tr
      have hα : area2 u v q0 ≠ 0 := by
        intro h; rw [h, zero_mul] at hlt; exact lt_irrefl _ hlt
      have hX : area2 a b w = 0 := (mul_eq_zero.1 tr).resolve_right hα
      exact hnd (area2_eq_zero_of_line hab hu hv hX)
    · rw [hz, mul_zero] at tr
      have hY : area2 a b q0 = 0 := (mul_eq_zero.1 tr.symm).resolve_right hnd
      have := hs q0 hst
      rw [hY, zero_mul] at this
      exact lt_irrefl _ this
  have ha := inv.corners super0.a (by simp [vertices])
  have hb := inv.corners super0.b (by simp [vertices])
  have hc := inv.corners super0.c (by simp [vertices])
  rw [strictly_inside_iff]
  obtain ⟨c1, c2, c3⟩ := hcl
  refine ⟨lt_of_le_of_ne c1 (Ne.symm (mul_ne_zero ?_ hD0)),
    lt_of_le_of_ne c2 (Ne.symm (mul_ne_zero ?_ hD0)),
    lt_of_le_of_ne c3 (Ne.symm (mul_ne_zero ?_ hD0))⟩
  · exact key _ _ ha hb (by decide!) (fun z hz => hz.1)
      (fun z hz => ((strictly_inside_iff _ _).1 hz).1)
  · exact key _ _ hb hc (by decide!) (fun z hz => hz.2.1)
      (fun z hz => ((strictly_inside_iff _ _).1 hz).2.1)
  · exact key _ _ hc ha (by decide!) (fun z hz => hz.2.2)
      (fun z hz => ((strictly_inside_iff _ _).1 hz).2.2)

end GInv
theorem pos_of_pos_mul {k x : ℚ} (hk : 0 < k) (h : 0 < k * x) : 0 < x := by
  by_contra hn
  have := mul_nonpos_of_nonneg_of_nonpos hk.le (not_lt.1 hn)
  linarith

theorem neg_of_pos_mul {k x : ℚ} (hk : 0 < k) (h : k * x < 0) : x < 0 := by
  by_contra hn
  have := mul_nonneg hk.le (not_lt.1 hn)
  linarith

/-- If `x` and `y` are on the same side and `y` and `z` on opposite sides, then `x` and `z`
are on opposite sides. -/
theorem side_pos_neg {x y z : ℚ} (h1 : 0 < x * y) (h2 : y * z < 0) : x * z < 0 := by
  have hy : y ≠ 0 := by rintro rfl; simp at h1
  have h := mul_neg_of_pos_of_neg h1 h2
  have e : x * y * (y * z) = (y * y) * (x * z) := by ring
  rw [e] at h
  exact neg_of_pos_mul (mul_self_pos.2 hy) h

theorem side_pos_pos {x y z : ℚ} (h1 : 0 < x * y) (h2 : 0 < y * z) : 0 < x * z := by
  have hy : y ≠ 0 := by rintro rfl; simp at h1
  have h := mul_pos h1 h2
  have e : x * y * (y * z) = (y * y) * (x * z) := by ring
  rw [e] at h
  exact pos_of_pos_mul (mul_self_pos.2 hy) h

theorem side_neg_neg {x y z : ℚ} (h1 : x * y < 0) (h2 : y * z < 0) : 0 < x * z := by
  have hy : y ≠ 0 := by rintro rfl; simp at h1
  have h := mul_pos_of_neg_of_neg h1 h2
  have e : x * y * (y * z) = (y * y) * (x * z) := by ring
  rw [e] at h
  exact pos_of_pos_mul (mul_self_pos.2 hy) h

theorem area2_lerp_self (u v : point) (τ : ℚ) : area2 u v (lerp u v τ) = 0 := by
  simp only [area2, lerp]; ring

namespace GInv

variable {V : List point} {L : List triangle}

/-- Across an edge that is not on the boundary of the super-triangle there is a triangle
of the list with the same edge. -/
theorem adjacent (inv : GInv V L) {T : triangle} (hT : T ∈ L) {u v w : point}
    (ht : (vertices T).Perm [u, v, w])
    (H : ∃ q0, inside_closed super0 q0 ∧ (area2 u v q0 * area2 u v w < 0
      ∨ (area2 u v q0 = 0 ∧ strictly_inside super0 q0))) :
    ∃ T' ∈ L, ∃ c, (vertices T').Perm [u, v, c] ∧ area2 u v c * area2 u v w < 0 := by
  have hnd := area2_ne_zero_perm ht (inv.nondeg T hT).1
  obtain ⟨huV, hvV, hwV⟩ := inv.mem_of_perm hT ht
  have huv : u ≠ v := by
    have := area2_ne_zero_nodup hnd
    simp only [List.nodup_cons, List.mem_cons, List.mem_singleton, List.not_mem_nil, or_false,
      not_or, List.nodup_nil, and_true, not_false_eq_true] at this
    exact this.1.1
  have hD2 : 0 < area2 u v w * area2 u v w := mul_self_pos.2 hnd
  obtain ⟨τ, h0, h1, hP⟩ := exists_edge_point V u v 0 1 (by norm_num)
  have hm0s := inv.edge_point_strict hT ht H h0 h1 hP
  have hm0line : area2 u v (lerp u v τ) = 0 := area2_lerp_self u v τ
  generalize hm0 : lerp u v τ = m0 at hP hm0s hm0line
  -- a point on the other side of the edge
  have hz : area2 u v (lerp w m0 2) = - area2 u v w := by
    rw [area2_lerp, hm0line]; ring
  have hne : ∀ a ∈ V, ∀ b ∈ V, a ≠ b → area2 a b m0 ≠ 0 ∨ area2 a b (lerp w m0 2) ≠ 0 := by
    intro a ha b hb hab
    by_cases h : area2 a b m0 = 0
    · right
      intro hz0
      obtain ⟨hu, hv⟩ := hP a ha b hb h
      have := area2_eq_zero_of_line hab hu hv hz0
      rw [hz] at this
      exact hnd (neg_eq_zero.1 this)
    · exact Or.inl h
  obtain ⟨ε, hε0, hε1, hg, hcell⟩ := exists_generic_after V m0 (lerp w m0 2) hne 0 1 (by norm_num)
  have hc0 : weak_cell V m0 (lerp m0 (lerp w m0 2) ε) := by
    have := hcell 0 le_rfl hε0.le
    rwa [lerp_zero] at this
  have hx0side : area2 u v (lerp m0 (lerp w m0 2) ε) * area2 u v w < 0 := by
    have e : area2 u v (lerp m0 (lerp w m0 2) ε) * area2 u v w
        = - (ε * (area2 u v w * area2 u v w)) := by
      rw [area2_lerp, hm0line, hz]; ring
    rw [e]
    have := mul_pos hε0 hD2
    linarith
  generalize lerp m0 (lerp w m0 2) ε = x0 at hg hc0 hx0side
  have hx0s : strictly_inside super0 x0 :=
    strict_of_weak_cell hc0 hg (fun y hy => inv.corners y hy) hm0s
  obtain ⟨T', hT', hx0T'⟩ := inv.cover_exists hx0s hg
  have hvT' := (inv.nondeg T' hT').2
  have hndT' := (inv.nondeg T' hT').1
  have hm0T' : inside_closed T' m0 := closed_of_weak_cell (weak_cell_symm hc0) hvT' hx0T'
  have hnot : ¬ strictly_inside T' m0 := by
    intro hin
    have hne' : ∀ a ∈ V, ∀ b ∈ V, a ≠ b → area2 a b m0 ≠ 0 ∨ area2 a b w ≠ 0 := by
      intro a ha b hb hab
      by_cases h : area2 a b m0 = 0
      · right
        intro hz0
        obtain ⟨hu, hv⟩ := hP a ha b hb h
        exact hnd (area2_eq_zero_of_line hab hu hv hz0)
      · exact Or.inl h
    obtain ⟨ε', hε0', hε1', hg', hcell'⟩ := exists_generic_after V m0 w hne' 0 1 (by norm_num)
    have hc1 : weak_cell V m0 (lerp m0 w ε') := by
      have := hcell' 0 le_rfl hε0'.le
      rwa [lerp_zero] at this
    have hx1side : 0 < area2 u v (lerp m0 w ε') * area2 u v w := by
      have e : area2 u v (lerp m0 w ε') * area2 u v w = ε' * (area2 u v w * area2 u v w) := by
        rw [area2_lerp, hm0line]; ring
      rw [e]
      exact mul_pos hε0' hD2
    generalize lerp m0 w ε' = x1 at hg' hc1 hx1side
    have hx1s : strictly_inside super0 x1 :=
      strict_of_weak_cell hc1 hg' (fun y hy => inv.corners y hy) hm0s
    have hx1T' : strictly_inside T' x1 := strict_of_weak_cell hc1 hg' hvT' hin
    have hx1T : strictly_inside T x1 := by
      rw [← hm0] at hc1
      exact near_edge ht (inv.nondeg T hT).2 hnd h0 h1 hx1side hc1 hg'
    have hTT := inv.cover_unique hx1s hg' hT hT' hx1T hx1T'
    rw [← hTT] at hx0T'
    have := ((strictly_inside_iff _ _).1 ((strictly_inside_perm ht x0).1 hx0T')).1
    simp only at this
    linarith
  obtain ⟨a, b, c, hperm, hab0⟩ := exists_boundary_edge hndT' hm0T' hnot
  obtain ⟨haV, hbV, hcV⟩ := inv.mem_of_perm hT' hperm
  have hnd' := area2_ne_zero_perm hperm hndT'
  have hab : a ≠ b := by
    have := area2_ne_zero_nodup hnd'
    simp only [List.nodup_cons, List.mem_cons, List.mem_singleton, List.not_mem_nil, or_false,
      not_or, List.nodup_nil, and_true, not_false_eq_true] at this
    exact this.1.1
  obtain ⟨hu, hv⟩ := hP a haV b hbV hab0
  have hua : area2 u v a = 0 :=
    area2_eq_zero_of_line hab hu hv (by simp only [area2]; ring)
  have hub : area2 u v b = 0 :=
    area2_eq_zero_of_line hab hu hv (by simp only [area2]; ring)
  have hcside : area2 u v c * area2 u v w < 0 := by
    have hx0c := ((strictly_inside_iff _ _).1 ((strictly_inside_perm hperm x0).1 hx0T')).1
    simp only at hx0c
    have tr := area2_transfer hu hv c x0
    have hQ1 : area2 u v c ≠ 0 := fun h0c => hnd' (area2_eq_zero_of_line huv hua hub h0c)
    have e : (area2 a b c * area2 a b c) * (area2 u v c * area2 u v x0)
        = (area2 u v c * area2 u v c) * (area2 a b x0 * area2 a b c) := by
      linear_combination (area2 a b c * area2 u v c) * tr
    have hpos : 0 < (area2 u v c * area2 u v c) * (area2 a b x0 * area2 a b c) :=
      mul_pos (mul_self_pos.2 hQ1) hx0c
    rw [← e] at hpos
    exact side_pos_neg (pos_of_pos_mul (mul_self_pos.2 hnd') hpos) hx0side
  obtain ⟨α, hα⟩ := exists_param_of_collinear huv hua
  obtain ⟨β, hβ⟩ := exists_param_of_collinear huv hub
  have i1 := param_outside ht hnd (α := α) (by rw [← hα]; exact inv.empty T hT a haV)
  have i2 := param_outside ht hnd (α := β) (by rw [← hβ]; exact inv.empty T hT b hbV)
  have i3 := params_not_between hperm hnd' hα hβ (γ := 0)
    (by rw [lerp_zero]; exact inv.empty T' hT' u huV)
  have i4 := params_not_between hperm hnd' hα hβ (γ := 1)
    (by rw [lerp_one]; exact inv.empty T' hT' v hvV)
  have hm0c : inside_closed ⟨a, b, c⟩ (lerp u v τ) := by
    rw [hm0]; exact (inside_closed_perm hperm m0).1 hm0T'
  have i5 := between_of_closed hα hβ hnd' hm0c
  have hαβ : α ≠ β := by
    intro h; apply hab; rw [hα, hβ, h]
  rcases params_eq h0 h1 i1 i2 (by simpa using i3) i4 i5.1 i5.2 hαβ with ⟨ea, eb⟩ | ⟨ea, eb⟩
  · rw [ea, lerp_zero] at hα
    rw [eb, lerp_one] at hβ
    subst hα hβ
    exact ⟨T', hT', c, hperm, hcside⟩
  · rw [ea, lerp_one] at hα
    rw [eb, lerp_zero] at hβ
    subst hα hβ
    exact ⟨T', hT', c, hperm.trans (List.Perm.swap _ _ _), hcside⟩

end GInv
/-! ## The pencil of circles through an edge, with ties -/

theorem pencil_far {sp sw fp fw fc : ℚ} (h : sp * sw < 0) (h1 : sp * (fp - fw) < 0)
    (h2 : ¬ sw * (fw - fc) < 0) : sp * (fp - fc) < 0 := by
  have h2' := not_lt.1 h2
  rcases mul_neg_iff.1 h with ⟨a, b⟩ | ⟨a, b⟩
  · have e1 : fp - fw < 0 := by
      by_contra hn; have := mul_nonneg a.le (not_lt.1 hn); linarith
    have e2 : fw - fc ≤ 0 := by
      by_contra hn; have := mul_neg_of_neg_of_pos b (not_le.1 hn); linarith
    exact mul_neg_of_pos_of_neg a (by linarith)
  · have e1 : 0 < fp - fw := by
      by_contra hn; have := mul_nonneg_of_nonpos_of_nonpos a.le (not_lt.1 hn); linarith
    have e2 : 0 ≤ fw - fc := by
      by_contra hn; have := mul_neg_of_pos_of_neg b (not_le.1 hn); linarith
    exact mul_neg_of_neg_of_pos a (by linarith)

theorem pencil_near {sp sq sw fp fq fw : ℚ} (hp : 0 < sp * sw) (hq : 0 < sq * sw)
    (h1 : sp * (fp - fw) < 0) (h2 : ¬ sq * (fq - fw) < 0) : ¬ sq * (fq - fp) < 0 := by
  have h2' := not_lt.1 h2
  intro h3
  rcases mul_pos_iff.1 hp with ⟨a, b⟩ | ⟨a, b⟩
  · have c : 0 < sq := by
      rcases mul_pos_iff.1 hq with ⟨c, -⟩ | ⟨-, d⟩
      · exact c
      · linarith
    have e1 : fp - fw < 0 := by
      by_contra hn; have := mul_nonneg a.le (not_lt.1 hn); linarith
    have e2 : 0 ≤ fq - fw := by
      by_contra hn; have := mul_neg_of_pos_of_neg c (not_le.1 hn); linarith
    have := mul_nonneg c.le (show 0 ≤ fq - fp by linarith)
    linarith
  · have c : sq < 0 := by
      rcases mul_pos_iff.1 hq with ⟨-, d⟩ | ⟨c, -⟩
      · linarith
      · exact c
    have e1 : 0 < fp - fw := by
      by_contra hn; have := mul_nonneg_of_nonpos_of_nonpos a.le (not_lt.1 hn); linarith
    have e2 : fq - fw ≤ 0 := by
      by_contra hn; have := mul_neg_of_neg_of_pos c (not_le.1 hn); linarith
    have := mul_nonneg_of_nonpos_of_nonpos c.le (show fq - fp ≤ 0 by linarith)
    linarith

theorem pencil_opp {sp sq sw fp fq fc : ℚ} (hp : 0 < sp * sw) (hq : sq * sw < 0)
    (h1 : ¬ sp * (fp - fc) < 0) (h2 : ¬ sq * (fq - fc) < 0) :
    ¬ sq * (fq - fp) < 0 := by
  have h1' := not_lt.1 h1
  have h2' := not_lt.1 h2
  intro h3
  rcases mul_pos_iff.1 hp with ⟨a, b⟩ | ⟨a, b⟩
  · have c : sq < 0 := by
      rcases mul_neg_iff.1 hq with ⟨-, d⟩ | ⟨c, -⟩
      · linarith
      · exact c
    have e1 : 0 ≤ fp - fc := by
      by_contra hn; have := mul_neg_of_pos_of_neg a (not_le.1 hn); linarith
    have e2 : fq - fc ≤ 0 := by
      by_contra hn; have := mul_neg_of_neg_of_pos c (not_le.1 hn); linarith
    have := mul_nonneg_of_nonpos_of_nonpos c.le (show fq - fp ≤ 0 by linarith)
    linarith
  · have c : 0 < sq := by
      rcases mul_neg_iff.1 hq with ⟨c, -⟩ | ⟨-, d⟩
      · exact c
      · linarith
    have e1 : fp - fc ≤ 0 := by
      by_contra hn; have := mul_neg_of_neg_of_pos a (not_le.1 hn); linarith
    have e2 : 0 ≤ fq - fc := by
      by_contra hn; have := mul_neg_of_pos_of_neg c (not_le.1 hn); linarith
    have := mul_nonneg c.le (show 0 ≤ fq - fp by linarith)
    linarith

theorem perm_fan (p u v : point) : (vertices ⟨p, u, v⟩).Perm [u, v, p] := by
  simp only [vertices]
  rw [List.perm_iff_count]; intro y; simp [List.count_cons]; omega

namespace GStep

variable {V : List point} {L : List triangle} {p : point}

/-- Two bad triangles with the edge `u v` and different third vertices make the count of
the edge at least two. -/
theorem count_two {T T' : triangle} (hT : T ∈ L) (hT' : T' ∈ L)
    (hb : is_in_circumcircle p T = true) (hb' : is_in_circumcircle p T' = true)
    {u v w c : point} (ht : (vertices T).Perm [u, v, w]) (ht' : (vertices T').Perm [u, v, c])
    (hcw : c ≠ w) : 2 ≤ edge_count (bad_triangles p L) (u, v) := by
  have hne : T ≠ T' := by
    rintro rfl
    exact hcw (StepCtx.perm3_third (ht'.symm.trans ht))
  exact two_le_countP
    (fun t2 => is_triangle_vertex (u, v).1 t2 && is_triangle_vertex (u, v).2 t2)
    (bad_triangles p L) T T' (mem_bad_triangles.2 ⟨hT, hb⟩) (mem_bad_triangles.2 ⟨hT', hb'⟩)
    hne
    (by
      simp only [Bool.and_eq_true, is_triangle_vertex_iff]
      exact ⟨ht.symm.subset (by simp), ht.symm.subset (by simp)⟩)
    (by
      simp only [Bool.and_eq_true, is_triangle_vertex_iff]
      exact ⟨ht'.symm.subset (by simp), ht'.symm.subset (by simp)⟩)

/-- The new point is strictly on the inner side of every edge of the polygonal hole. -/
theorem poly_side (ctx : GStep V L p) {T : triangle} (hT : T ∈ L)
    (hb : is_in_circumcircle p T = true) {u v w : point} (ht : (vertices T).Perm [u, v, w])
    (hcount : edge_count (bad_triangles p L) (u, v) ≤ 1) :
    0 < area2 u v p * area2 u v w := by
  have hnd := area2_ne_zero_perm ht (ctx.inv.nondeg T hT).1
  obtain ⟨huV, hvV, hwV⟩ := ctx.inv.mem_of_perm hT ht
  by_contra hn
  have hle := not_lt.1 hn
  have H : ∃ q0, inside_closed super0 q0 ∧ (area2 u v q0 * area2 u v w < 0
      ∨ (area2 u v q0 = 0 ∧ strictly_inside super0 q0)) := by
    refine ⟨p, strictly_inside_closed ctx.inside, ?_⟩
    rcases lt_or_eq_of_le hle with h | h
    · exact Or.inl h
    · exact Or.inr ⟨(mul_eq_zero.1 h).resolve_right hnd, ctx.inside⟩
  obtain ⟨T', hT', c, ht', hc⟩ := ctx.inv.adjacent hT ht H
  have hcnd : area2 u v c ≠ 0 := by
    intro h; rw [h, zero_mul] at hc; exact lt_irrefl _ hc
  have hcw : c ≠ w := by
    rintro rfl
    have := mul_self_nonneg (area2 u v c)
    linarith
  have hb' : is_in_circumcircle p T' = true := by
    rcases lt_or_eq_of_le hle with h | h
    · have hp0 : area2 u v p ≠ 0 := by
        intro h0; rw [h0, zero_mul] at h; exact lt_irrefl _ h
      rw [is_in_circumcircle_pencil p ht' hcnd hp0]
      have h1 := (is_in_circumcircle_pencil p ht hnd hp0).1 hb
      have h2 : ¬ area2 u v w * (pencil u v w - pencil u v c) < 0 := by
        rw [← is_in_circumcircle_pencil w ht' hcnd hnd, ctx.inv.empty T' hT' w hwV]
        simp
      exact pencil_far h h1 h2
    · have hp0 : area2 u v p = 0 := (mul_eq_zero.1 h).resolve_right hnd
      rw [is_in_circumcircle_on_line p ht' hcnd hp0]
      exact (is_in_circumcircle_on_line p ht hnd hp0).1 hb
  have := count_two hT hT' hb hb' ht ht' hcw
  omega

/-- No earlier point is strictly inside the circumcircle of a new triangle. -/
theorem new_empty (ctx : GStep V L p) {T : triangle} (hT : T ∈ L)
    (hb : is_in_circumcircle p T = true) {u v w : point} (ht : (vertices T).Perm [u, v, w])
    (hcount : edge_count (bad_triangles p L) (u, v) ≤ 1) {q : point} (hq : q ∈ V) :
    is_in_circumcircle q ⟨p, u, v⟩ = false := by
  have hnd := area2_ne_zero_perm ht (ctx.inv.nondeg T hT).1
  obtain ⟨huV, hvV, hwV⟩ := ctx.inv.mem_of_perm hT ht
  have hside := ctx.poly_side hT hb ht hcount
  have hp0 : area2 u v p ≠ 0 := by
    intro h0; rw [h0, zero_mul] at hside; exact lt_irrefl _ hside
  have hqT := ctx.inv.empty T hT q hq
  rw [← Bool.not_eq_true]
  by_cases hq0 : area2 u v q = 0
  · rw [is_in_circumcircle_on_line q (perm_fan p u v) hp0 hq0,
      ← is_in_circumcircle_on_line q ht hnd hq0, hqT]
    simp
  rw [is_in_circumcircle_pencil q (perm_fan p u v) hp0 hq0]
  have h1 := (is_in_circumcircle_pencil p ht hnd hp0).1 hb
  rcases lt_or_gt_of_ne (mul_ne_zero hq0 hnd) with hneg | hpos
  · have H : ∃ q0, inside_closed super0 q0 ∧ (area2 u v q0 * area2 u v w < 0
        ∨ (area2 u v q0 = 0 ∧ strictly_inside super0 q0)) :=
      ⟨q, ctx.inv.mem_closed hq, Or.inl hneg⟩
    obtain ⟨T', hT', c, ht', hc⟩ := ctx.inv.adjacent hT ht H
    have hcnd : area2 u v c ≠ 0 := by
      intro h; rw [h, zero_mul] at hc; exact lt_irrefl _ hc
    have hcw : c ≠ w := by
      rintro rfl
      have := mul_self_nonneg (area2 u v c)
      linarith
    have hnb : ¬ is_in_circumcircle p T' = true := by
      intro hb'
      have := count_two hT hT' hb hb' ht ht' hcw
      omega
    rw [is_in_circumcircle_pencil p ht' hcnd hp0] at hnb
    have h2 : ¬ area2 u v q * (pencil u v q - pencil u v c) < 0 := by
      rw [← is_in_circumcircle_pencil q ht' hcnd hq0, ctx.inv.empty T' hT' q hq]
      simp
    exact pencil_opp hside hneg hnb h2
  · have h2 : ¬ area2 u v q * (pencil u v q - pencil u v w) < 0 := by
      rw [← is_in_circumcircle_pencil q ht hnd hq0, hqT]
      simp
    exact pencil_near hside hpos h1 h2

/-- What membership in `polygon_edges` gives in a step. -/
theorem hole_edge (ctx : GStep V L p) {e : point × point}
    (he : e ∈ polygon_edges (bad_triangles p L)) :
    ∃ T ∈ L, is_in_circumcircle p T = true ∧ e ∈ triangle_edges T
      ∧ (∃ w, (vertices T).Perm [e.1, e.2, w])
      ∧ edge_count (bad_triangles p L) (e.1, e.2) ≤ 1 := by
  obtain ⟨T, hTb, heT, hcount⟩ := (mem_polygon_edges _ _).1 he
  obtain ⟨hTL, hTbad⟩ := mem_bad_triangles.1 hTb
  have hn := area2_ne_zero_nodup (ctx.inv.nondeg T hTL).1
  obtain ⟨h1, h2⟩ := triangle_edges_vertices heT
  have hne := triangle_edges_ne hn heT
  obtain ⟨w, hw, _, _⟩ := third_vertex hn h1 h2 hne
  exact ⟨T, hTL, hTbad, heT, ⟨w, hw⟩, hcount⟩

end GStep
/-! ## Leaving a triangle along a line -/

/-- Finitely many affine functions that are non-negative at `0`, one of them decreasing,
are all non-negative up to a time at which a decreasing one vanishes. -/
theorem exit_time (F : List (ℚ × ℚ)) (hf : ∀ e ∈ F, 0 ≤ e.1) (hk : ∃ e ∈ F, e.2 < 0) :
    ∃ t, 0 ≤ t ∧ (∀ e ∈ F, 0 ≤ e.1 + t * e.2) ∧ ∃ e ∈ F, e.2 < 0 ∧ e.1 + t * e.2 = 0 := by
  induction F with
  | nil =>
    obtain ⟨e, he, _⟩ := hk
    exact absurd he (List.not_mem_nil _)
  | cons e0 F ih =>
    have hf0 : 0 ≤ e0.1 := hf e0 (List.mem_cons_self _ _)
    have hfF : ∀ e ∈ F, 0 ≤ e.1 := fun e he => hf e (List.mem_cons_of_mem _ he)
    have own : e0.2 < 0 → ∃ t, 0 ≤ t ∧ 0 ≤ e0.1 + t * e0.2 ∧ e0.1 + t * e0.2 = 0 := by
      intro hneg
      have hne : e0.2 ≠ 0 := hneg.ne
      have e : e0.1 / (-e0.2) * e0.2 = - e0.1 := by
        rw [div_neg, neg_mul, div_mul_cancel₀ _ hne]
      exact ⟨e0.1 / (-e0.2), div_nonneg hf0 (by linarith), by linarith, by linarith⟩
    by_cases hF : ∃ e ∈ F, e.2 < 0
    · obtain ⟨t0, ht0, hall, e1, he1, hneg1, hz1⟩ := ih hfF hF
      by_cases hcase : e0.2 < 0 ∧ e0.1 + t0 * e0.2 < 0
      · obtain ⟨t, ht, _, hz⟩ := own hcase.1
        have htt : t ≤ t0 := by
          by_contra hn
          have := mul_lt_mul_of_neg_right (not_le.1 hn) hcase.1
          linarith
        refine ⟨t, ht, ?_, e0, List.mem_cons_self _ _, hcase.1, hz⟩
        intro e he
        rcases List.mem_cons.1 he with rfl | he'
        · linarith
        · by_cases hs : e.2 < 0
          · have h1 := hall e he'
            have h2 := mul_le_mul_of_nonpos_right htt hs.le
            linarith
          · have := mul_nonneg ht (not_lt.1 hs)
            have := hfF e he'
            linarith
      · refine ⟨t0, ht0, ?_, e1, List.mem_cons_of_mem _ he1, hneg1, hz1⟩
        intro e he
        rcases List.mem_cons.1 he with rfl | he'
        · by_cases hs : e.2 < 0
          · by_contra hn
            exact hcase ⟨hs, not_le.1 hn⟩
          · have := mul_nonneg ht0 (not_lt.1 hs)
            linarith
        · exact hall e he'
    · have hneg : e0.2 < 0 := by
        obtain ⟨e, he, hlt⟩ := hk
        rcases List.mem_cons.1 he with rfl | he'
        · exact hlt
        · exact absurd ⟨e, he', hlt⟩ hF
      obtain ⟨t, ht, hnn, hz⟩ := own hneg
      refine ⟨t, ht, ?_, e0, List.mem_cons_self _ _, hneg, hz⟩
      intro e he
      rcases List.mem_cons.1 he with rfl | he'
      · exact hnn
      · have hs : 0 ≤ e.2 := by
          by_contra hn
          exact hF ⟨e, he', not_le.1 hn⟩
        have := mul_nonneg ht hs
        have := hfF e he'
        linarith

/-- Two points with the same coordinates along two edges of a non-degenerate triangle are
equal. -/
theorem eq_of_area2_eq {a b c A B : point} (hnd : area2 a b c ≠ 0)
    (h1 : area2 a b A = area2 a b B) (h2 : area2 b c A = area2 b c B) : A = B := by
  have s1 := area2_sum a b c A
  have s2 := area2_sum a b c B
  have h3 : area2 c a A = area2 c a B := by linarith
  have x1 := bary_x a b c A
  have x2 := bary_x a b c B
  have y1 := bary_y a b c A
  have y2 := bary_y a b c B
  rw [h1, h2, h3] at x1 y1
  apply point_ext
  · exact mul_left_cancel₀ hnd (by linarith)
  · exact mul_left_cancel₀ hnd (by linarith)

/-- A line that meets a closed non-degenerate triangle leaves it through an edge. -/
theorem exists_exit {t : triangle} (hnd : area2 t.a t.b t.c ≠ 0) {A B : point} (hAB : A ≠ B)
    {σ0 : ℚ} (h0 : inside_closed t (lerp A B σ0)) :
    ∃ σ1, σ0 ≤ σ1 ∧ inside_closed t (lerp A B σ1) ∧ ∃ a b c, (vertices t).Perm [a, b, c]
      ∧ area2 a b (lerp A B σ1) = 0
      ∧ ∀ σ, σ1 < σ → area2 a b (lerp A B σ) * area2 a b c < 0 := by
  obtain ⟨a, b, c⟩ := t
  simp only at hnd
  simp only [inside_closed] at h0 ⊢
  set D := area2 a b c with hD
  have aff : ∀ (u v : point) (σ : ℚ), area2 u v (lerp A B σ) * D
      = area2 u v (lerp A B σ0) * D + (σ - σ0) * ((area2 u v B - area2 u v A) * D) := by
    intro u v σ
    rw [area2_lerp, area2_lerp]; ring
  have hsum : (area2 a b B - area2 a b A) * D + (area2 b c B - area2 b c A) * D
      + (area2 c a B - area2 c a A) * D = 0 := by
    have s1 := area2_sum a b c A
    have s2 := area2_sum a b c B
    have : (area2 a b B - area2 a b A) + (area2 b c B - area2 b c A)
        + (area2 c a B - area2 c a A) = 0 := by linarith
    linear_combination D * this
  have hk : ∃ e ∈ [(area2 a b (lerp A B σ0) * D, (area2 a b B - area2 a b A) * D),
      (area2 b c (lerp A B σ0) * D, (area2 b c B - area2 b c A) * D),
      (area2 c a (lerp A B σ0) * D, (area2 c a B - area2 c a A) * D)], e.2 < 0 := by
    by_contra hno
    have n1 : 0 ≤ (area2 a b B - area2 a b A) * D := by
      by_contra hn
      exact hno ⟨(area2 a b (lerp A B σ0) * D, (area2 a b B - area2 a b A) * D), by simp,
        not_le.1 hn⟩
    have n2 : 0 ≤ (area2 b c B - area2 b c A) * D := by
      by_contra hn
      exact hno ⟨(area2 b c (lerp A B σ0) * D, (area2 b c B - area2 b c A) * D), by simp,
        not_le.1 hn⟩
    have n3 : 0 ≤ (area2 c a B - area2 c a A) * D := by
      by_contra hn
      exact hno ⟨(area2 c a (lerp A B σ0) * D, (area2 c a B - area2 c a A) * D), by simp,
        not_le.1 hn⟩
    have z1 : (area2 a b B - area2 a b A) * D = 0 := by linarith
    have z2 : (area2 b c B - area2 b c A) * D = 0 := by linarith
    have e1 : area2 a b A = area2 a b B := by
      have := (mul_eq_zero.1 z1).resolve_right hnd; linarith
    have e2 : area2 b c A = area2 b c B := by
      have := (mul_eq_zero.1 z2).resolve_right hnd; linarith
    exact hAB (eq_of_area2_eq hnd e1 e2)
  obtain ⟨s, hs, hall, e, he, hneg, hz⟩ := exit_time _ (by
    intro e he
    simp only [List.mem_cons, List.mem_singleton, List.not_mem_nil, or_false] at he
    rcases he with rfl | rfl | rfl
    · exact h0.1
    · exact h0.2.1
    · exact h0.2.2) hk
  have hcl : 0 ≤ area2 a b (lerp A B (σ0 + s)) * D ∧ 0 ≤ area2 b c (lerp A B (σ0 + s)) * D
      ∧ 0 ≤ area2 c a (lerp A B (σ0 + s)) * D := by
    have g1 := hall (area2 a b (lerp A B σ0) * D, (area2 a b B - area2 a b A) * D) (by simp)
    have g2 := hall (area2 b c (lerp A B σ0) * D, (area2 b c B - area2 b c A) * D) (by simp)
    have g3 := hall (area2 c a (lerp A B σ0) * D, (area2 c a B - area2 c a A) * D) (by simp)
    simp only at g1 g2 g3
    refine ⟨?_, ?_, ?_⟩
    · rw [aff]; linarith
    · rw [aff]; linarith
    · rw [aff]; linarith
  refine ⟨σ0 + s, by linarith, hcl, ?_⟩
  have fin : ∀ u v : point, (area2 u v B - area2 u v A) * D < 0 →
      area2 u v (lerp A B σ0) * D + s * ((area2 u v B - area2 u v A) * D) = 0 →
      area2 u v (lerp A B (σ0 + s)) = 0
        ∧ ∀ σ, σ0 + s < σ → area2 u v (lerp A B σ) * D < 0 := by
    intro u v hneg hz
    constructor
    · have := aff u v (σ0 + s)
      have e : area2 u v (lerp A B (σ0 + s)) * D = 0 := by
        rw [this]; linarith
      exact (mul_eq_zero.1 e).resolve_right hnd
    · intro σ hσ
      rw [aff u v σ]
      have := mul_lt_mul_of_neg_right (show s < σ - σ0 by linarith) hneg
      linarith
  simp only [List.mem_cons, List.mem_singleton, List.not_mem_nil, or_false] at he
  rcases he with rfl | rfl | rfl
  · obtain ⟨z, out⟩ := fin a b hneg hz
    exact ⟨a, b, c, List.Perm.refl _, z, out⟩
  · obtain ⟨z, out⟩ := fin b c hneg hz
    refine ⟨b, c, a, ?_, z, ?_⟩
    · simp only [vertices]
      rw [List.perm_iff_count]; intro y; simp [List.count_cons]; omega
    · have e : area2 b c a = D := area2_rot a b c
      rw [e]; exact out
  · obtain ⟨z, out⟩ := fin c a hneg hz
    refine ⟨c, a, b, ?_, z, ?_⟩
    · simp only [vertices]
      rw [List.perm_iff_count]; intro y; simp [List.count_cons]; omega
    · have e : area2 c a b = D := (area2_rot c a b).symm
      rw [e]; exact out
/-! ## The new triangles seen from the new point -/

theorem vertex_closed {t : triangle} {v : point} (hv : v ∈ vertices t) :
    inside_closed t v := by
  obtain ⟨a, b, c⟩ := t
  simp only [vertices, List.mem_cons, List.mem_singleton, List.not_mem_nil, or_false] at hv
  have e1 : area2 b c a = area2 a b c := area2_rot a b c
  have e2 : area2 c a b = area2 a b c := (area2_rot c a b).symm
  have z1 : area2 a b a = 0 := by simp only [area2]; ring
  have z2 : area2 a b b = 0 := by simp only [area2]; ring
  have z3 : area2 b c b = 0 := by simp only [area2]; ring
  have z4 : area2 b c c = 0 := by simp only [area2]; ring
  have z5 : area2 c a c = 0 := by simp only [area2]; ring
  have z6 : area2 c a a = 0 := by simp only [area2]; ring
  have hsq := mul_self_nonneg (area2 a b c)
  simp only [inside_closed]
  rcases hv with rfl | rfl | rfl
  · rw [z1, e1, z6]; simp [hsq]
  · rw [z2, z3, e2]; simp [hsq]
  · rw [z4, z5]; simp [hsq]

/-- A point of the segment from `p` to an interior point of the edge `u v` is strictly
inside the triangle `p u v`. -/
theorem cone_of_param {p u v : point} (hnd : area2 p u v ≠ 0) {τ s : ℚ} (hτ0 : 0 < τ)
    (hτ1 : τ < 1) (hs0 : 0 < s) (hs1 : s < 1) :
    strictly_inside ⟨p, u, v⟩ (lerp p (lerp u v τ) s) := by
  rw [strictly_inside_iff]
  simp only
  have hD2 : 0 < area2 p u v * area2 p u v := mul_self_pos.2 hnd
  have e1 : area2 p u (lerp p (lerp u v τ) s) = s * τ * area2 p u v := by
    simp only [area2, lerp]; ring
  have e2 : area2 u v (lerp p (lerp u v τ) s) = (1 - s) * area2 p u v := by
    simp only [area2, lerp]; ring
  have e3 : area2 v p (lerp p (lerp u v τ) s) = s * (1 - τ) * area2 p u v := by
    simp only [area2, lerp]; ring
  rw [e1, e2, e3]
  refine ⟨?_, ?_, ?_⟩
  · have := mul_pos (mul_pos hs0 hτ0) hD2
    linarith
  · have := mul_pos (show 0 < 1 - s by linarith) hD2
    linarith
  · have := mul_pos (mul_pos hs0 (show 0 < 1 - τ by linarith)) hD2
    linarith

theorem lerp_ray (p x : point) {σ1 : ℚ} (h : σ1 ≠ 0) (σ2 : ℚ) :
    lerp p (lerp p x σ1) (σ2 / σ1) = lerp p x σ2 := by
  rw [lerp_lerp, div_mul_cancel₀ _ h]

theorem cone_of_ray {p u v x : point} (hnd : area2 p u v ≠ 0) {τ σ : ℚ} (hτ0 : 0 < τ)
    (hτ1 : τ < 1) (hσ : 1 < σ) (h : lerp p x σ = lerp u v τ) :
    strictly_inside ⟨p, u, v⟩ x := by
  have hσ0 : σ ≠ 0 := by linarith
  have e := lerp_ray p x hσ0 1
  rw [lerp_one, h] at e
  rw [← e]
  exact cone_of_param hnd hτ0 hτ1 (by positivity) (by rw [div_lt_one (by linarith)]; exact hσ)

/-- A point strictly inside the triangle `p u v` is on a segment from `p` to an interior
point of the edge `u v`. -/
theorem ray_of_cone {p u v x : point} (h : strictly_inside ⟨p, u, v⟩ x) :
    ∃ σ τ : ℚ, 1 < σ ∧ 0 < τ ∧ τ < 1 ∧ lerp p x σ = lerp u v τ := by
  have hnd : area2 p u v ≠ 0 := strictly_inside_nondeg h
  rw [strictly_inside_iff] at h
  simp only at h
  obtain ⟨hC, hA, hB⟩ := h
  have hsum := area2_sum p u v x
  have hx := bary_x p u v x
  have hy := bary_y p u v x
  have hD2 : 0 < area2 p u v * area2 p u v := mul_self_pos.2 hnd
  have hBC : 0 < (area2 v p x + area2 p u x) * area2 p u v := by linarith
  have hBCne : area2 v p x + area2 p u x ≠ 0 := by
    intro h0; rw [h0, zero_mul] at hBC; exact lt_irrefl _ hBC
  have hBCsq : 0 < (area2 v p x + area2 p u x) * (area2 v p x + area2 p u x) :=
    mul_self_pos.2 hBCne
  have q1 : 0 < area2 u v x * (area2 v p x + area2 p u x) := by
    have := side_pos_pos hA (by rw [mul_comm]; exact hBC)
    exact this
  have q2 : 0 < area2 p u x * (area2 v p x + area2 p u x) :=
    side_pos_pos hC (by rw [mul_comm]; exact hBC)
  have q3 : 0 < area2 v p x * (area2 v p x + area2 p u x) :=
    side_pos_pos hB (by rw [mul_comm]; exact hBC)
  refine ⟨area2 p u v / (area2 v p x + area2 p u x),
    area2 p u x / (area2 v p x + area2 p u x), ?_, ?_, ?_, ?_⟩
  · rw [← sub_pos]
    have e : area2 p u v / (area2 v p x + area2 p u x) - 1
        = area2 u v x * (area2 v p x + area2 p u x)
          / ((area2 v p x + area2 p u x) * (area2 v p x + area2 p u x)) := by
      field_simp
      linear_combination
        (-((area2 v p x + area2 p u x) * (area2 v p x + area2 p u x))) * hsum
    rw [e]
    exact div_pos q1 hBCsq
  · have e : area2 p u x / (area2 v p x + area2 p u x)
        = area2 p u x * (area2 v p x + area2 p u x)
          / ((area2 v p x + area2 p u x) * (area2 v p x + area2 p u x)) := by
      field_simp
      ring
    rw [e]
    exact div_pos q2 hBCsq
  · rw [← sub_pos]
    have e : 1 - area2 p u x / (area2 v p x + area2 p u x)
        = area2 v p x * (area2 v p x + area2 p u x)
          / ((area2 v p x + area2 p u x) * (area2 v p x + area2 p u x)) := by
      field_simp; ring
    rw [e]
    exact div_pos q3 hBCsq
  · apply point_ext
    · simp only [lerp]
      field_simp
      linear_combination hx + p.x * hsum
    · simp only [lerp]
      field_simp
      linear_combination hy + p.y * hsum

namespace GStep

variable {V : List point} {L : List triangle} {p : point}

/-- The cavity is star-shaped around the new point, along a ray from it. -/
theorem bad_of_ray (ctx : GStep V L p) {T1 T2 : triangle} (h1 : T1 ∈ L) (h2 : T2 ∈ L)
    (hb : is_in_circumcircle p T1 = true) {x : point} {σ1 σ2 : ℚ} (h0 : 0 ≤ σ2)
    (h12 : σ2 < σ1) (hz : inside_closed T1 (lerp p x σ1))
    (hx : inside_closed T2 (lerp p x σ2)) : is_in_circumcircle p T2 = true := by
  have hσ1 : 0 < σ1 := lt_of_le_of_lt h0 h12
  apply bad_of_segment T1 T2 (ctx.inv.nondeg T1 h1).1 (ctx.inv.nondeg T2 h2).1
    (fun v hv => ctx.inv.empty T2 h2 v ((ctx.inv.nondeg T1 h1).2 v hv))
    (fun v hv => ctx.inv.empty T1 h1 v ((ctx.inv.nondeg T2 h2).2 v hv))
    p (lerp p x σ1) (σ2 / σ1) (div_nonneg h0 hσ1.le) ((div_lt_one hσ1).2 h12) hz ?_ hb
  rw [lerp_ray p x hσ1.ne']
  exact hx

end GStep
/-! ## A ray from the new point -/

theorem side_neg_pos {x y z : ℚ} (h1 : x * y < 0) (h2 : 0 < y * z) : x * z < 0 := by
  have hy : y ≠ 0 := by rintro rfl; simp at h1
  have h := mul_neg_of_neg_of_pos h1 h2
  have e : x * y * (y * z) = (y * y) * (x * z) := by ring
  rw [e] at h
  exact neg_of_pos_mul (mul_self_pos.2 hy) h

/-- The side of the line `u v` along a ray that meets the line at the parameter `σ1`. -/
theorem ray_side {p x u v : point} {σ1 : ℚ} (h0 : area2 u v (lerp p x σ1) = 0) (σ : ℚ) :
    σ1 * area2 u v (lerp p x σ) = area2 u v p * (σ1 - σ) := by
  rw [area2_lerp] at h0 ⊢
  linear_combination σ * h0

/-- Next to the point where a ray meets an edge in its interior, on the side of the third
vertex, the points of the ray off the lines of `W` are strictly inside the triangle. -/
theorem near_hit {W : List point} {T : triangle} {u v c p x : point} {σ τ ε : ℚ}
    (ht : (vertices T).Perm [u, v, c]) (hv : ∀ y ∈ vertices T, y ∈ W)
    (hnd : area2 u v c ≠ 0) (hτ0 : 0 < τ) (hτ1 : τ < 1) (hm : lerp p x σ = lerp u v τ)
    (hσ : 0 < σ) (hside : 0 < (σ - ε) * (area2 u v p * area2 u v c))
    (hg : generic W (lerp p x ε)) (hcell : weak_cell W (lerp p x σ) (lerp p x ε)) :
    strictly_inside T (lerp p x ε) := by
  have h0 : area2 u v (lerp p x σ) = 0 := by rw [hm]; exact area2_lerp_self u v τ
  have hr := ray_side h0 ε
  have hs : 0 < area2 u v (lerp p x ε) * area2 u v c := by
    apply pos_of_pos_mul hσ
    have e : σ * (area2 u v (lerp p x ε) * area2 u v c)
        = (σ - ε) * (area2 u v p * area2 u v c) := by
      linear_combination area2 u v c * hr
    rw [e]; exact hside
  rw [hm] at hcell
  exact near_edge ht hv hnd hτ0 hτ1 hs hcell hg

theorem exists_pair_of_two_le_countP {α : Type} (P : α → Bool) (l : List α)
    (h : 2 ≤ l.countP P) : ∃ a b, [a, b].Sublist l ∧ P a = true ∧ P b = true := by
  rw [List.countP_eq_length_filter] at h
  match hf : l.filter P, h with
  | a :: b :: rest, _ =>
    have ha : a ∈ l.filter P := by rw [hf]; simp
    have hb : b ∈ l.filter P := by rw [hf]; simp
    refine ⟨a, b, ?_, (List.mem_filter.1 ha).2, (List.mem_filter.1 hb).2⟩
    have h1 : [a, b].Sublist (a :: b :: rest) :=
      List.Sublist.cons₂ _ (List.Sublist.cons₂ _ (List.nil_sublist _))
    rw [← hf] at h1
    exact h1.trans (List.filter_sublist _)

theorem exists_max_rat (C : List ℚ) (P : ℚ → Prop) (h : ∃ c ∈ C, P c) :
    ∃ c ∈ C, P c ∧ ∀ d ∈ C, P d → d ≤ c := by
  induction C with
  | nil =>
    obtain ⟨c, hc, _⟩ := h
    exact absurd hc (List.not_mem_nil _)
  | cons c0 C ih =>
    by_cases hC : ∃ c ∈ C, P c
    · obtain ⟨c, hc, hP, hmax⟩ := ih hC
      by_cases h0 : P c0 ∧ c < c0
      · refine ⟨c0, List.mem_cons_self _ _, h0.1, ?_⟩
        intro d hd hPd
        rcases List.mem_cons.1 hd with rfl | hd'
        · exact le_refl _
        · exact (hmax d hd' hPd).trans h0.2.le
      · refine ⟨c, List.mem_cons_of_mem _ hc, hP, ?_⟩
        intro d hd hPd
        rcases List.mem_cons.1 hd with rfl | hd'
        · by_contra hn
          exact h0 ⟨hPd, not_le.1 hn⟩
        · exact hmax d hd' hPd
    · obtain ⟨c, hc, hP⟩ := h
      rcases List.mem_cons.1 hc with rfl | hc'
      · refine ⟨c, List.mem_cons_self _ _, hP, ?_⟩
        intro d hd hPd
        rcases List.mem_cons.1 hd with rfl | hd'
        · exact le_refl _
        · exact absurd ⟨d, hd', hPd⟩ hC
      · exact absurd ⟨c, hc', hP⟩ hC

theorem generic_tail {V : List point} {p x : point} (hg : generic (p :: V) x) :
    generic V x := fun a ha b hb hab =>
  hg a (List.mem_cons_of_mem _ ha) b (List.mem_cons_of_mem _ hb) hab

namespace GInv

variable {V : List point} {L : List triangle}

/-- No two triangles of the list have a common interior point off the lines of `V`. -/
theorem pairwise_disj (inv : GInv V L) :
    L.Pairwise (fun T U => ∀ y, strictly_inside super0 y → generic V y →
      ¬ (strictly_inside T y ∧ strictly_inside U y)) := by
  rw [List.pairwise_iff_forall_sublist]
  intro T U hsub y hy hg ⟨h1, h2⟩
  have hle := hsub.countP_le (fun T => decide (strictly_inside T y))
  rw [inv.cover y hy hg] at hle
  simp [List.countP_cons, h1, h2] at hle

end GInv

namespace GStep

variable {V : List point} {L : List triangle} {p : point}

/-- The ray from the new point through a point off the lines passes through no earlier
point. -/
theorem ray_ne (ctx : GStep V L p) {x : point} (hg : generic (p :: V) x) {u : point}
    (hu : u ∈ V) (σ : ℚ) : lerp p x σ ≠ u := by
  intro h
  have hpu : p ≠ u := fun e => ctx.fresh (e ▸ hu)
  apply hg p (List.mem_cons_self _ _) u (List.mem_cons_of_mem _ hu) hpu
  rw [← h]
  simp only [area2, lerp]; ring

/-- A triangle that contains a point of a new triangle was bad. -/
theorem bad_of_fan (ctx : GStep V L p) {x : point} {T Tx : triangle} {u v w : point}
    (hT : T ∈ L) (hb : is_in_circumcircle p T = true) (ht : (vertices T).Perm [u, v, w])
    (hx : strictly_inside ⟨p, u, v⟩ x) (hTx : Tx ∈ L) (hxT : inside_closed Tx x) :
    is_in_circumcircle p Tx = true := by
  obtain ⟨σ, τ, hσ, hτ0, hτ1, hm⟩ := ray_of_cone hx
  have hcl : inside_closed T (lerp p x σ) := by
    rw [hm]
    exact inside_closed_lerp (vertex_closed (ht.symm.subset (by simp)))
      (vertex_closed (ht.symm.subset (by simp))) hτ0.le hτ1.le
  apply ctx.bad_of_ray hT hTx hb (by norm_num : (0 : ℚ) ≤ 1) hσ hcl
  rw [lerp_one]
  exact hxT

/-- Beyond the point where the ray meets an edge of the polygonal hole in its interior, the
ray meets no bad triangle. -/
theorem no_later_hit (ctx : GStep V L p) {x : point} {T1 T2 : triangle} {u v w : point}
    {σ1 τ σ2 : ℚ} (hT1 : T1 ∈ L) (hb1 : is_in_circumcircle p T1 = true)
    (ht1 : (vertices T1).Perm [u, v, w])
    (hc1 : edge_count (bad_triangles p L) (u, v) ≤ 1) (hσ1 : 0 < σ1) (hτ0 : 0 < τ)
    (hτ1 : τ < 1) (hm1 : lerp p x σ1 = lerp u v τ) (hT2 : T2 ∈ L)
    (hb2 : is_in_circumcircle p T2 = true) (h12 : σ1 < σ2)
    (hm2 : inside_closed T2 (lerp p x σ2)) : False := by
  have hside := ctx.poly_side hT1 hb1 ht1 hc1
  have h0 : area2 u v (lerp p x σ1) = 0 := by rw [hm1]; exact area2_lerp_self u v τ
  have hr := ray_side h0 σ2
  have hp0 : area2 u v p ≠ 0 := by
    intro h; rw [h, zero_mul] at hside; exact lt_irrefl _ hside
  have hfar : area2 u v (lerp p x σ2) * area2 u v w < 0 := by
    apply side_neg_pos _ hside
    apply neg_of_pos_mul hσ1
    have e : σ1 * (area2 u v (lerp p x σ2) * area2 u v p)
        = (area2 u v p * area2 u v p) * (σ1 - σ2) := by
      linear_combination area2 u v p * hr
    rw [e]
    exact mul_neg_of_pos_of_neg (mul_self_pos.2 hp0) (by linarith)
  obtain ⟨T', hT', c, ht', hc⟩ := ctx.inv.adjacent hT1 ht1
    ⟨lerp p x σ2, ctx.inv.triangle_closed hT2 hm2, Or.inl hfar⟩
  have hcw : c ≠ w := by
    rintro rfl
    have := mul_self_nonneg (area2 u v c)
    linarith
  have hcl : inside_closed T' (lerp p x σ1) := by
    rw [hm1]
    exact inside_closed_lerp (vertex_closed (ht'.symm.subset (by simp)))
      (vertex_closed (ht'.symm.subset (by simp))) hτ0.le hτ1.le
  have hb' := ctx.bad_of_ray hT2 hT' hb2 hσ1.le h12 hm2 hcl
  have := count_two hT1 hT' hb1 hb' ht1 ht' hcw
  omega

end GStep
namespace GStep

variable {V : List point} {L : List triangle} {p : point}

/-- Along the ray from the new point through a point off the lines, a triangle that meets
the ray is left through an edge, at a crossing parameter. -/
theorem exit_crossing (ctx : GStep V L p) {x : point} (hg : generic (p :: V) x)
    {T : triangle} (hT : T ∈ L) {σ0 : ℚ} (h0 : inside_closed T (lerp p x σ0)) :
    ∃ σ1, σ0 ≤ σ1 ∧ σ1 ∈ crossings V p x ∧ inside_closed T (lerp p x σ1)
      ∧ ∃ a b c, (vertices T).Perm [a, b, c] ∧ area2 a b (lerp p x σ1) = 0
        ∧ ∀ σ, σ1 < σ → area2 a b (lerp p x σ) * area2 a b c < 0 := by
  have hgV := generic_tail hg
  have hpx : p ≠ x := by
    intro h
    obtain ⟨hu, -, -⟩ := ctx.inv.mem_of_perm hT (List.Perm.refl _)
    exact ctx.ray_ne hg hu 0 (by
      exfalso
      apply hg p (List.mem_cons_self _ _) T.a (List.mem_cons_of_mem _ hu)
        (fun e => ctx.fresh (e ▸ hu))
      rw [← h]; simp only [area2]; ring)
  obtain ⟨σ1, h01, hcl, a, b, c, hperm, hz, hout⟩ :=
    exists_exit (ctx.inv.nondeg T hT).1 hpx h0
  refine ⟨σ1, h01, ?_, hcl, a, b, c, hperm, hz, hout⟩
  obtain ⟨ha, hb, -⟩ := ctx.inv.mem_of_perm hT hperm
  have hnd := area2_ne_zero_perm hperm (ctx.inv.nondeg T hT).1
  have hab : a ≠ b := by
    have := area2_ne_zero_nodup hnd
    simp only [List.nodup_cons, List.mem_cons, List.mem_singleton, List.not_mem_nil, or_false,
      not_or, List.nodup_nil, and_true, not_false_eq_true] at this
    exact this.1.1
  have hne : area2 a b p ≠ area2 a b x := by
    intro he
    have hz' := hz
    rw [area2_lerp, he] at hz'
    exact hgV a ha b hb hab (by linarith)
  exact eq_cross_param hz hne ▸ mem_crossings ha hb

/-- A point off the lines in a bad triangle is strictly inside a new triangle. -/
theorem exists_fan (ctx : GStep V L p) {x : point} (hg : generic (p :: V) x)
    {Tx : triangle} (hTx : Tx ∈ L) (hxT : strictly_inside Tx x)
    (hbad : is_in_circumcircle p Tx = true) :
    ∃ e ∈ polygon_edges (bad_triangles p L), strictly_inside ⟨p, e.1, e.2⟩ x := by
  have hgV := generic_tail hg
  have hne : ∀ a ∈ V, ∀ b ∈ V, a ≠ b → area2 a b p ≠ 0 ∨ area2 a b x ≠ 0 :=
    fun a ha b hb hab => Or.inr (hgV a ha b hb hab)
  -- the last parameter at which the ray is in a bad triangle
  have hex : ∃ σ ∈ crossings V p x, 1 < σ ∧ ∃ T ∈ L, is_in_circumcircle p T = true
      ∧ inside_closed T (lerp p x σ) := by
    obtain ⟨σ1, h01, hC, hcl, a, b, c, hperm, hz, -⟩ :=
      ctx.exit_crossing hg hTx
        (show inside_closed Tx (lerp p x 1) by rw [lerp_one]; exact strictly_inside_closed hxT)
    refine ⟨σ1, hC, lt_of_le_of_ne h01 ?_, Tx, hTx, hbad, hcl⟩
    rintro rfl
    rw [lerp_one] at hz
    obtain ⟨ha, hb, -⟩ := ctx.inv.mem_of_perm hTx hperm
    have hnd := area2_ne_zero_perm hperm (ctx.inv.nondeg Tx hTx).1
    have hab : a ≠ b := by
      have := area2_ne_zero_nodup hnd
      simp only [List.nodup_cons, List.mem_cons, List.mem_singleton, List.not_mem_nil,
        or_false, not_or, List.nodup_nil, and_true, not_false_eq_true] at this
      exact this.1.1
    exact hgV a ha b hb hab hz
  obtain ⟨σ, hσC, ⟨hσ1, T, hT, hb, hcl⟩, hmax⟩ := exists_max_rat _ _ hex
  have hσ0 : 0 < σ := by linarith
  obtain ⟨σ', h01, hC', hcl', u, v, w, ht, hz, hout⟩ := ctx.exit_crossing hg hT hcl
  have hσσ : σ' = σ :=
    le_antisymm (hmax σ' hC' ⟨by linarith, T, hT, hb, hcl'⟩) h01
  subst hσσ
  obtain ⟨huV, hvV, hwV⟩ := ctx.inv.mem_of_perm hT ht
  have hnd := area2_ne_zero_perm ht (ctx.inv.nondeg T hT).1
  have hD2 : 0 < area2 u v w * area2 u v w := mul_self_pos.2 hnd
  have huv : u ≠ v := by
    have := area2_ne_zero_nodup hnd
    simp only [List.nodup_cons, List.mem_cons, List.mem_singleton, List.not_mem_nil, or_false,
      not_or, List.nodup_nil, and_true, not_false_eq_true] at this
    exact this.1.1
  -- the new point is on the inner side of the edge
  have hside : 0 < area2 u v p * area2 u v w := by
    have h1 := hout (σ' + 1) (by linarith)
    have hr := ray_side hz (σ' + 1)
    have e : area2 u v p * area2 u v w
        = - (σ' * (area2 u v (lerp p x (σ' + 1)) * area2 u v w)) := by
      linear_combination (area2 u v w) * hr
    rw [e]
    have := mul_neg_of_pos_of_neg hσ0 h1
    linarith
  have hp0 : area2 u v p ≠ 0 := by
    intro h; rw [h, zero_mul] at hside; exact lt_irrefl _ hside
  -- the ray meets the edge in its interior
  obtain ⟨τ, hm⟩ := exists_param_of_collinear huv hz
  have hclp := (inside_closed_perm ht _).1 hcl'
  rw [hm] at hclp
  obtain ⟨-, c2, c3⟩ := hclp
  simp only at c2 c3
  have e2 : area2 v w (lerp u v τ) = (1 - τ) * area2 u v w := by
    simp only [area2, lerp]; ring
  have e3 : area2 w u (lerp u v τ) = τ * area2 u v w := by
    simp only [area2, lerp]; ring
  rw [e2] at c2
  rw [e3] at c3
  have hτ0 : 0 < τ := by
    have h : 0 ≤ τ := by
      have : 0 ≤ (area2 u v w * area2 u v w) * τ := by linarith
      exact nonneg_of_mul_nonneg_right this hD2
    refine lt_of_le_of_ne h ?_
    rintro rfl
    rw [lerp_zero] at hm
    exact ctx.ray_ne hg huV σ' hm
  have hτ1 : τ < 1 := by
    have h : 0 ≤ 1 - τ := by
      have : 0 ≤ (area2 u v w * area2 u v w) * (1 - τ) := by linarith
      exact nonneg_of_mul_nonneg_right this hD2
    refine lt_of_le_of_ne (by linarith) ?_
    rintro rfl
    rw [lerp_one] at hm
    exact ctx.ray_ne hg hvV σ' hm
  -- no other bad triangle has the edge
  have hfar : ∀ T' ∈ L, is_in_circumcircle p T' = true → ∀ c,
      (vertices T').Perm [u, v, c] → ¬ area2 u v c * area2 u v w < 0 := by
    intro T' hT' hb' c ht' hc
    obtain ⟨ε, hε0, -, hgε, hcell⟩ :=
      exists_generic_after V p x hne σ' (σ' + 1) (by linarith)
    have hcnd : area2 u v c ≠ 0 := by
      intro h; rw [h, zero_mul] at hc; exact lt_irrefl _ hc
    have hin : strictly_inside T' (lerp p x ε) := by
      apply near_hit ht' (ctx.inv.nondeg T' hT').2 hcnd hτ0 hτ1 hm hσ0 _ hgε
        (hcell σ' le_rfl hε0.le)
      have h1 : area2 u v p * area2 u v c < 0 :=
        side_pos_neg hside (by rw [mul_comm]; exact hc)
      exact mul_pos_of_neg_of_neg (by linarith) h1
    obtain ⟨σ1, h1, hC1, hcl1, -⟩ := ctx.exit_crossing hg hT' (strictly_inside_closed hin)
    have := hmax σ1 hC1 ⟨by linarith, T', hT', hb', hcl1⟩
    linarith
  have hcount : edge_count (bad_triangles p L) (u, v) ≤ 1 := by
    by_contra hn
    obtain ⟨T1, T2, hsub, hP1, hP2⟩ := exists_pair_of_two_le_countP _ _
      (show 2 ≤ edge_count (bad_triangles p L) (u, v) by omega)
    simp only [Bool.and_eq_true, is_triangle_vertex_iff] at hP1 hP2
    have hsubL : [T1, T2].Sublist L := hsub.trans (List.filter_sublist _)
    have hdisj := (List.pairwise_iff_forall_sublist.1 ctx.inv.pairwise_disj) hsubL
    have hT1b : T1 ∈ bad_triangles p L := hsub.subset (by simp)
    have hT2b : T2 ∈ bad_triangles p L := hsub.subset (by simp)
    obtain ⟨hT1, hb1⟩ := mem_bad_triangles.1 hT1b
    obtain ⟨hT2, hb2⟩ := mem_bad_triangles.1 hT2b
    obtain ⟨c1, ht1, -, -⟩ := third_vertex
      (area2_ne_zero_nodup (ctx.inv.nondeg T1 hT1).1) hP1.1 hP1.2 huv
    obtain ⟨c2, ht2, -, -⟩ := third_vertex
      (area2_ne_zero_nodup (ctx.inv.nondeg T2 hT2).1) hP2.1 hP2.2 huv
    have hn1 := area2_ne_zero_perm ht1 (ctx.inv.nondeg T1 hT1).1
    have hn2 := area2_ne_zero_perm ht2 (ctx.inv.nondeg T2 hT2).1
    have hs1 : 0 < area2 u v c1 * area2 u v w :=
      lt_of_le_of_ne (not_lt.1 (hfar T1 hT1 hb1 c1 ht1)) (Ne.symm (mul_ne_zero hn1 hnd))
    have hs2 : 0 < area2 u v c2 * area2 u v w :=
      lt_of_le_of_ne (not_lt.1 (hfar T2 hT2 hb2 c2 ht2)) (Ne.symm (mul_ne_zero hn2 hnd))
    obtain ⟨ε, hε0, hε1, hgε, hcell⟩ := exists_generic_before V p x hne 0 σ' hσ0
    have hin1 : strictly_inside T1 (lerp p x ε) := by
      apply near_hit ht1 (ctx.inv.nondeg T1 hT1).2 hn1 hτ0 hτ1 hm hσ0 _ hgε
        (hcell σ' hε1.le le_rfl)
      exact mul_pos (by linarith) (side_pos_pos hside (by rw [mul_comm]; exact hs1))
    have hin2 : strictly_inside T2 (lerp p x ε) := by
      apply near_hit ht2 (ctx.inv.nondeg T2 hT2).2 hn2 hτ0 hτ1 hm hσ0 _ hgε
        (hcell σ' hε1.le le_rfl)
      exact mul_pos (by linarith) (side_pos_pos hside (by rw [mul_comm]; exact hs2))
    have hs := ctx.inv.strict_of_generic hgε
      (ctx.inv.triangle_closed hT1 (strictly_inside_closed hin1))
    exact hdisj _ hs hgε ⟨hin1, hin2⟩
  -- the edge as it is stored
  have hTb : T ∈ bad_triangles p L := mem_bad_triangles.2 ⟨hT, hb⟩
  rcases edge_of_vertices (ht.symm.subset (by simp : u ∈ [u, v, w]))
    (ht.symm.subset (by simp : v ∈ [u, v, w])) huv with he | he
  · refine ⟨(u, v), (mem_polygon_edges _ _).2 ⟨T, hTb, he, hcount⟩, ?_⟩
    have hnd' : area2 p u v ≠ 0 := by
      rw [← area2_rot p u v]; exact hp0
    exact cone_of_ray hnd' hτ0 hτ1 hσ1 hm
  · refine ⟨(v, u), (mem_polygon_edges _ _).2 ⟨T, hTb, he, ?_⟩, ?_⟩
    · rw [← edge_count_symm]; exact hcount
    · have hnd' : area2 p v u ≠ 0 := by
        have e : area2 p v u = - area2 u v p := by simp only [area2]; ring
        rw [e]; exact neg_ne_zero.2 hp0
      rw [lerp_symm u v] at hm
      exact cone_of_ray hnd' (by linarith) (by linarith) hσ1 hm

end GStep
namespace GStep

variable {V : List point} {L : List triangle} {p : point}

/-- Two edges of the polygonal hole whose new triangles contain the same point off the
lines are met by the ray through that point at the same parameter. -/
theorem two_hits (ctx : GStep V L p) {x : point} {T1 T2 : triangle}
    {u1 v1 w1 u2 v2 w2 : point} (hT1 : T1 ∈ L) (hb1 : is_in_circumcircle p T1 = true)
    (ht1 : (vertices T1).Perm [u1, v1, w1])
    (hc1 : edge_count (bad_triangles p L) (u1, v1) ≤ 1) (hT2 : T2 ∈ L)
    (hb2 : is_in_circumcircle p T2 = true) (ht2 : (vertices T2).Perm [u2, v2, w2])
    (hc2 : edge_count (bad_triangles p L) (u2, v2) ≤ 1)
    (hx1 : strictly_inside ⟨p, u1, v1⟩ x) (hx2 : strictly_inside ⟨p, u2, v2⟩ x) :
    ∃ σ τ1 τ2 : ℚ, 1 < σ ∧ 0 < τ1 ∧ τ1 < 1 ∧ 0 < τ2 ∧ τ2 < 1
      ∧ lerp p x σ = lerp u1 v1 τ1 ∧ lerp p x σ = lerp u2 v2 τ2 := by
  obtain ⟨σ1, τ1, hσ1, h10, h11, hm1⟩ := ray_of_cone hx1
  obtain ⟨σ2, τ2, hσ2, h20, h21, hm2⟩ := ray_of_cone hx2
  have cl1 : inside_closed T1 (lerp p x σ1) := by
    rw [hm1]
    exact inside_closed_lerp (vertex_closed (ht1.symm.subset (by simp)))
      (vertex_closed (ht1.symm.subset (by simp))) h10.le h11.le
  have cl2 : inside_closed T2 (lerp p x σ2) := by
    rw [hm2]
    exact inside_closed_lerp (vertex_closed (ht2.symm.subset (by simp)))
      (vertex_closed (ht2.symm.subset (by simp))) h20.le h21.le
  rcases lt_trichotomy σ1 σ2 with h | h | h
  · exact (ctx.no_later_hit hT1 hb1 ht1 hc1 (by linarith) h10 h11 hm1 hT2 hb2 h cl2).elim
  · subst h
    exact ⟨σ1, τ1, τ2, hσ1, h10, h11, h20, h21, hm1, hm2⟩
  · exact (ctx.no_later_hit hT2 hb2 ht2 hc2 (by linarith) h20 h21 hm2 hT1 hb1 h cl1).elim

/-- New triangles on edges of two different bad triangles have no common point off the
lines. -/
theorem fan_disjoint (ctx : GStep V L p) {x : point} (hg : generic (p :: V) x)
    {T1 T2 : triangle} {u1 v1 w1 u2 v2 w2 : point} (hT1 : T1 ∈ L)
    (hb1 : is_in_circumcircle p T1 = true) (ht1 : (vertices T1).Perm [u1, v1, w1])
    (hc1 : edge_count (bad_triangles p L) (u1, v1) ≤ 1) (hT2 : T2 ∈ L)
    (hb2 : is_in_circumcircle p T2 = true) (ht2 : (vertices T2).Perm [u2, v2, w2])
    (hc2 : edge_count (bad_triangles p L) (u2, v2) ≤ 1)
    (hdisj : ∀ y, strictly_inside super0 y → generic V y →
      ¬ (strictly_inside T1 y ∧ strictly_inside T2 y))
    (hx1 : strictly_inside ⟨p, u1, v1⟩ x) (hx2 : strictly_inside ⟨p, u2, v2⟩ x) : False := by
  obtain ⟨σ, τ1, τ2, hσ, h10, h11, h20, h21, hm1, hm2⟩ :=
    ctx.two_hits hT1 hb1 ht1 hc1 hT2 hb2 ht2 hc2 hx1 hx2
  have hgV := generic_tail hg
  have hne : ∀ a ∈ V, ∀ b ∈ V, a ≠ b → area2 a b p ≠ 0 ∨ area2 a b x ≠ 0 :=
    fun a ha b hb hab => Or.inr (hgV a ha b hb hab)
  have hσ0 : 0 < σ := by linarith
  obtain ⟨ε, hε0, hε1, hgε, hcell⟩ := exists_generic_before V p x hne 0 σ hσ0
  have hn1 := area2_ne_zero_perm ht1 (ctx.inv.nondeg T1 hT1).1
  have hn2 := area2_ne_zero_perm ht2 (ctx.inv.nondeg T2 hT2).1
  have hin1 : strictly_inside T1 (lerp p x ε) :=
    near_hit ht1 (ctx.inv.nondeg T1 hT1).2 hn1 h10 h11 hm1 hσ0
      (mul_pos (by linarith) (ctx.poly_side hT1 hb1 ht1 hc1)) hgε (hcell σ hε1.le le_rfl)
  have hin2 : strictly_inside T2 (lerp p x ε) :=
    near_hit ht2 (ctx.inv.nondeg T2 hT2).2 hn2 h20 h21 hm2 hσ0
      (mul_pos (by linarith) (ctx.poly_side hT2 hb2 ht2 hc2)) hgε (hcell σ hε1.le le_rfl)
  have hs := ctx.inv.strict_of_generic hgε
    (ctx.inv.triangle_closed hT1 (strictly_inside_closed hin1))
  exact hdisj _ hs hgε ⟨hin1, hin2⟩

/-- New triangles on two different edges of one bad triangle have no common point. -/
theorem fan_disjoint_same (ctx : GStep V L p) {x : point} {T : triangle} (hT : T ∈ L)
    (hb : is_in_circumcircle p T = true) :
    (triangle_edges T).Pairwise (fun e1 e2 =>
      edge_count (bad_triangles p L) e1 ≤ 1 → edge_count (bad_triangles p L) e2 ≤ 1 →
      ¬ (strictly_inside ⟨p, e1.1, e1.2⟩ x ∧ strictly_inside ⟨p, e2.1, e2.2⟩ x)) := by
  have hnd := (ctx.inv.nondeg T hT).1
  have p1 : (vertices T).Perm [T.a, T.b, T.c] := List.Perm.refl _
  have p2 : (vertices T).Perm [T.b, T.c, T.a] := by
    simp only [vertices]
    rw [List.perm_iff_count]; intro y; simp [List.count_cons]; omega
  have p3 : (vertices T).Perm [T.c, T.a, T.b] := by
    simp only [vertices]
    rw [List.perm_iff_count]; intro y; simp [List.count_cons]; omega
  simp only [triangle_edges, List.pairwise_cons, List.mem_cons, List.mem_singleton,
    List.not_mem_nil, or_false, forall_eq_or_imp, forall_eq, IsEmpty.forall_iff,
    implies_true, List.Pairwise.nil, and_true]
  refine ⟨⟨?_, ?_⟩, ?_⟩
  · rintro hc1 hc2 ⟨hx1, hx2⟩
    obtain ⟨σ, τ1, τ2, -, h10, h11, h20, h21, hm1, hm2⟩ :=
      ctx.two_hits hT hb p1 hc1 hT hb p2 hc2 hx1 hx2
    have e := congrArg (area2 T.b T.c) (hm1.symm.trans hm2)
    have e1 : area2 T.b T.c (lerp T.a T.b τ1) = (1 - τ1) * area2 T.a T.b T.c := by
      simp only [area2, lerp]; ring
    rw [e1, area2_lerp_self] at e
    rcases mul_eq_zero.1 e with h | h
    · linarith
    · exact hnd h
  · rintro hc1 hc2 ⟨hx1, hx2⟩
    obtain ⟨σ, τ1, τ2, -, h10, h11, h20, h21, hm1, hm2⟩ :=
      ctx.two_hits hT hb p1 hc1 hT hb p3 hc2 hx1 hx2
    have e := congrArg (area2 T.c T.a) (hm1.symm.trans hm2)
    have e1 : area2 T.c T.a (lerp T.a T.b τ1) = τ1 * area2 T.a T.b T.c := by
      simp only [area2, lerp]; ring
    rw [e1, area2_lerp_self] at e
    rcases mul_eq_zero.1 e with h | h
    · linarith
    · exact hnd h
  · rintro hc1 hc2 ⟨hx1, hx2⟩
    obtain ⟨σ, τ1, τ2, -, h10, h11, h20, h21, hm1, hm2⟩ :=
      ctx.two_hits hT hb p2 hc1 hT hb p3 hc2 hx1 hx2
    have e := congrArg (area2 T.c T.a) (hm1.symm.trans hm2)
    have e1 : area2 T.c T.a (lerp T.b T.c τ1) = (1 - τ1) * area2 T.a T.b T.c := by
      simp only [area2, lerp]; ring
    rw [e1, area2_lerp_self] at e
    rcases mul_eq_zero.1 e with h | h
    · linarith
    · exact hnd h

/-- At most one new triangle contains a given point off the lines. -/
theorem fan_count_le (ctx : GStep V L p) {x : point} (hg : generic (p :: V) x) :
    ((polygon_edges (bad_triangles p L)).map
      (fun edge => (⟨p, edge.1, edge.2⟩ : triangle))).countP
        (fun T => decide (strictly_inside T x)) ≤ 1 := by
  rw [List.countP_map]
  apply countP_le_one_of_pairwise
  unfold polygon_edges
  rw [List.pairwise_flatMap]
  constructor
  · intro T hTb
    obtain ⟨hT, hb⟩ := mem_bad_triangles.1 hTb
    have h : ((triangle_edges T).filter
        (fun edge => decide (edge_count (bad_triangles p L) edge ≤ 1))).Pairwise _ :=
      (ctx.fan_disjoint_same (x := x) hT hb).sublist (List.filter_sublist _)
    refine h.imp_of_mem ?_
    intro e1 e2 h1 h2 hR
    have c1 := (List.mem_filter.1 h1).2
    have c2 := (List.mem_filter.1 h2).2
    simp only [decide_eq_true_eq] at c1 c2
    simpa using hR c1 c2
  · have hd : (bad_triangles p L).Pairwise (fun T U => ∀ y, strictly_inside super0 y →
        generic V y → ¬ (strictly_inside T y ∧ strictly_inside U y)) :=
      ctx.inv.pairwise_disj.sublist (List.filter_sublist _)
    refine hd.imp_of_mem ?_
    intro T1 T2 hT1b hT2b hdisj e1 he1 e2 he2
    obtain ⟨hT1, hb1⟩ := mem_bad_triangles.1 hT1b
    obtain ⟨hT2, hb2⟩ := mem_bad_triangles.1 hT2b
    obtain ⟨he1T, c1⟩ := List.mem_filter.1 he1
    obtain ⟨he2T, c2⟩ := List.mem_filter.1 he2
    simp only [decide_eq_true_eq] at c1 c2
    have n1 := area2_ne_zero_nodup (ctx.inv.nondeg T1 hT1).1
    have n2 := area2_ne_zero_nodup (ctx.inv.nondeg T2 hT2).1
    obtain ⟨w1, ht1, -, -⟩ := third_vertex n1 (triangle_edges_vertices he1T).1
      (triangle_edges_vertices he1T).2 (triangle_edges_ne n1 he1T)
    obtain ⟨w2, ht2, -, -⟩ := third_vertex n2 (triangle_edges_vertices he2T).1
      (triangle_edges_vertices he2T).2 (triangle_edges_ne n2 he2T)
    rintro ⟨hx1, hx2⟩
    simp only [Function.comp, decide_eq_true_eq] at hx1 hx2
    exact ctx.fan_disjoint hg hT1 hb1 ht1 c1 hT2 hb2 ht2 c2 hdisj hx1 hx2

/-- After the step every point off the lines is strictly inside exactly one triangle. -/
theorem cover (ctx : GStep V L p) {x : point} (hx : strictly_inside super0 x)
    (hg : generic (p :: V) x) :
    (insert_point L p).countP (fun T => decide (strictly_inside T x)) = 1 := by
  have hgV := generic_tail hg
  obtain ⟨Tx, hTx, hxT⟩ := ctx.inv.cover_exists hx hgV
  rw [insert_point_eq, List.countP_append]
  by_cases hbad : is_in_circumcircle p Tx = true
  · have h0 : (L.filter (fun t => !is_in_circumcircle p t)).countP
        (fun T => decide (strictly_inside T x)) = 0 := by
      rw [List.countP_eq_zero]
      intro T hT hP
      obtain ⟨hTL, hnb⟩ := List.mem_filter.1 hT
      simp only [decide_eq_true_eq] at hP
      have := ctx.inv.cover_unique hx hgV hTL hTx hP hxT
      subst this
      rw [hbad] at hnb
      simp at hnb
    obtain ⟨e, he, hin⟩ := ctx.exists_fan hg hTx hxT hbad
    have h1 : 0 < ((polygon_edges (bad_triangles p L)).map
        (fun edge => (⟨p, edge.1, edge.2⟩ : triangle))).countP
          (fun T => decide (strictly_inside T x)) :=
      List.countP_pos_iff.2 ⟨⟨p, e.1, e.2⟩, List.mem_map.2 ⟨e, he, rfl⟩, by simpa using hin⟩
    have h2 := ctx.fan_count_le hg
    omega
  · have h1 : (L.filter (fun t => !is_in_circumcircle p t)).countP
        (fun T => decide (strictly_inside T x)) = 1 := by
      rw [List.countP_filter, ← ctx.inv.cover x hx hgV]
      apply List.countP_congr
      intro T hT
      simp only [Bool.and_eq_true, decide_eq_true_eq, Bool.not_eq_true',
        and_iff_left_iff_imp]
      intro hP
      have := ctx.inv.cover_unique hx hgV hT hTx hP hxT
      subst this
      simpa using hbad
    have h0 : ((polygon_edges (bad_triangles p L)).map
        (fun edge => (⟨p, edge.1, edge.2⟩ : triangle))).countP
          (fun T => decide (strictly_inside T x)) = 0 := by
      rw [List.countP_eq_zero]
      intro T hT hP
      obtain ⟨e, he, rfl⟩ := List.mem_map.1 hT
      simp only [decide_eq_true_eq] at hP
      obtain ⟨T0, hT0, hb0, -, ⟨w, ht0⟩, -⟩ := ctx.hole_edge he
      exact hbad (ctx.bad_of_fan hT0 hb0 ht0 hP hTx (strictly_inside_closed hxT))
    omega

/-- One insertion step keeps the invariant. -/
theorem next (ctx : GStep V L p) : GInv (p :: V) (insert_point L p) where
  corners := fun s hs => List.mem_cons_of_mem _ (ctx.inv.corners s hs)
  inside := by
    intro v hv
    rcases List.mem_cons.1 hv with rfl | h
    · exact Or.inr ctx.inside
    · exact ctx.inv.inside v h
  nondeg := by
    intro T hT
    rw [insert_point_eq, List.mem_append] at hT
    rcases hT with hT | hT
    · obtain ⟨hTL, -⟩ := List.mem_filter.1 hT
      exact ⟨(ctx.inv.nondeg T hTL).1,
        fun v hv => List.mem_cons_of_mem _ ((ctx.inv.nondeg T hTL).2 v hv)⟩
    · obtain ⟨e, he, rfl⟩ := List.mem_map.1 hT
      obtain ⟨T0, hT0, hb0, -, ⟨w, ht0⟩, hc⟩ := ctx.hole_edge he
      have hside := ctx.poly_side hT0 hb0 ht0 hc
      obtain ⟨huV, hvV, -⟩ := ctx.inv.mem_of_perm hT0 ht0
      constructor
      · show area2 p e.1 e.2 ≠ 0
        rw [← area2_rot p e.1 e.2]
        intro h; rw [h, zero_mul] at hside; exact lt_irrefl _ hside
      · intro v hv
        simp only [vertices, List.mem_cons, List.mem_singleton, List.not_mem_nil,
          or_false] at hv
        rcases hv with rfl | rfl | rfl
        · exact List.mem_cons_self _ _
        · exact List.mem_cons_of_mem _ huV
        · exact List.mem_cons_of_mem _ hvV
  empty := by
    intro T hT q hq
    rw [insert_point_eq, List.mem_append] at hT
    rcases hT with hT | hT
    · obtain ⟨hTL, hnb⟩ := List.mem_filter.1 hT
      rcases List.mem_cons.1 hq with rfl | h
      · simpa using hnb
      · exact ctx.inv.empty T hTL q h
    · obtain ⟨e, he, rfl⟩ := List.mem_map.1 hT
      obtain ⟨T0, hT0, hb0, -, ⟨w, ht0⟩, hc⟩ := ctx.hole_edge he
      rcases List.mem_cons.1 hq with rfl | h
      · exact is_in_circumcircle_vertex _ _ (by simp [vertices])
      · exact ctx.new_empty hT0 hb0 ht0 hc h
  cover := fun x hx hg => ctx.cover hx hg

end GStep
/-! ## The invariant along a run, for points strictly inside the super-triangle -/

theorem generic_congr {V V' : List point} (h : ∀ y, y ∈ V ↔ y ∈ V') {x : point}
    (hg : generic V x) : generic V' x := fun a ha b hb hab =>
  hg a ((h a).2 ha) b ((h b).2 hb) hab

namespace GInv

variable {V : List point} {L : List triangle}

theorem of_mem_iff {V' : List point} (h : ∀ y, y ∈ V ↔ y ∈ V') (inv : GInv V L) : GInv V' L where
  corners := fun s hs => (h s).1 (inv.corners s hs)
  inside := fun v hv => inv.inside v ((h v).2 hv)
  nondeg := fun T hT => ⟨(inv.nondeg T hT).1, fun v hv => (h v).1 ((inv.nondeg T hT).2 v hv)⟩
  empty := fun T hT q hq => inv.empty T hT q ((h q).2 hq)
  cover := fun x hx hg => inv.cover x hx (generic_congr (fun y => (h y).symm) hg)

/-- Inserting a point that was inserted before changes nothing. -/
theorem insert_old (inv : GInv V L) {p : point} (hp : p ∈ V) : insert_point L p = L := by
  have hbad : bad_triangles p L = [] := by
    unfold bad_triangles
    rw [List.filter_eq_nil_iff]
    intro T hT
    rw [inv.empty T hT p hp]
    exact Bool.false_ne_true
  rw [insert_point_eq, hbad]
  simp only [polygon_edges, List.flatMap_nil, List.map_nil, List.append_nil]
  rw [List.filter_eq_self]
  intro T hT
  rw [inv.empty T hT p hp]
  rfl

/-- A direction from `x` along which no line of `V` runs. -/
theorem exists_direction (V : List point) {u v x : point} (hx : area2 u v x ≠ 0) :
    ∃ z, ∀ a ∈ V, ∀ b ∈ V, a ≠ b → area2 a b x ≠ 0 ∨ area2 a b z ≠ 0 := by
  obtain ⟨τ, -, -, hP⟩ := exists_edge_point V u v 0 1 (by norm_num)
  refine ⟨lerp u v τ, ?_⟩
  intro a ha b hb hab
  by_cases h : area2 a b x = 0
  · right
    intro hz
    obtain ⟨h1, h2⟩ := hP a ha b hb hz
    exact hx (area2_eq_zero_of_line hab h1 h2 h)
  · exact Or.inl h

/-- Next to every point there is a point off the lines of `V`, weakly in the same cell. -/
theorem exists_generic_near (V : List point) {u v x : point} (hx : area2 u v x ≠ 0) :
    ∃ y, generic V y ∧ weak_cell V x y := by
  obtain ⟨z, hne⟩ := exists_direction V hx
  obtain ⟨ε, hε0, -, hg, hcell⟩ := exists_generic_after V x z hne 0 1 (by norm_num)
  refine ⟨lerp x z ε, hg, ?_⟩
  have := hcell 0 le_rfl hε0.le
  rwa [lerp_zero] at this

/-- Every point strictly inside the super-triangle is in a closed triangle of the list. -/
theorem exists_closed (inv : GInv V L) {x : point} (hx : strictly_inside super0 x) :
    ∃ T ∈ L, inside_closed T x := by
  have hx0 : area2 super0.a super0.b x ≠ 0 := by
    intro h
    have := hx.1
    rw [h, zero_mul] at this
    exact lt_irrefl _ this
  obtain ⟨y, hg, hcell⟩ := exists_generic_near V hx0
  have hys : strictly_inside super0 y :=
    strict_of_weak_cell hcell hg (fun s hs => inv.corners s hs) hx
  obtain ⟨T, hT, hyT⟩ := inv.cover_exists hys hg
  exact ⟨T, hT, closed_of_weak_cell (weak_cell_symm hcell) (inv.nondeg T hT).2 hyT⟩

/-- Every point of `V` strictly inside the super-triangle is a vertex of a triangle of the
list. -/
theorem exists_vertex (inv : GInv V L) {v : point} (hv : v ∈ V)
    (hs : strictly_inside super0 v) : ∃ T ∈ L, v ∈ vertices T := by
  obtain ⟨T, hT, hc⟩ := inv.exists_closed hs
  exact ⟨T, hT, mem_vertices_of_closed (inv.nondeg T hT).1 hc (inv.empty T hT v hv)⟩

/-- No point at all is strictly inside two triangles of the list. -/
theorem open_disjoint (inv : GInv V L) :
    L.Pairwise (fun T U => ∀ x, ¬ (strictly_inside T x ∧ strictly_inside U x)) := by
  refine inv.pairwise_disj.imp_of_mem ?_
  intro T U hT hU hdisj x ⟨hxT, hxU⟩
  have hx0 : area2 T.a T.b x ≠ 0 := by
    intro h
    have := hxT.1
    rw [h, zero_mul] at this
    exact lt_irrefl _ this
  obtain ⟨y, hg, hcell⟩ := exists_generic_near V hx0
  have hyT := strict_of_weak_cell hcell hg (inv.nondeg T hT).2 hxT
  have hyU := strict_of_weak_cell hcell hg (inv.nondeg U hU).2 hxU
  have hys := inv.strict_of_generic hg (inv.triangle_closed hT (strictly_inside_closed hyT))
  exact hdisj y hys hg ⟨hyT, hyU⟩

end GInv

theorem ginv_super : GInv (vertices super0) [super0] where
  corners := fun _ hs => hs
  inside := fun _ hv => Or.inl hv
  nondeg := by
    intro T hT
    rw [List.mem_singleton] at hT
    subst hT
    exact ⟨by decide!, fun v hv => hv⟩
  empty := by
    intro T hT q hq
    rw [List.mem_singleton] at hT
    subst hT
    exact is_in_circumcircle_vertex _ _ hq
  cover := by
    intro x hx _
    simp [List.countP_cons, hx]

/-- The invariant holds after inserting, one after the other, points strictly inside the
super-triangle. -/
theorem ginv_foldl : ∀ (pts : List point) (V : List point) (L : List triangle),
    GInv V L → (∀ q ∈ pts, strictly_inside super0 q) →
    ∃ V', (∀ x, x ∈ V' ↔ x ∈ V ++ pts) ∧ GInv V' (pts.foldl insert_point L) := by
  intro pts
  induction pts with
  | nil =>
    intro V L inv _
    exact ⟨V, fun x => by simp, inv⟩
  | cons p rest ih =>
    intro V L inv hin
    by_cases hpV : p ∈ V
    · obtain ⟨V', hV', inv'⟩ := ih V L inv (fun q hq => hin q (List.mem_cons_of_mem _ hq))
      refine ⟨V', fun x => (hV' x).trans ?_, ?_⟩
      · simp only [List.mem_append, List.mem_cons]
        constructor
        · rintro (h | h)
          · exact Or.inl h
          · exact Or.inr (Or.inr h)
        · rintro (h | rfl | h)
          · exact Or.inl h
          · exact Or.inl hpV
          · exact Or.inr h
      · rw [List.foldl_cons, inv.insert_old hpV]
        exact inv'
    · have ctx : GStep V L p :=
        { inv := inv
          fresh := hpV
          inside := hin p (List.mem_cons_self _ _) }
      obtain ⟨V', hV', inv'⟩ := ih (p :: V) (insert_point L p) ctx.next
        (fun q hq => hin q (List.mem_cons_of_mem _ hq))
      refine ⟨V', fun x => (hV' x).trans ?_, inv'⟩
      simp only [List.mem_append, List.mem_cons]
      tauto

/-- For input points strictly inside the super-triangle the returned list satisfies the
invariant with respect to the super-triangle corners and the input points. -/
theorem ginv_triangulate (pts : List point) (h : ∀ q ∈ pts, strictly_inside super0 q) :
    GInv (vertices super0 ++ pts) (triangulate (new pts)) := by
  rw [triangulate_eq_foldl]
  obtain ⟨V', hV', inv'⟩ := ginv_foldl pts (vertices super0) [super0] ginv_super h
  exact inv'.of_mem_iff hV'
/-! ## The run, step by step -/

theorem triangles_after_new (pts : List point) (k : Nat) :
    triangles_after (new pts) k = (pts.take k).foldl insert_point [super0] := by
  simp only [triangles_after, create_super_triangle, new, List.nil_append, super0]
  norm_num

theorem triangulate_eq_after (d : State) :
    triangulate d = triangles_after d d.points.length := by
  simp only [triangulate, triangulate_state, triangles_after, create_super_triangle,
    List.take_length]

theorem mem_scanned_triangles (d : State) (t : triangle) :
    t ∈ scanned_triangles d ↔ ∃ k, k < d.points.length ∧ t ∈ triangles_after d k := by
  simp [scanned_triangles, List.mem_flatMap]

/-- For input points strictly inside the super-triangle the invariant holds after every
iteration of the loop. -/
theorem ginv_after (pts : List point) (h : ∀ q ∈ pts, strictly_inside super0 q) (k : Nat) :
    GInv (vertices super0 ++ pts.take k) (triangles_after (new pts) k) := by
  rw [triangles_after_new]
  obtain ⟨V', hV', inv'⟩ := ginv_foldl (pts.take k) (vertices super0) [super0] ginv_super
    (fun q hq => h q (List.mem_of_mem_take hq))
  exact inv'.of_mem_iff hV'

theorem in_hull_inside {t : triangle} : ∀ (pts : List point),
    (∀ q ∈ pts, strictly_inside t q) → ∀ x, in_hull pts x → strictly_inside t x := by
  intro pts
  induction pts with
  | nil => intro _ x hx; exact absurd hx (by simp [in_hull])
  | cons p ps ih =>
    intro h x hx
    simp only [in_hull] at hx
    rcases hx with rfl | ⟨y, s, hy, hs0, hs1, rfl⟩
    · exact h _ (List.mem_cons_self _ _)
    · have hp := h p (List.mem_cons_self _ _)
      have hyin := ih (fun q hq => h q (List.mem_cons_of_mem _ hq)) y hy
      rcases eq_or_lt_of_le hs0 with hz | hpos
      · rw [← hz, lerp_zero]; exact hp
      · exact strictly_inside_lerp (strictly_inside_closed hp) hyin hpos hs1
/-! ## One step, on any list -/

theorem length_erase_first_equal (t : triangle) (l : List triangle) :
    l.length ≤ (erase_first_equal t l).length + 1 := by
  induction l with
  | nil => simp [erase_first_equal]
  | cons u us ih =>
    by_cases h : are_triangles_equal t u = true
    · simp [erase_first_equal, h]
    · simp only [erase_first_equal, h, Bool.false_eq_true, if_false, List.length_cons]
      omega

theorem length_remove_bad_ge : ∀ (bs l : List triangle),
    l.length ≤ (remove_bad bs l).length + bs.length := by
  intro bs
  induction bs with
  | nil => intro l; simp [remove_bad]
  | cons b bs ih =>
    intro l
    have h1 := length_erase_first_equal b l
    have h2 := ih (erase_first_equal b l)
    simp only [remove_bad, List.foldl_cons, List.length_cons] at h2 ⊢
    omega

theorem remove_bad_append (b1 b2 l : List triangle) :
    remove_bad (b1 ++ b2) l = remove_bad b2 (remove_bad b1 l) := by
  simp [remove_bad, List.foldl_append]

theorem one_le_edge_count {bad : List triangle} {t : triangle} (ht : t ∈ bad)
    {e : point × point} (he : e ∈ triangle_edges t) : 1 ≤ edge_count bad e := by
  unfold edge_count
  apply List.countP_pos_iff.2
  refine ⟨t, ht, ?_⟩
  simp only [Bool.and_eq_true, is_triangle_vertex_iff]
  exact triangle_edges_vertices he

theorem polygon_edges_eq_filter (bad : List triangle) :
    polygon_edges bad
      = (bad.flatMap triangle_edges).filter (fun e => decide (edge_count bad e = 1)) := by
  unfold polygon_edges
  rw [List.filter_flatMap]
  apply List.flatMap_congr
  intro t ht
  apply List.filter_congr
  intro e he
  have := one_le_edge_count ht he
  simp only [decide_eq_decide]
  omega

theorem canvas_in_circle (p : point) (hx0 : 0 ≤ p.x) (hx1 : p.x ≤ 1919) (hy0 : 0 ≤ p.y)
    (hy1 : p.y ≤ 1079) : is_in_circumcircle p super0 = true := by
  rw [is_in_circumcircle_iff_num]
  simp only [in_circle_num, in_circle_det, area2, super0]
  nlinarith [mul_nonneg hx0 (show 0 ≤ 7680 - p.x by linarith),
    mul_nonneg hy0 (show 0 ≤ 4320 - p.y by linarith)]

theorem canvas_inside (p : point) (hx0 : 0 ≤ p.x) (hx1 : p.x ≤ 1919) (hy0 : 0 ≤ p.y)
    (hy1 : p.y ≤ 1079) : strictly_inside super0 p := by
  simp only [strictly_inside, area2, super0]
  refine ⟨?_, ?_, ?_⟩ <;> nlinarith
/-! ## Three points -/

/-- A triangle of the list with no super-triangle corner as a vertex has the three input
points as vertices. -/
theorem Inv.free_triangle {A B C : point} {L : List triangle}
    (inv : Inv (vertices super0 ++ [A, B, C]) L) {U : triangle} (hU : U ∈ L)
    (hfree : touches_super super0 U = false) : (vertices U).Perm [A, B, C] := by
  obtain ⟨hn, hV⟩ := inv.verts U hU
  simp only [touches_super, Bool.or_eq_false_iff] at hfree
  obtain ⟨⟨h1, h2⟩, h3⟩ := hfree
  rw [← Bool.not_eq_true, is_triangle_vertex_iff] at h1 h2 h3
  have hsub : vertices U ⊆ [A, B, C] := by
    intro v hv
    rcases List.mem_append.1 (hV v hv) with hs | hp
    · exfalso
      simp only [vertices, List.mem_cons, List.mem_singleton, List.not_mem_nil,
        or_false] at hs
      rcases hs with rfl | rfl | rfl
      · exact h1 hv
      · exact h2 hv
      · exact h3 hv
    · exact hp
  exact (List.subperm_of_subset hn hsub).perm_of_length_le (by simp [vertices])

/-! ## The claims -/

/-- Claim C4: for a triangle with non-collinear vertices the circumcenter computed by
`is_in_circumcircle` exists, is equidistant from the three vertices and is the only such
point; the test is true exactly when the squared distance from the circumcenter to `p` is
strictly less than the one to `t.a`; it is false at the three vertices and at every point
on the circle. -/
theorem circumcircle_test_correct (t : triangle) (h : ¬ collinear t.a t.b t.c) :
    ∃ cc, circumcenter t = some cc
      ∧ square_distance cc t.a = square_distance cc t.b
      ∧ square_distance cc t.b = square_distance cc t.c
      ∧ (∀ o, square_distance o t.a = square_distance o t.b →
          square_distance o t.b = square_distance o t.c → o = cc)
      ∧ (∀ p, is_in_circumcircle p t = true ↔ square_distance cc p < square_distance cc t.a)
      ∧ is_in_circumcircle t.a t = false
      ∧ is_in_circumcircle t.b t = false
      ∧ is_in_circumcircle t.c t = false
      ∧ (∀ p, square_distance cc p = square_distance cc t.a → is_in_circumcircle p t = false) := by
  have heq := circumcenter_formula_equidistant t.a t.b t.c h
  have hiff := fun p => is_in_circumcircle_iff p t h
  have hfalse : ∀ p, square_distance (circumcenter_formula t.a t.b t.c) p
      = square_distance (circumcenter_formula t.a t.b t.c) t.a →
      is_in_circumcircle p t = false := by
    intro p hp
    rw [← Bool.not_eq_true, hiff p, hp]
    exact lt_irrefl _
  exact ⟨_, circumcenter_eq t h, heq.1, heq.2,
    fun o h1 h2 => equidistant_unique t.a t.b t.c o h h1 h2, hiff,
    hfalse _ rfl, hfalse _ heq.1.symm, hfalse _ (heq.1.trans heq.2).symm, hfalse⟩

/-- Witness of `circumcircle_test_correct` at the triangle `(0,0), (4,0), (0,2)`. -/
theorem circumcircle_test_correct_witness :
    ¬ collinear (⟨0, 0⟩ : point) ⟨4, 0⟩ ⟨0, 2⟩
    ∧ ∃ cc, circumcenter ⟨⟨0, 0⟩, ⟨4, 0⟩, ⟨0, 2⟩⟩ = some cc
      ∧ (∀ p, is_in_circumcircle p ⟨⟨0, 0⟩, ⟨4, 0⟩, ⟨0, 2⟩⟩ = true
          ↔ square_distance cc p < square_distance cc ⟨0, 0⟩) :=
  ⟨by decide!,
    (circumcircle_test_correct ⟨⟨0, 0⟩, ⟨4, 0⟩, ⟨0, 2⟩⟩ (by decide!)).imp
      (fun _ hcc => ⟨hcc.1, hcc.2.2.2.2.1⟩)⟩

/-- Claim C5: a triangle `(A,B,C)` is `are_triangles_equal` to every triangle whose stored
vertices are a permutation of `A, B, C`, in particular to `(C,B,A)` and to `(B,C,A)`. -/
theorem are_triangles_equal_of_perm (A B C X Y Z : point) (h : [X, Y, Z].Perm [A, B, C]) :
    are_triangles_equal ⟨A, B, C⟩ ⟨X, Y, Z⟩ = true
    ∧ are_triangles_equal ⟨A, B, C⟩ ⟨C, B, A⟩ = true
    ∧ are_triangles_equal ⟨A, B, C⟩ ⟨B, C, A⟩ = true := by
  refine ⟨?_, ?_, ?_⟩
  · rw [are_triangles_equal_iff_subset]
    intro v hv
    exact h.symm.subset hv
  · rw [are_triangles_equal_iff_subset]; simp [vertices]
  · rw [are_triangles_equal_iff_subset]; simp [vertices]

/-- Witness of `are_triangles_equal_of_perm` at `(0,0), (1,0), (0,1)` and its rotation. -/
theorem are_triangles_equal_of_perm_witness :
    [(⟨0, 1⟩ : point), ⟨0, 0⟩, ⟨1, 0⟩].Perm [⟨0, 0⟩, ⟨1, 0⟩, ⟨0, 1⟩]
    ∧ are_triangles_equal ⟨⟨0, 0⟩, ⟨1, 0⟩, ⟨0, 1⟩⟩ ⟨⟨0, 1⟩, ⟨0, 0⟩, ⟨1, 0⟩⟩ = true :=
  ⟨by decide!,
    (are_triangles_equal_of_perm ⟨0, 0⟩ ⟨1, 0⟩ ⟨0, 1⟩ ⟨0, 1⟩ ⟨0, 0⟩ ⟨1, 0⟩ (by decide!)).1⟩

/-- Claim C6, counterexample: `((0,0), (0,0), (1,0))` is `are_triangles_equal` to
`((0,0), (1,0), (0,1))` although the vertex multisets differ, and the comparison in the
other direction is false. -/
theorem are_triangles_equal_not_multiset :
    are_triangles_equal ⟨⟨0, 0⟩, ⟨0, 0⟩, ⟨1, 0⟩⟩ ⟨⟨0, 0⟩, ⟨1, 0⟩, ⟨0, 1⟩⟩ = true
    ∧ (↑(vertices ⟨⟨0, 0⟩, ⟨0, 0⟩, ⟨1, 0⟩⟩) : Multiset point)
        ≠ ↑(vertices ⟨⟨0, 0⟩, ⟨1, 0⟩, ⟨0, 1⟩⟩)
    ∧ are_triangles_equal ⟨⟨0, 0⟩, ⟨1, 0⟩, ⟨0, 1⟩⟩ ⟨⟨0, 0⟩, ⟨0, 0⟩, ⟨1, 0⟩⟩ = false := by
  refine ⟨by decide!, ?_, by decide!⟩
  rw [Ne, Multiset.coe_eq_coe]
  decide!

/-- Claim C6, amended: `are_triangles_equal t1 t2` is true exactly when every vertex of `t1`
is a vertex of `t2`; when the vertices of `t1` are pairwise distinct this is equality of the
two vertex multisets, and when the vertices of both are pairwise distinct the comparison is
symmetric. -/
theorem are_triangles_equal_vertex_inclusion (t1 t2 : triangle) :
    (are_triangles_equal t1 t2 = true ↔ ∀ v ∈ vertices t1, v ∈ vertices t2)
    ∧ ((vertices t1).Nodup →
        (are_triangles_equal t1 t2 = true ↔
          (↑(vertices t1) : Multiset point) = ↑(vertices t2)))
    ∧ ((vertices t1).Nodup → (vertices t2).Nodup →
        are_triangles_equal t1 t2 = are_triangles_equal t2 t1) := by
  refine ⟨are_triangles_equal_iff_subset t1 t2, ?_, ?_⟩
  · intro h
    rw [Multiset.coe_eq_coe]
    exact are_triangles_equal_iff_perm t1 t2 h
  · intro h1 h2
    rw [Bool.eq_iff_iff, are_triangles_equal_iff_perm t1 t2 h1,
      are_triangles_equal_iff_perm t2 t1 h2]
    exact ⟨List.Perm.symm, List.Perm.symm⟩

/-- Witness of `are_triangles_equal_vertex_inclusion` at two orderings of
`(0,0), (1,0), (0,1)`. -/
theorem are_triangles_equal_vertex_inclusion_witness :
    (vertices ⟨⟨0, 0⟩, ⟨1, 0⟩, ⟨0, 1⟩⟩).Nodup ∧ (vertices ⟨⟨0, 1⟩, ⟨0, 0⟩, ⟨1, 0⟩⟩).Nodup
    ∧ are_triangles_equal ⟨⟨0, 0⟩, ⟨1, 0⟩, ⟨0, 1⟩⟩ ⟨⟨0, 1⟩, ⟨0, 0⟩, ⟨1, 0⟩⟩
        = are_triangles_equal ⟨⟨0, 1⟩, ⟨0, 0⟩, ⟨1, 0⟩⟩ ⟨⟨0, 0⟩, ⟨1, 0⟩, ⟨0, 1⟩⟩ :=
  ⟨by decide!, by decide!,
    (are_triangles_equal_vertex_inclusion ⟨⟨0, 0⟩, ⟨1, 0⟩, ⟨0, 1⟩⟩
      ⟨⟨0, 1⟩, ⟨0, 0⟩, ⟨1, 0⟩⟩).2.2 (by decide!) (by decide!)⟩

/-- Claim C7: when `cross_product slope1 slope2` is not zero, `get_intersection` returns a
point that lies on both lines `p1 + t * slope1` and `p2 + u * slope2`, and it is the only
such point. -/
theorem get_intersection_common_point (p1 p2 slope1 slope2 : point)
    (h : cross_product slope1 slope2 ≠ 0) :
    ∃ X, get_intersection p1 p2 slope1 slope2 = some X ∧
      (∃ t u : ℚ, X = line_point p1 slope1 t ∧ X = line_point p2 slope2 u) ∧
      (∀ Y : point, (∃ t u : ℚ, Y = line_point p1 slope1 t ∧ Y = line_point p2 slope2 u) →
        Y = X) := by
  refine ⟨_, get_intersection_some p1 p2 slope1 slope2 h, ?_, ?_⟩
  · refine ⟨_, cross_product ⟨p2.x - p1.x, p2.y - p1.y⟩ slope1 / cross_product slope1 slope2,
      rfl, ?_⟩
    simp only [cross_product] at h ⊢
    apply point_ext
    · simp only [line_point]; field_simp; ring
    · simp only [line_point]; field_simp; ring
  · rintro Y ⟨t, u, h1, h2⟩
    have hx : p1.x + t * slope1.x = p2.x + u * slope2.x := by
      have := congrArg point.x (h1.symm.trans h2); simpa [line_point] using this
    have hy : p1.y + t * slope1.y = p2.y + u * slope2.y := by
      have := congrArg point.y (h1.symm.trans h2); simpa [line_point] using this
    have ht : t = cross_product ⟨p2.x - p1.x, p2.y - p1.y⟩ slope2
        / cross_product slope1 slope2 := by
      simp only [cross_product] at h ⊢
      rw [eq_div_iff h]
      linear_combination slope2.y * hx - slope2.x * hy
    rw [h1, ht]

/-- Witness of `get_intersection_common_point`: the lines through `(0,0)` with direction
`(1,1)` and through `(2,0)` with direction `(-1,1)` meet at `(1,1)`. -/
theorem get_intersection_common_point_witness :
    cross_product ⟨1, 1⟩ ⟨-1, 1⟩ ≠ 0
    ∧ get_intersection ⟨0, 0⟩ ⟨2, 0⟩ ⟨1, 1⟩ ⟨-1, 1⟩ = some ⟨1, 1⟩
    ∧ ∃ X, get_intersection ⟨0, 0⟩ ⟨2, 0⟩ ⟨1, 1⟩ ⟨-1, 1⟩ = some X ∧
      (∃ t u : ℚ, X = line_point ⟨0, 0⟩ ⟨1, 1⟩ t ∧ X = line_point ⟨2, 0⟩ ⟨-1, 1⟩ u) ∧
      (∀ Y : point,
        (∃ t u : ℚ, Y = line_point ⟨0, 0⟩ ⟨1, 1⟩ t ∧ Y = line_point ⟨2, 0⟩ ⟨-1, 1⟩ u) →
        Y = X) :=
  ⟨by decide!, by decide!,
    get_intersection_common_point ⟨0, 0⟩ ⟨2, 0⟩ ⟨1, 1⟩ ⟨-1, 1⟩ (by decide!)⟩

/-- Claim C8: with enough loop iterations (any number above the length of the list)
`remove_super_triangle` terminates and leaves exactly the triangles that have no corner of
the super-triangle as a vertex, in their original order. -/
theorem remove_super_triangle_filters (d : State) (k : Nat) :
    remove_super_triangle (d.triangles.length + 1 + k) d
      = some { d with
          triangles := d.triangles.filter (fun t => !touches_super d.super_triangle t) } := by
  unfold remove_super_triangle
  have := remove_super_loop_spec d.super_triangle (d.triangles.length + 1 + k) [] d.triangles
    (by omega)
  simp only [List.length_nil, List.nil_append, Nat.cast_zero] at this
  rw [this]
  rfl

/-- Claim C9: on a freshly constructed engine `create_super_triangle` leaves the
super-triangle `((-1920,-1080), (-1920,5400), (9600,-1080))` as the only triangle (in general
`((-W,-H), (-W,5H), (5W,-H))` on an engine without triangles); `triangulate` inserts the
input points one by one into that one-element list, and on the empty point list it returns
exactly that one triangle. -/
theorem super_triangle_seeding :
    (∀ pts : List point, (create_super_triangle (new pts)).triangles
        = [⟨⟨-1920, -1080⟩, ⟨-1920, 5400⟩, ⟨9600, -1080⟩⟩])
    ∧ (∀ d : State, d.triangles = [] → (create_super_triangle d).triangles
        = [⟨⟨-d.width, -d.height⟩, ⟨-d.width, 5 * d.height⟩, ⟨5 * d.width, -d.height⟩⟩])
    ∧ (∀ pts : List point, triangulate (new pts)
        = pts.foldl insert_point [⟨⟨-1920, -1080⟩, ⟨-1920, 5400⟩, ⟨9600, -1080⟩⟩])
    ∧ triangulate (new []) = [⟨⟨-1920, -1080⟩, ⟨-1920, 5400⟩, ⟨9600, -1080⟩⟩] := by
  refine ⟨?_, ?_, ?_, by decide!⟩
  · intro pts
    simp only [create_super_triangle, new, List.nil_append]
    norm_num
  · intro d h
    simp [create_super_triangle, h]
  · intro pts
    exact triangulate_eq_foldl pts

/-- Claim C10: on the unit-square corners the returned triangles without a super-triangle
corner are exactly `((1,0), (0,0), (0,1))` and `((1,1), (1,0), (0,1))`; each has its vertices
among the square corners, has the diagonal endpoints `(1,0)` and `(0,1)` as vertices, and has
a right angle with two legs of length 1 at its remaining vertex. -/
theorem unit_square_scenario :
    (triangulate_state (new unit_square)).super_triangle = super0
    ∧ (triangulate (new unit_square)).filter (fun t => !touches_super super0 t)
        = [⟨⟨1, 0⟩, ⟨0, 0⟩, ⟨0, 1⟩⟩, ⟨⟨1, 1⟩, ⟨1, 0⟩, ⟨0, 1⟩⟩]
    ∧ (∀ t ∈ (triangulate (new unit_square)).filter (fun t => !touches_super super0 t),
        (∀ v ∈ vertices t, v ∈ unit_square)
        ∧ is_triangle_vertex ⟨1, 0⟩ t = true ∧ is_triangle_vertex ⟨0, 1⟩ t = true
        ∧ ∃ r ∈ vertices t, r ≠ ⟨1, 0⟩ ∧ r ≠ ⟨0, 1⟩
            ∧ square_distance r ⟨1, 0⟩ = 1 ∧ square_distance r ⟨0, 1⟩ = 1
            ∧ dot_at r ⟨1, 0⟩ ⟨0, 1⟩ = 0) := by
  have h : (triangulate (new unit_square)).filter (fun t => !touches_super super0 t)
        = [⟨⟨1, 0⟩, ⟨0, 0⟩, ⟨0, 1⟩⟩, ⟨⟨1, 1⟩, ⟨1, 0⟩, ⟨0, 1⟩⟩] := by decide!
  refine ⟨by decide!, h, ?_⟩
  rw [h]
  intro t ht
  simp only [List.mem_cons, List.mem_singleton, List.not_mem_nil, or_false] at ht
  rcases ht with rfl | rfl
  · exact ⟨by decide!, by decide!, by decide!, ⟨0, 0⟩, by decide!, by decide!, by decide!,
      by decide!, by decide!, by decide!⟩
  · exact ⟨by decide!, by decide!, by decide!, ⟨1, 1⟩, by decide!, by decide!, by decide!,
      by decide!, by decide!, by decide!⟩

/-- Claim C17: for every list of bad triangles, each edge of a bad triangle has count at
least 1, an edge is put in `polygon_edges` exactly when it is an edge `(a,b)`, `(b,c)` or
`(c,a)` of a bad triangle with count 1, in the order in which the edges are found; and one
insertion step appends exactly the triangles `(p, e0, e1)`, one for each edge `(e0, e1)` of
`polygon_edges`, in that order. -/
theorem hole_boundary_and_fan (triangles : List triangle) (p : point) :
    (∀ bad : List triangle,
      (∀ t ∈ bad, ∀ e ∈ triangle_edges t, 1 ≤ edge_count bad e)
      ∧ (∀ e, e ∈ polygon_edges bad ↔
          ∃ t ∈ bad, e ∈ triangle_edges t ∧ edge_count bad e = 1)
      ∧ polygon_edges bad
          = (bad.flatMap (fun t => [(t.a, t.b), (t.b, t.c), (t.c, t.a)])).filter
              (fun e => decide (edge_count bad e = 1)))
    ∧ insert_point triangles p
        = remove_bad (bad_triangles p triangles) triangles
          ++ (polygon_edges (bad_triangles p triangles)).map
              (fun e => (⟨p, e.1, e.2⟩ : triangle)) := by
  refine ⟨fun bad => ⟨fun t ht e he => one_le_edge_count ht he, ?_,
    polygon_edges_eq_filter bad⟩, rfl⟩
  intro e
  rw [mem_polygon_edges]
  constructor
  · rintro ⟨t, ht, he, hc⟩
    have := one_le_edge_count ht he
    exact ⟨t, ht, he, by omega⟩
  · rintro ⟨t, ht, he, hc⟩
    exact ⟨t, ht, he, by omega⟩

/-- Claim C19: every point `p` with `0 ≤ p.x ≤ 1919` and `0 ≤ p.y ≤ 1079` is strictly
inside the super-triangle and strictly inside its circumcircle, and `triangulate` on `[p]`
returns exactly the three triangles `(p,S1,S2), (p,S2,S3), (p,S3,S1)`, with `S1, S2, S3`
the super-triangle corners in that order. -/
theorem canvas_point_in_super_triangle (p : point) (hx0 : 0 ≤ p.x) (hx1 : p.x ≤ 1919)
    (hy0 : 0 ≤ p.y) (hy1 : p.y ≤ 1079) :
    strictly_inside super0 p
    ∧ is_in_circumcircle p super0 = true
    ∧ triangulate (new [p])
        = [⟨p, ⟨-1920, -1080⟩, ⟨-1920, 5400⟩⟩, ⟨p, ⟨-1920, 5400⟩, ⟨9600, -1080⟩⟩,
            ⟨p, ⟨9600, -1080⟩, ⟨-1920, -1080⟩⟩] := by
  have hin := canvas_in_circle p hx0 hx1 hy0 hy1
  refine ⟨canvas_inside p hx0 hx1 hy0 hy1, hin, ?_⟩
  rw [triangulate_eq_foldl, List.foldl_cons, List.foldl_nil, insert_point_eq]
  have hbad : bad_triangles p [super0] = [super0] := by
    simp [bad_triangles, hin]
  have hkeep : [super0].filter (fun t => !is_in_circumcircle p t) = [] := by
    simp [hin]
  have hpoly : polygon_edges [super0]
      = [(super0.a, super0.b), (super0.b, super0.c), (super0.c, super0.a)] := by decide!
  rw [hbad, hkeep, hpoly]
  rfl

/-- Witness of `canvas_point_in_super_triangle` at the canvas corner `(1919,1079)`. -/
theorem canvas_point_in_super_triangle_witness :
    strictly_inside super0 ⟨1919, 1079⟩
    ∧ is_in_circumcircle ⟨1919, 1079⟩ super0 = true
    ∧ triangulate (new [⟨1919, 1079⟩])
        = [⟨⟨1919, 1079⟩, ⟨-1920, -1080⟩, ⟨-1920, 5400⟩⟩,
            ⟨⟨1919, 1079⟩, ⟨-1920, 5400⟩, ⟨9600, -1080⟩⟩,
            ⟨⟨1919, 1079⟩, ⟨9600, -1080⟩, ⟨-1920, -1080⟩⟩] :=
  canvas_point_in_super_triangle ⟨1919, 1079⟩ (by decide!) (by decide!) (by decide!)
    (by decide!)

/-- Claim C20: for a triangle with non-collinear vertices, `is_in_circumcircle` gives the
same answer for every order of the three vertices. -/
theorem circumcircle_test_order_independent (p a b c x y z : point)
    (hnc : ¬ collinear a b c) (h : [x, y, z].Perm [a, b, c]) :
    is_in_circumcircle p ⟨x, y, z⟩ = is_in_circumcircle p ⟨a, b, c⟩
    ∧ ¬ collinear x y z := by
  refine ⟨is_in_circumcircle_perm p ⟨x, y, z⟩ ⟨a, b, c⟩ h, ?_⟩
  intro hc
  apply hnc
  rw [collinear_iff_area2] at hc ⊢
  have e := area2_sq_perm h
  rw [hc, zero_mul] at e
  exact mul_self_eq_zero.1 e.symm

/-- Witness of `circumcircle_test_order_independent` at the triangle `((0,0), (4,0), (0,4))`
read as `((0,4), (0,0), (4,0))`, and the point `(1,1)`. -/
theorem circumcircle_test_order_independent_witness :
    ¬ collinear ⟨0, 0⟩ ⟨4, 0⟩ ⟨0, 4⟩
    ∧ is_in_circumcircle ⟨1, 1⟩ ⟨⟨0, 4⟩, ⟨0, 0⟩, ⟨4, 0⟩⟩
        = is_in_circumcircle ⟨1, 1⟩ ⟨⟨0, 0⟩, ⟨4, 0⟩, ⟨0, 4⟩⟩ :=
  ⟨by decide!,
    (circumcircle_test_order_independent ⟨1, 1⟩ ⟨0, 0⟩ ⟨4, 0⟩ ⟨0, 4⟩ ⟨0, 4⟩ ⟨0, 0⟩ ⟨4, 0⟩
      (by decide!) (by decide!)).1⟩

end Delaunay
